import Mathlib

/-!
Verification development for the birth-death simulation and Yule-fitting core
of the DendroPy `dendropy/model/birthdeath.py` module.

The Python module grows phylogenetic trees by mutating a node/edge structure
in place.  We embed the trees as rose trees whose nodes carry a unique integer
identifier (standing for Python object identity), an edge length, and the
birth and death rates attached to the node.  All numeric quantities are
embedded as rationals; the pseudo-random generator is embedded as explicit
streams of draws.

The tree collaborator operations (`new_child`, `prune_subtree`,
`suppress_unifurcations`, `leaf_nodes`) and the random-source operations are
external to the repository; they are modelled from the specification, as
documented on each definition.  Everything else is translated from the source
of `birthdeath.py`.
-/

/-- Data carried by one tree node: its identity, the length of the edge
subtending it, and the birth and death rates attached to the node. -/
structure NodeData where
  nid : ℕ
  elen : ℚ
  brate : ℚ
  drate : ℚ
  deriving Repr, DecidableEq

mutual

/-- A rose tree of nodes, mirroring the DendroPy tree structure grown by the
simulators.  Children are kept in insertion order. -/
inductive PTree : Type where
  | mk (data : NodeData) (children : PForest)
  deriving Repr, DecidableEq

/-- A list of sibling subtrees (children of one node, left to right). -/
inductive PForest : Type where
  | nil : PForest
  | cons (t : PTree) (ts : PForest) : PForest
  deriving Repr, DecidableEq

end

/-- Identity of the root node of a subtree. -/
def PTree.rootId : PTree → ℕ
  | .mk d _ => d.nid

/-- Data of the root node of a subtree. -/
def PTree.rootData : PTree → NodeData
  | .mk d _ => d

/-- Edge length of the root node of a subtree. -/
def PTree.rootLen : PTree → ℚ
  | .mk d _ => d.elen

mutual

/-- All node identities in the tree, in preorder. -/
def idsT : PTree → List ℕ
  | .mk d cs => d.nid :: idsF cs

/-- All node identities in a forest, in preorder. -/
def idsF : PForest → List ℕ
  | .nil => []
  | .cons t ts => idsT t ++ idsF ts

end

mutual

/-- Identities of the leaf nodes of a tree, in preorder.  Modelled from the
spec: the external `leaf_nodes` collaborator lists the tips of the tree; we
fix the reproducible preorder (left-to-right) enumeration. -/
def leafIdsT : PTree → List ℕ
  | .mk d .nil => [d.nid]
  | .mk _ (.cons t ts) => leafIdsF (.cons t ts)

/-- Identities of the leaf nodes of a forest, in preorder. -/
def leafIdsF : PForest → List ℕ
  | .nil => []
  | .cons t ts => leafIdsT t ++ leafIdsF ts

end

/-- Number of leaves of the tree. -/
def numLeaves (t : PTree) : ℕ := (leafIdsT t).length

mutual

/-- All edge lengths occurring in the tree. -/
def lensT : PTree → List ℚ
  | .mk d cs => d.elen :: lensF cs

/-- All edge lengths occurring in a forest. -/
def lensF : PForest → List ℚ
  | .nil => []
  | .cons t ts => lensT t ++ lensF ts

end

/-- Every edge length in the tree is non-negative. -/
def LensNonneg (t : PTree) : Prop := ∀ q ∈ lensT t, 0 ≤ q

mutual

/-- Apply an identity-indexed update function to every edge length. -/
def updLenT (f : ℕ → ℚ → ℚ) : PTree → PTree
  | .mk d cs => .mk { d with elen := f d.nid d.elen } (updLenF f cs)

/-- Apply an identity-indexed update function to every edge length of a forest. -/
def updLenF (f : ℕ → ℚ → ℚ) : PForest → PForest
  | .nil => .nil
  | .cons t ts => .cons (updLenT f t) (updLenF f ts)

end

/-- Add `w` to the edge lengths of all nodes whose identity is in `is`
(the per-step `for nd in leaf_nodes: nd.edge.length += waiting_time`). -/
def addLenTo (is : List ℕ) (w : ℚ) (t : PTree) : PTree :=
  updLenT (fun i l => if i ∈ is then l + w else l) t

/-- Set the edge length of the node with identity `a` to `v`. -/
def setLen (a : ℕ) (v : ℚ) (t : PTree) : PTree :=
  updLenT (fun i l => if i = a then v else l) t

/-- Append two leaf children at the end of a forest. -/
def appendTwo : PForest → NodeData → NodeData → PForest
  | .nil, c1, c2 => .cons (.mk c1 .nil) (.cons (.mk c2 .nil) .nil)
  | .cons t ts, c1, c2 => .cons t (appendTwo ts c1 c2)

mutual

/-- Append two children (as leaves) to the node with identity `a`,
mirroring two successive `new_child` calls.  Modelled from the spec:
`new_child` attaches a fresh child node to the given node. -/
def addChT (a : ℕ) (c1 c2 : NodeData) : PTree → PTree
  | .mk d cs =>
      if d.nid = a then .mk d (appendTwo cs c1 c2)
      else .mk d (addChF a c1 c2 cs)

/-- Append two children to the identified node inside a forest. -/
def addChF (a : ℕ) (c1 c2 : NodeData) : PForest → PForest
  | .nil => .nil
  | .cons t ts => .cons (addChT a c1 c2 t) (addChF a c1 c2 ts)

end

mutual

/-- Remove all children of the node with identity `a` (pruning each child
subtree, with unifurcation suppression deferred).  Modelled from the spec:
`prune_subtree(child, suppress_unifurcations=False)` detaches the child
subtree from its parent. -/
def dropChT (a : ℕ) : PTree → PTree
  | .mk d cs => if d.nid = a then .mk d .nil else .mk d (dropChF a cs)

/-- Remove all children of the identified node inside a forest. -/
def dropChF (a : ℕ) : PForest → PForest
  | .nil => .nil
  | .cons t ts => .cons (dropChT a t) (dropChF a ts)

end

mutual

/-- Remove the subtree rooted at the node with identity `a` from the tree
(the node itself included); if `a` is the root of the whole tree or absent,
the tree is unchanged.  Modelled from the spec: `prune_subtree` with
unifurcation suppression deferred. -/
def removeSubT (a : ℕ) : PTree → PTree
  | .mk d cs => .mk d (removeSubF a cs)

/-- Remove the identified subtree from a forest. -/
def removeSubF (a : ℕ) : PForest → PForest
  | .nil => .nil
  | .cons t ts =>
      if t.rootId = a then removeSubF a ts
      else .cons (removeSubT a t) (removeSubF a ts)

end

mutual

/-- The subtree rooted at the node with identity `a`, if present
(first occurrence in preorder). -/
def subtreeAtT (a : ℕ) : PTree → Option PTree
  | .mk d cs => if d.nid = a then some (.mk d cs) else subtreeAtF a cs

/-- The subtree rooted at the identified node inside a forest. -/
def subtreeAtF (a : ℕ) : PForest → Option PTree
  | .nil => none
  | .cons t ts =>
      match subtreeAtT a t with
      | some st => some st
      | none => subtreeAtF a ts

end

/-- `x` lies in the subtree rooted at the node with identity `a`
(in particular `descIn t a a` holds whenever `a` is present). -/
def descIn (t : PTree) (a x : ℕ) : Prop :=
  match subtreeAtT a t with
  | some st => x ∈ idsT st
  | none => False

instance (t : PTree) (a x : ℕ) : Decidable (descIn t a x) := by
  unfold descIn
  cases subtreeAtT a t with
  | some st => exact inferInstanceAs (Decidable (x ∈ idsT st))
  | none => exact inferInstanceAs (Decidable False)

/-- `x` is a strict descendant of the node with identity `a`. -/
def properDescIn (t : PTree) (a x : ℕ) : Prop := descIn t a x ∧ x ≠ a

/-- Root identities of the trees in a forest. -/
def rootIdsF : PForest → List ℕ
  | .nil => []
  | .cons t ts => t.rootId :: rootIdsF ts

mutual

/-- Identity of the parent of the node with identity `a`, if any. -/
def parentOfT (a : ℕ) : PTree → Option ℕ
  | .mk d cs => if a ∈ rootIdsF cs then some d.nid else parentOfF a cs

/-- Parent lookup inside a forest. -/
def parentOfF (a : ℕ) : PForest → Option ℕ
  | .nil => none
  | .cons t ts =>
      match parentOfT a t with
      | some p => some p
      | none => parentOfF a ts

end

/-- Number of trees in a forest. -/
def lenF : PForest → ℕ
  | .nil => 0
  | .cons _ ts => lenF ts + 1

/-- Number of children of the node with identity `a`, if present. -/
def childCountOf (t : PTree) (a : ℕ) : Option ℕ :=
  match subtreeAtT a t with
  | some (.mk _ cs) => some (lenF cs)
  | none => none

/-- Identities of the children of the node with identity `a`. -/
def childIdsOf (t : PTree) (a : ℕ) : List ℕ :=
  match subtreeAtT a t with
  | some (.mk _ cs) => rootIdsF cs
  | none => []

/-- Birth and death rates attached to the node with identity `a`, if present
(mirrors reading `nd.birth_rate` / `nd.death_rate`). -/
def ratesOf (t : PTree) (a : ℕ) : Option (ℚ × ℚ) :=
  match subtreeAtT a t with
  | some st => some (st.rootData.brate, st.rootData.drate)
  | none => none

/-- Edge length of the node with identity `a`, if present. -/
def getLen (t : PTree) (a : ℕ) : Option ℚ :=
  match subtreeAtT a t with
  | some st => some st.rootLen
  | none => none

mutual

/-- Collapse all unifurcations: a node with exactly one child is dissolved
into that child, the surviving node keeping the child identity and the sum of
the two edge lengths.  Modelled from the spec: `suppress_unifurcations`
collapses all remaining unifurcations after pruning. -/
def suppressT : PTree → PTree
  | .mk d .nil => .mk d .nil
  | .mk d (.cons c .nil) =>
      match suppressT c with
      | .mk dc cs => .mk { dc with elen := dc.elen + d.elen } cs
  | .mk d (.cons c (.cons c2 cs)) =>
      .mk d (.cons (suppressT c) (.cons (suppressT c2) (suppressF cs)))

/-- Collapse all unifurcations in each tree of a forest. -/
def suppressF : PForest → PForest
  | .nil => .nil
  | .cons t ts => .cons (suppressT t) (suppressF ts)

end

/-- One step of the upward walk of the extinct-tip pruning phase: move from a
node to its parent while the parent has exactly one child (translated from
the `while (nd.parent_node is not None) and (len(nd.parent_node.child_nodes())
== 1)` loop).  `fuel` bounds the walk; it is instantiated with the number of
nodes of the tree, which suffices. -/
def climb (t : PTree) : ℕ → ℕ → ℕ
  | 0, x => x
  | fuel + 1, x =>
      match parentOfT x t with
      | none => x
      | some p => if childCountOf t p = some 1 then climb t fuel p else x

/-- The extinct-tip pruning step (translated from the loop body at the end of
`birth_death_tree`): walk upward through now-unifurcating ancestors, then
prune the resulting subtree if it has a parent. -/
def pruneExtinctStep (t : PTree) (x : ℕ) : PTree :=
  let y := climb t (idsT t).length x
  match parentOfT y t with
  | some _ => removeSubT y t
  | none => t

/-- Sanity example: preorder identity listing. -/
example :
    idsT (.mk ⟨0, 0, 1, 1⟩ (.cons (.mk ⟨1, 2, 1, 1⟩ .nil)
      (.cons (.mk ⟨2, 3, 1, 1⟩ .nil) .nil))) = [0, 1, 2] := by decide

example :
    leafIdsT (.mk ⟨0, 0, 1, 1⟩ (.cons (.mk ⟨1, 2, 1, 1⟩ .nil)
      (.cons (.mk ⟨2, 3, 1, 1⟩ .nil) .nil))) = [1, 2] := by decide

/-! ### The random event source

Modelled from the spec: the random source supplies exponential, uniform and
gaussian draws.  Each distribution is embedded as a stream of rationals with
its own cursor; an exponential draw is the next value of the `exps` stream
(valid streams supply non-negative values there), a uniform draw the next
value of `unifs` (valid streams supply values in `[0, 1)`), and a
`gauss(0, sd)` draw is `sd` times the next value of `gausses` (so that a zero
standard deviation yields exactly zero, as in the source). -/

/-- Explicit random source: three streams of draws with cursors. -/
structure Rng where
  exps : ℕ → ℚ
  unifs : ℕ → ℚ
  gausses : ℕ → ℚ
  ei : ℕ
  ui : ℕ
  gi : ℕ

/-- Next exponential variate (the stream value itself; scaling by the rate is
irrelevant to the verified properties and is absorbed into the stream). -/
def Rng.drawExp (r : Rng) : ℚ × Rng :=
  (r.exps r.ei, { r with ei := r.ei + 1 })

/-- Next uniform variate on `[0, 1)` (used by `rng.random()`,
`rng.uniform(0, 1)` and the weighted-choice collaborator). -/
def Rng.drawUnif (r : Rng) : ℚ × Rng :=
  (r.unifs r.ui, { r with ui := r.ui + 1 })

/-- Next `gauss(0, sd)` variate, modelled as `sd` times the stream value. -/
def Rng.drawGauss (sd : ℚ) (r : Rng) : ℚ × Rng :=
  (sd * r.gausses r.gi, { r with gi := r.gi + 1 })

/-- Streams whose exponential draws are all non-negative (an exponential
variate is non-negative by definition). -/
def Rng.ValidExp (r : Rng) : Prop := ∀ i, 0 ≤ r.exps i

/-- Errors surfaced by the embedded simulators. -/
inductive SimErr where
  | outOfFuel
  | totalExtinction
  | assertionFailed
  | domainErr
  deriving Repr, DecidableEq

/-- Pick the first element whose cumulative weight meets or exceeds the
target.  Modelled from the spec (4.1 Weighted Event Selector): the selected
index is the first cumulative bucket whose cumulative sum meets or exceeds a
uniform draw scaled by the total weight. -/
def weightedPick {α : Type} : List α → List ℚ → ℚ → Option α
  | [], _, _ => none
  | [e], _, _ => some e
  | e :: es, [], _ => some (List.headD es e)
  | e :: es, w :: ws, target =>
      if target ≤ w then some e else weightedPick es ws (target - w)

/-- The `probability.weighted_choice` collaborator.  Modelled from the spec
(4.1): draw one uniform variate, scale it by the total weight, and return the
first element whose cumulative weight bucket reaches it. -/
def weighted_choice {α : Type} (elems : List α) (ws : List ℚ) (r : Rng) :
    Option α × Rng :=
  let (u, r1) := r.drawUnif
  (weightedPick elems ws (u * ws.sum), r1)

/-! ### GSA time-slice selection (translated from the source) -/

/-- The scan of the slice-selection loop of `birth_death_tree` (lines 246-250
of the source): `r` is decremented by each duration and `selected_slice` is
overwritten whenever `r` has become negative.  The loop body contains no
`break`, so later slices keep overwriting the selection. -/
def gsaSelectScan {α : Type} : ℚ → Option (ℚ × α) → List (ℚ × α) → Option (ℚ × α)
  | _, sel, [] => sel
  | r, sel, sl :: rest =>
      let r2 := r - sl.1
      gsaSelectScan r2 (if r2 < 0 then some sl else sel) rest

/-- Slice selection as the source performs it: scale the uniform draw by the
total recorded duration and run the overwrite scan. -/
def gsaSelectSlice {α : Type} (slices : List (ℚ × α)) (u : ℚ) : Option (ℚ × α) :=
  gsaSelectScan (u * (slices.map Prod.fst).sum) none slices

/-- First slice whose cumulative duration meets or exceeds the target. -/
def gsaSelectFirst {α : Type} : ℚ → List (ℚ × α) → Option (ℚ × α)
  | _, [] => none
  | target, sl :: rest =>
      if target ≤ sl.1 then some sl else gsaSelectFirst (target - sl.1) rest

/-- Slice selection as the specification states it: the first slice whose
cumulative duration meets or exceeds the uniform draw scaled by the total
recorded duration.  This definition follows the words of the spec and is
compared against `gsaSelectSlice`, which is translated from the source. -/
def gsaSelectSliceAsSpecified {α : Type} (slices : List (ℚ × α)) (u : ℚ) :
    Option (ℚ × α) :=
  gsaSelectFirst (u * (slices.map Prod.fst).sum) slices

/-! ### The continuous-time birth-death simulator (`birth_death_tree`) -/

/-- Keyword arguments of `birth_death_tree` that the claims exercise.  A
`taxon_namespace` argument is represented by its size; `none` stands for an
omitted keyword. -/
structure ContKwargs where
  birth_rate : ℚ
  death_rate : ℚ
  birth_rate_sd : ℚ
  death_rate_sd : ℚ
  ntax : Option ℕ
  taxon_namespace_size : Option ℕ
  max_time : Option ℚ
  gsa_ntax : Option ℕ
  repeat_until_success : Option Bool

/-- Configuration errors raised by `birth_death_tree` before any simulation
step (the three `ValueError`s of lines 104-114). -/
inductive CfgErr where
  | gsaWithoutTarget
  | missingTermination
  | gsaTooSmall
  deriving Repr, DecidableEq

/-- Resolved configuration of a `birth_death_tree` run. -/
structure ContCfg where
  birth_rate : ℚ
  death_rate : ℚ
  birth_rate_sd : ℚ
  death_rate_sd : ℚ
  target_num_taxa : Option ℕ
  max_time : Option ℚ
  gsa_ntax : Option ℕ
  terminate_at_full_tree : Bool
  repeat_until_success : Bool

/-- Argument validation and defaulting of `birth_death_tree` (lines 95-116):
the target count defaults to the namespace size, `gsa_ntax` defaults to
`1 + target` with `terminate_at_full_tree` set, and `repeat_until_success`
defaults to `True`. -/
def resolveContCfg (kw : ContKwargs) : Except CfgErr ContCfg :=
  let target : Option ℕ :=
    match kw.ntax, kw.taxon_namespace_size with
    | none, some n => some n
    | t, _ => t
  let base : ContCfg :=
    { birth_rate := kw.birth_rate, death_rate := kw.death_rate
      birth_rate_sd := kw.birth_rate_sd, death_rate_sd := kw.death_rate_sd
      target_num_taxa := target, max_time := kw.max_time
      gsa_ntax := none, terminate_at_full_tree := false
      repeat_until_success := kw.repeat_until_success.getD true }
  match target with
  | none =>
      if kw.gsa_ntax.isSome then .error .gsaWithoutTarget
      else if kw.max_time.isNone then .error .missingTermination
      else .ok base
  | some t =>
      match kw.gsa_ntax with
      | none => .ok { base with gsa_ntax := some (1 + t), terminate_at_full_tree := true }
      | some g =>
          if g < t then .error .gsaTooSmall
          else .ok { base with gsa_ntax := some g }

/-- State of a `birth_death_tree` run: the growing tree, the live-leaf list
(in the order the source maintains it), the elapsed time, the recorded GSA
time slices, the recorded extinct tips, and the next fresh node identity. -/
structure ContState where
  tree : PTree
  isRooted : Bool
  leafNodes : List ℕ
  totalTime : ℚ
  slices : List (ℚ × List (ℕ × ℚ))
  extinctTips : List ℕ
  nextId : ℕ
  deriving DecidableEq

/-- Initial state: a single-node rooted tree with edge length zero carrying
the process-level rates (lines 124-128). -/
def contInit (cfg : ContCfg) : ContState :=
  { tree := .mk ⟨0, 0, cfg.birth_rate, cfg.death_rate⟩ .nil
    isRooted := true
    leafNodes := [0]
    totalTime := 0
    slices := []
    extinctTips := []
    nextId := 1 }

/-- The flat event vector of one growth step (lines 155-165): for each live
leaf in order, a birth event then a death event, each weighted by the rate
attached to the leaf (defaulting to the process-level rate). -/
def contEvents (t : PTree) (br dr : ℚ) : List ℕ → List ((ℕ × Bool) × ℚ)
  | [] => []
  | i :: rest =>
      let p := (ratesOf t i).getD (br, dr)
      ((i, true), p.1) :: ((i, false), p.2) :: contEvents t br dr rest

/-- The edge snapshot of a GSA time slice (lines 176-180): every live leaf
paired with its current edge length. -/
def contSnapshot (t : PTree) (leaves : List ℕ) : List (ℕ × ℚ) :=
  leaves.map (fun i => (i, (getLen t i).getD 0))

/-- The extinction-restart of the continuous engine (lines 230-235): the
live-leaf list becomes the seed alone, all non-root structure is pruned,
the extinct-tip record is cleared and the elapsed time is reset to zero. -/
def contRestart (s : ContState) : ContState :=
  { s with
    tree := dropChT s.tree.rootId s.tree
    leafNodes := [s.tree.rootId]
    extinctTips := []
    totalTime := 0 }

/-- Result of one iteration of the growth loop: either the loop breaks with
the given state, or it continues. -/
inductive StepRes where
  | done (s : ContState) (rng : Rng)
  | next (s : ContState) (rng : Rng)

/-- Event application of one growth step (lines 195-236): normalize the
rates, select a node/event pair, and process a birth, a death, an extinction
break, an extinction error or an extinction restart. -/
def contApplyEvent (cfg : ContCfg) (s : ContState) (rng : Rng)
    (events : List ((ℕ × Bool) × ℚ)) (total : ℚ) : Except SimErr StepRes :=
  let probs := events.map (fun e => e.2 / total)
  let (pick, rng1) := weighted_choice (events.map Prod.fst) probs rng
  match pick with
  | none => Except.error SimErr.domainErr
  | some (nd, birthEvent) =>
      let leaves1 := s.leafNodes.erase nd
      if birthEvent then
        let p := (ratesOf s.tree nd).getD (cfg.birth_rate, cfg.death_rate)
        let (g1, rng2) := rng1.drawGauss cfg.birth_rate_sd
        let (g2, rng3) := rng2.drawGauss cfg.death_rate_sd
        let (g3, rng4) := rng3.drawGauss cfg.birth_rate_sd
        let (g4, rng5) := rng4.drawGauss cfg.death_rate_sd
        let c1 : NodeData := ⟨s.nextId, 0, p.1 + g1, p.2 + g2⟩
        let c2 : NodeData := ⟨s.nextId + 1, 0, p.1 + g3, p.2 + g4⟩
        Except.ok (StepRes.next
          { s with
            tree := addChT nd c1 c2 s.tree
            leafNodes := leaves1 ++ [c1.nid, c2.nid]
            nextId := s.nextId + 2 } rng5)
      else
        if 0 < leaves1.length then
          Except.ok (StepRes.next
            { s with leafNodes := leaves1, extinctTips := s.extinctTips ++ [nd] } rng1)
        else
          if cfg.gsa_ntax.isSome ∧ s.slices ≠ [] then
            Except.ok (StepRes.done { s with leafNodes := leaves1 } rng1)
          else if ¬ cfg.repeat_until_success then
            Except.error SimErr.totalExtinction
          else
            Except.ok (StepRes.next (contRestart { s with leafNodes := leaves1 }) rng1)

/-- The growth body of one loop iteration (lines 153-195): build the event
vector, draw the waiting time, record a GSA slice when the tree sits at the
target size (breaking if `terminate_at_full_tree`), extend all live edges and
the elapsed time, and apply the event unless it falls beyond `max_time`. -/
def contGrow (cfg : ContCfg) (s : ContState) (rng : Rng) : Except SimErr StepRes :=
  let events := contEvents s.tree cfg.birth_rate cfg.death_rate s.leafNodes
  let total := (events.map Prod.snd).sum
  -- rng.expovariate: modelled from the spec, a domain error on a
  -- non-positive total rate
  if total ≤ 0 then Except.error SimErr.domainErr
  else
    let (w, rng1) := rng.drawExp
    let record : Bool :=
      cfg.gsa_ntax.isSome && (cfg.target_num_taxa == some s.leafNodes.length)
    let s1 :=
      if record then
        { s with slices := s.slices ++ [(w, contSnapshot s.tree s.leafNodes)] }
      else s
    if record && cfg.terminate_at_full_tree then Except.ok (StepRes.done s1 rng1)
    else
      let s2 :=
        { s1 with
          tree := addLenTo s1.leafNodes w s1.tree
          totalTime := s1.totalTime + w }
      match cfg.max_time with
      | none => contApplyEvent cfg s2 rng1 events total
      | some mt =>
          if s2.totalTime ≤ mt then contApplyEvent cfg s2 rng1 events total
          else Except.ok (StepRes.next s2 rng1)

/-- One full iteration of the growth loop, with the top-of-loop termination
checks of lines 146-151. -/
def contStep (cfg : ContCfg) (s : ContState) (rng : Rng) : Except SimErr StepRes :=
  match cfg.gsa_ntax with
  | none =>
      match cfg.max_time with
      | none => Except.error SimErr.assertionFailed
      | some mt =>
          if mt ≤ s.totalTime then Except.ok (StepRes.done s rng)
          else contGrow cfg s rng
  | some g =>
      if g ≤ s.leafNodes.length then Except.ok (StepRes.done s rng)
      else contGrow cfg s rng

/-- The growth loop, bounded by `fuel` iterations. -/
def contLoop (cfg : ContCfg) : ℕ → ContState → Rng → Except SimErr (ContState × Rng)
  | 0, _, _ => Except.error SimErr.outOfFuel
  | fuel + 1, s, rng =>
      match contStep cfg s rng with
      | .error e => .error e
      | .ok (.done s1 rng1) => .ok (s1, rng1)
      | .ok (.next s1 rng1) => contLoop cfg fuel s1 rng1

/-- One edge of the GSA restore phase (lines 255-268): prune everything grown
below the snapshot leaf, discard the pruned immediate children and the leaf
itself from the extinct-tip record, and set the terminal edge length to the
snapshot length plus the slice duration. -/
def contRestoreStep (dur : ℚ) (acc : PTree × List ℕ) (e : ℕ × ℚ) :
    PTree × List ℕ :=
  let cids := childIdsOf acc.1 e.1
  let t1 := dropChT e.1 acc.1
  let tips1 := (cids.foldl (fun l c => l.erase c) acc.2).erase e.1
  (setLen e.1 (e.2 + dur) t1, tips1)

/-- The GSA restore phase over all edges of the selected slice. -/
def contRestore (s : ContState) (dur : ℚ) (edges : List (ℕ × ℚ)) : ContState :=
  let p := edges.foldl (contRestoreStep dur) (s.tree, s.extinctTips)
  { s with tree := p.1, extinctTips := p.2 }

/-- The shared post-processing of both the GSA and the non-GSA paths
(lines 276-295): prune the recorded extinct tips (walking upward through
now-unifurcating ancestors), collapse the remaining unifurcations, and
assign taxa.  Taxon assignment is external to this core and does not change
the shape or edge lengths of the tree; it is modelled as the identity. -/
def contPostProcess (s : ContState) : ContState :=
  { s with tree := suppressT (s.extinctTips.foldl pruneExtinctStep s.tree) }

/-- End phase of `birth_death_tree` (lines 240-295): on the GSA path, select
a slice (the `assert(selected_slice is not None)` of line 251 becomes an
assertion failure when no slice was recorded) and restore it, then
post-process. -/
def contFinalize (cfg : ContCfg) (s : ContState) (rng : Rng) :
    Except SimErr (ContState × Rng) :=
  match cfg.gsa_ntax with
  | none => .ok (contPostProcess s, rng)
  | some _ =>
      let (u, rng1) := rng.drawUnif
      match gsaSelectSlice s.slices u with
      | none => .error .assertionFailed
      | some sl => .ok (contPostProcess (contRestore s sl.1 sl.2), rng1)

/-- `birth_death_tree` up to the end of the growth loop (validation,
initialization, growth). -/
def birth_death_sim (kw : ContKwargs) (rng : Rng) (fuel : ℕ) :
    Except CfgErr (Except SimErr (ContState × Rng)) :=
  match resolveContCfg kw with
  | .error e => .error e
  | .ok cfg => .ok (contLoop cfg fuel (contInit cfg) rng)

/-- The full `birth_death_tree` call: validation, growth, finalization.
Returns the grown tree together with its rootedness flag. -/
def birth_death_tree (kw : ContKwargs) (rng : Rng) (fuel : ℕ) :
    Except CfgErr (Except SimErr (PTree × Bool)) :=
  match resolveContCfg kw with
  | .error e => .error e
  | .ok cfg =>
      .ok (match contLoop cfg fuel (contInit cfg) rng with
        | .error e => .error e
        | .ok (s, rng1) =>
            match contFinalize cfg s rng1 with
            | .error e => .error e
            | .ok (s2, _) => .ok (s2.tree, s2.isRooted))

/-! ### The discrete-generation birth-death simulator
(`discrete_birth_death_tree`) -/

/-- Keyword arguments of `discrete_birth_death_tree` that the claims
exercise.  `max_time` counts generations. -/
structure DiscKwargs where
  birth_rate : ℚ
  death_rate : ℚ
  birth_rate_sd : ℚ
  death_rate_sd : ℚ
  ntax : Option ℕ
  taxon_namespace_size : Option ℕ
  max_time : Option ℕ
  repeat_until_success : Option Bool

/-- Resolved configuration of a `discrete_birth_death_tree` run. -/
structure DiscCfg where
  birth_rate : ℚ
  death_rate : ℚ
  birth_rate_sd : ℚ
  death_rate_sd : ℚ
  target_num_taxa : Option ℕ
  target_num_gens : Option ℕ
  repeat_until_success : Bool

/-- Argument validation and defaulting of `discrete_birth_death_tree`
(lines 354-369): at least one of `ntax`, `taxon_namespace` or `max_time`
must be given; when a namespace is given the target count defaults to its
size; `repeat_until_success` defaults to `False`. -/
def resolveDiscCfg (kw : DiscKwargs) : Except CfgErr DiscCfg :=
  if kw.ntax.isNone ∧ kw.taxon_namespace_size.isNone ∧ kw.max_time.isNone then
    .error .missingTermination
  else
    let target : Option ℕ :=
      match kw.taxon_namespace_size with
      | some n => some (kw.ntax.getD n)
      | none => kw.ntax
    .ok { birth_rate := kw.birth_rate, death_rate := kw.death_rate
          birth_rate_sd := kw.birth_rate_sd, death_rate_sd := kw.death_rate_sd
          target_num_taxa := target, target_num_gens := kw.max_time
          repeat_until_success := kw.repeat_until_success.getD false }

/-- State of a `discrete_birth_death_tree` run. -/
structure DiscState where
  tree : PTree
  isRooted : Bool
  numGens : ℕ
  nextId : ℕ

/-- Initial state: a single-node rooted tree with edge length zero carrying
the process-level rates (lines 377-381). -/
def discInit (cfg : DiscCfg) : DiscState :=
  { tree := .mk ⟨0, 0, cfg.birth_rate, cfg.death_rate⟩ .nil
    isRooted := true
    numGens := 0
    nextId := 1 }

/-- Per-generation processing of one leaf (lines 386-413): extend its edge by
one unit, then a uniform draw decides between a birth (two perturbed
children), a death (pruning the leaf, or the extinction error / the
generation-counter reset when the leaf is the seed), or nothing. -/
def discProcessLeaf (cfg : DiscCfg) (s : DiscState) (i : ℕ) (rng : Rng) :
    Except SimErr (DiscState × Rng) :=
  let p := (ratesOf s.tree i).getD (cfg.birth_rate, cfg.death_rate)
  let t1 := updLenT (fun j l => if j = i then l + 1 else l) s.tree
  let (u, rng1) := rng.drawUnif
  if u < p.1 then
    let (g1, rng2) := rng1.drawGauss cfg.birth_rate_sd
    let (g2, rng3) := rng2.drawGauss cfg.death_rate_sd
    let (g3, rng4) := rng3.drawGauss cfg.birth_rate_sd
    let (g4, rng5) := rng4.drawGauss cfg.death_rate_sd
    let c1 : NodeData := ⟨s.nextId, 0, p.1 + g1, p.2 + g2⟩
    let c2 : NodeData := ⟨s.nextId + 1, 0, p.1 + g3, p.2 + g4⟩
    .ok ({ s with tree := addChT i c1 c2 t1, nextId := s.nextId + 2 }, rng5)
  else if p.1 < u ∧ u < p.1 + p.2 then
    if i ≠ s.tree.rootId then
      -- tree.prune_subtree(nd) with its default unifurcation suppression
      .ok ({ s with tree := suppressT (removeSubT i t1) }, rng1)
    else if ¬ cfg.repeat_until_success then
      .error .totalExtinction
    else
      .ok ({ s with tree := t1, numGens := 0 }, rng1)
  else
    .ok ({ s with tree := t1 }, rng1)

/-- One generation: process every leaf of the list captured at generation
start, in order. -/
def discGeneration (cfg : DiscCfg) :
    List ℕ → DiscState → Rng → Except SimErr (DiscState × Rng)
  | [], s, rng => .ok (s, rng)
  | i :: rest, s, rng =>
      match discProcessLeaf cfg s i rng with
      | .error e => .error e
      | .ok (s1, rng1) => discGeneration cfg rest s1 rng1

/-- Loop condition of the generation loop (lines 384-385). -/
def discCond (cfg : DiscCfg) (s : DiscState) : Prop :=
  (cfg.target_num_taxa = none ∨
    ∃ T, cfg.target_num_taxa = some T ∧ (leafIdsT s.tree).length < T) ∧
  (cfg.target_num_gens = none ∨
    ∃ G, cfg.target_num_gens = some G ∧ s.numGens < G)

/-- Decide one conjunct of the loop condition (no bound, or the counter still
below it).  Built structurally so that concrete runs evaluate definitionally. -/
def decOptBound (o : Option ℕ) (n : ℕ) :
    Decidable (o = none ∨ ∃ T, o = some T ∧ n < T) :=
  match o with
  | none => isTrue (Or.inl rfl)
  | some T =>
      if hl : n < T then isTrue (Or.inr ⟨T, rfl, hl⟩)
      else
        isFalse (fun hc => by
          rcases hc with hc | ⟨T2, hT2, hl2⟩
          · exact Option.noConfusion hc
          · injection hT2 with hh
            exact hl (hh ▸ hl2))

instance (cfg : DiscCfg) (s : DiscState) : Decidable (discCond cfg s) :=
  @instDecidableAnd _ _ (decOptBound cfg.target_num_taxa (leafIdsT s.tree).length)
    (decOptBound cfg.target_num_gens s.numGens)

/-- The generation loop, bounded by `fuel` generations. -/
def discLoop (cfg : DiscCfg) : ℕ → DiscState → Rng → Except SimErr (DiscState × Rng)
  | 0, _, _ => .error .outOfFuel
  | fuel + 1, s, rng =>
      if discCond cfg s then
        match discGeneration cfg (leafIdsT s.tree) s rng with
        | .error e => .error e
        | .ok (s1, rng1) =>
            discLoop cfg fuel { s1 with numGens := s1.numGens + 1 } rng1
      else .ok (s, rng)

/-- The post-stop extension loop (lines 422-427), translated as written: the
condition re-reads the unchanged `num_gens`, and a uniform draw below the
combined birth and death probability breaks the loop; otherwise one more
generation is added. -/
def discExtension (cfg : DiscCfg) (numGens : ℕ) :
    ℕ → ℕ → Rng → Except SimErr (ℕ × Rng)
  | 0, _, _ => .error .outOfFuel
  | fuel + 1, gensToAdd, rng =>
      if cfg.target_num_gens = none ∨
          ∃ G, cfg.target_num_gens = some G ∧ numGens < G then
        let (u, rng1) := rng.drawUnif
        if u < cfg.birth_rate + cfg.death_rate then .ok (gensToAdd, rng1)
        else discExtension cfg numGens fuel (gensToAdd + 1) rng1
      else .ok (gensToAdd, rng)

/-- Diagnostic result of a full discrete run. -/
structure DiscResult where
  tree : PTree
  isRooted : Bool
  numGens : ℕ
  gensToAdd : ℕ
  deriving DecidableEq

/-- The full `discrete_birth_death_tree` call with its internal counters
exposed: validation, the generation loop, the post-stop extension applied to
all current leaf edges, and (structure-preserving) taxon assignment. -/
def discrete_birth_death_sim (kw : DiscKwargs) (rng : Rng) (fuel : ℕ) :
    Except CfgErr (Except SimErr DiscResult) :=
  match resolveDiscCfg kw with
  | .error e => .error e
  | .ok cfg =>
      .ok (match discLoop cfg fuel (discInit cfg) rng with
        | .error e => .error e
        | .ok (s, rng1) =>
            match discExtension cfg s.numGens fuel 0 rng1 with
            | .error e => .error e
            | .ok (gta, _) =>
                .ok { tree := addLenTo (leafIdsT s.tree) (gta : ℚ) s.tree
                      isRooted := s.isRooted
                      numGens := s.numGens
                      gensToAdd := gta })

/-- The full `discrete_birth_death_tree` call, returning the grown tree and
its rootedness flag. -/
def discrete_birth_death_tree (kw : DiscKwargs) (rng : Rng) (fuel : ℕ) :
    Except CfgErr (Except SimErr (PTree × Bool)) :=
  match discrete_birth_death_sim kw rng fuel with
  | .error e => .error e
  | .ok (.error e) => .ok (.error e)
  | .ok (.ok r) => .ok (.ok (r.tree, r.isRooted))

/-! ### The Yule model fitter (`fit_pure_birth_model`) -/

/-- Descending sort (`sorted(internal_node_ages, reverse=True)`). -/
def sortDesc (l : List ℚ) : List ℚ :=
  List.insertionSort (fun a b => b ≤ a) l

/-- The descending order used by `sortDesc` is total. -/
instance : IsTotal ℚ (fun a b => b ≤ a) := ⟨fun a b => le_total b a⟩

/-- The descending order used by `sortDesc` is transitive. -/
instance : IsTrans ℚ (fun a b => b ≤ a) := ⟨fun _ _ _ h1 h2 => le_trans h2 h1⟩

/-- The descending order used by `sortDesc` is antisymmetric. -/
instance : IsAntisymm ℚ (fun a b => b ≤ a) := ⟨fun _ _ h1 h2 => le_antisymm h2 h1⟩

/-- The log-likelihood value of a fit: either negative infinity, or the
finite value `s1 + s2 + s3` determined by `lo`, `up` and `smax` (with
`s1 = sum of log k for k in [lo, up)`, `s2 = (up - lo) * log smax` and
`s3 = lo - up`); the determining data is recorded. -/
inductive Loglik where
  | negInf
  | finite (lo up : ℕ) (smax : ℚ)
  deriving Repr, DecidableEq

/-- Result of a Yule fit: the two-key mapping of the source. -/
structure YuleFit where
  birth_rate : ℚ
  log_likelihood : Loglik
  deriving Repr, DecidableEq

/-- Failures of `fit_pure_birth_model`.  `indexErr`, `maxEmptyErr` and
`zeroDivErr` are uncaught exceptions of the source (`x[0]` on an empty list,
`max()` on an empty sequence, and a zero denominator); `likelihoodFailure`
is the `ValueError` raised in the `except` branch of lines 600-602. -/
inductive FitErr where
  | indexErr
  | maxEmptyErr
  | zeroDivErr
  | likelihoodFailure
  deriving Repr, DecidableEq

/-- `fit_pure_birth_model` (lines 570-610) on a precomputed list of internal
node ages.  The `math.log` domain error of the `try` block occurs exactly
when `smax ≤ 0` (the integer range `[lo, up)` only contains values at least
2); the `except` branch then raises when
`ignore_likelihood_calculation_failure` is set, and otherwise substitutes
negative infinity. -/
def fit_pure_birth_model (internal_node_ages : List ℚ)
    (ignore_likelihood_calculation_failure : Bool) : Except FitErr YuleFit :=
  let x := sortDesc internal_node_ages
  if x = [] then .error .indexErr
  else
    let st1 := x.headI
    let st2 : ℚ := 0
    let nvec := List.range' 2 x.length
    let pairs := nvec.zip x
    let nv0 := x.filter (fun i => decide (i < st1) && decide (st2 ≤ i))
    let loL := (pairs.filter (fun p => decide (st1 ≤ p.2))).map Prod.fst
    let upL := (pairs.filter (fun p => decide (st2 ≤ p.2))).map Prod.fst
    match loL.max?, upL.max? with
    | some lo, some up =>
        let nv :=
          if st1 ≤ x.headI then (st1 :: nv0).map (fun i => i - st2)
          else nv0.map (fun i => i - st2)
        let t1 : ℚ := (up : ℚ) - (lo : ℚ)
        let t2 : ℚ := (lo : ℚ) * nv.headI
        let t3 : ℚ := ((nv.drop 1).take (up - lo)).sum
        if t2 + t3 = 0 then .error .zeroDivErr
        else
          let smax := t1 / (t2 + t3)
          if smax ≤ 0 then
            if ignore_likelihood_calculation_failure then .error .likelihoodFailure
            else .ok ⟨smax, .negInf⟩
          else .ok ⟨smax, .finite lo up smax⟩
    | _, _ => .error .maxEmptyErr

/-! ### Invariants of the continuous growth loop -/

/-- Well-formedness of one recorded GSA time slice against the current tree
and extinct-tip record: the recorded duration is non-negative, the snapshot
names `target` distinct nodes of the tree, none a descendant of another, the
recorded edge lengths are non-negative, and every leaf of the tree either
descends from a snapshot node or is a recorded extinct tip. -/
def SliceInv (target : ℕ) (t : PTree) (extinct : List ℕ)
    (sl : ℚ × List (ℕ × ℚ)) : Prop :=
  0 ≤ sl.1 ∧
  (sl.2.map Prod.fst).Nodup ∧
  (sl.2.map Prod.fst).length = target ∧
  (∀ a ∈ sl.2.map Prod.fst, a ∈ idsT t) ∧
  (∀ a ∈ sl.2.map Prod.fst, ∀ b ∈ sl.2.map Prod.fst, a ≠ b → ¬ descIn t a b) ∧
  (∀ e ∈ sl.2, 0 ≤ e.2) ∧
  (∀ w ∈ leafIdsT t, (∃ a ∈ sl.2.map Prod.fst, descIn t a w) ∨ w ∈ extinct)

/-- The part of the loop invariant that the finalization phase needs: node
identities are distinct, the rootedness flag is set, edge lengths are
non-negative, the extinct-tip record is duplicate-free and names only leaves,
and every recorded slice is well-formed. -/
def FinalInv (target : ℕ) (s : ContState) : Prop :=
  (idsT s.tree).Nodup ∧
  s.isRooted = true ∧
  LensNonneg s.tree ∧
  s.extinctTips.Nodup ∧
  (∀ x ∈ s.extinctTips, x ∈ leafIdsT s.tree) ∧
  (∀ sl ∈ s.slices, SliceInv target s.tree s.extinctTips sl)

/-- Full invariant of the continuous growth loop: on top of `FinalInv`, all
identities are below the fresh-identity counter and the tree's leaves are
exactly the live leaves plus the recorded extinct tips. -/
def ContInv (target : ℕ) (s : ContState) : Prop :=
  FinalInv target s ∧
  (∀ i ∈ idsT s.tree, i < s.nextId) ∧
  (leafIdsT s.tree).Perm (s.leafNodes ++ s.extinctTips)

/-! ### Derived configuration helpers -/

/-- The effective target taxon count of `discrete_birth_death_tree`
arguments: when a taxon namespace is given, `ntax` defaulting to its size;
otherwise `ntax` (lines 360-366). -/
def discTarget (kw : DiscKwargs) : Option ℕ :=
  match kw.taxon_namespace_size with
  | some n => some (kw.ntax.getD n)
  | none => kw.ntax

/-- The effective target taxon count of `birth_death_tree` arguments: `ntax`,
defaulting to the taxon-namespace size when `ntax` is omitted (lines 95-99).
This repeats the `target` computation of `resolveContCfg` so that claims can
be stated directly in terms of the keyword arguments. -/
def contTarget (kw : ContKwargs) : Option ℕ :=
  match kw.ntax, kw.taxon_namespace_size with
  | none, some n => some n
  | t, _ => t

/-- Decidable equality of `Except` results (used to evaluate concrete runs). -/
instance exceptDecEq {ε α : Type} [DecidableEq ε] [DecidableEq α] :
    DecidableEq (Except ε α) := fun x y =>
  match x, y with
  | .ok a, .ok b =>
      if h : a = b then isTrue (by rw [h]) else isFalse (fun hh => h (by injection hh))
  | .error a, .error b =>
      if h : a = b then isTrue (by rw [h]) else isFalse (fun hh => h (by injection hh))
  | .ok _, .error _ => isFalse (fun hh => Except.noConfusion hh)
  | .error _, .ok _ => isFalse (fun hh => Except.noConfusion hh)

/-! ### Inputs and intermediate states of the concrete runs checked below

The random streams are finite lists padded with zeros; the intermediate
states are spelled out literally so that each loop iteration can be checked
by definitional evaluation. -/

/-- A finite stream of rationals, padded with zeros. -/
def lget (l : List ℚ) (i : ℕ) : ℚ := l.getD i 0

/-- Uniform draws of the concrete continuous runs. -/
def uC5 : ℕ → ℚ := lget [1/4, 3/8, 1/4, 1/4, 1/4]

/-- Random source of the concrete continuous runs, with its three cursors
exposed (all exponential draws are `1`, all gaussian draws `0`). -/
def rngC (k l m : ℕ) : Rng :=
  { exps := fun _ => 1, unifs := uC5, gausses := fun _ => 0
    ei := k, ui := l, gi := m }

/-- `birth_death_tree(birth_rate=1, death_rate=1, ntax=2, gsa_ntax=3)`. -/
def kwB : ContKwargs :=
  { birth_rate := 1, death_rate := 1, birth_rate_sd := 0, death_rate_sd := 0
    ntax := some 2, taxon_namespace_size := none, max_time := none
    gsa_ntax := some 3, repeat_until_success := none }

/-- The same call with `gsa_ntax` omitted. -/
def kwA : ContKwargs := { kwB with gsa_ntax := none }

/-- The same call with `gsa_ntax` equal to the target count. -/
def kwC8 : ContKwargs := { kwB with gsa_ntax := some 2 }

/-- Resolved configuration of `kwB`. -/
def cfgB : ContCfg :=
  { birth_rate := 1, death_rate := 1, birth_rate_sd := 0, death_rate_sd := 0
    target_num_taxa := some 2, max_time := none, gsa_ntax := some 3
    terminate_at_full_tree := false, repeat_until_success := true }

/-- Resolved configuration of `kwA`: the same GSA size, but with the
terminate-at-full-tree behaviour of the default path. -/
def cfgA : ContCfg := { cfgB with terminate_at_full_tree := true }

/-- State of run B after its first iteration (a birth at the seed). -/
def sB1 : ContState :=
  { tree := .mk ⟨0, 1, 1, 1⟩ (.cons (.mk ⟨1, 0, 1, 1⟩ .nil)
      (.cons (.mk ⟨2, 0, 1, 1⟩ .nil) .nil))
    isRooted := true, leafNodes := [1, 2], totalTime := 1
    slices := [], extinctTips := [], nextId := 3 }

/-- State of run B after its second iteration (a slice is recorded, then
tip `1` goes extinct). -/
def sB2 : ContState :=
  { tree := .mk ⟨0, 1, 1, 1⟩ (.cons (.mk ⟨1, 1, 1, 1⟩ .nil)
      (.cons (.mk ⟨2, 1, 1, 1⟩ .nil) .nil))
    isRooted := true, leafNodes := [2], totalTime := 2
    slices := [(1, [(1, 0), (2, 0)])], extinctTips := [1], nextId := 3 }

/-- State of run B after its third iteration (a birth at tip `2`). -/
def sB3 : ContState :=
  { tree := .mk ⟨0, 1, 1, 1⟩ (.cons (.mk ⟨1, 1, 1, 1⟩ .nil)
      (.cons (.mk ⟨2, 2, 1, 1⟩ (.cons (.mk ⟨3, 0, 1, 1⟩ .nil)
        (.cons (.mk ⟨4, 0, 1, 1⟩ .nil) .nil))) .nil))
    isRooted := true, leafNodes := [3, 4], totalTime := 3
    slices := [(1, [(1, 0), (2, 0)])], extinctTips := [1], nextId := 5 }

/-- State of run B after its fourth iteration (a second slice is recorded,
then a birth at tip `3`). -/
def sB4 : ContState :=
  { tree := .mk ⟨0, 1, 1, 1⟩ (.cons (.mk ⟨1, 1, 1, 1⟩ .nil)
      (.cons (.mk ⟨2, 2, 1, 1⟩
        (.cons (.mk ⟨3, 1, 1, 1⟩ (.cons (.mk ⟨5, 0, 1, 1⟩ .nil)
          (.cons (.mk ⟨6, 0, 1, 1⟩ .nil) .nil)))
          (.cons (.mk ⟨4, 1, 1, 1⟩ .nil) .nil))) .nil))
    isRooted := true, leafNodes := [4, 5, 6], totalTime := 4
    slices := [(1, [(1, 0), (2, 0)]), (1, [(3, 0), (4, 0)])]
    extinctTips := [1], nextId := 7 }

/-- Final state of run A's growth loop: the first slice terminates it. -/
def sA2 : ContState := { sB1 with slices := [(1, [(1, 0), (2, 0)])] }

/-- The tree run B returns: the second slice is restored, so the extinct
tip `1` and the seed are gone and the root is node `2`. -/
def treeB : PTree :=
  .mk ⟨2, 3, 1, 1⟩ (.cons (.mk ⟨3, 1, 1, 1⟩ .nil)
    (.cons (.mk ⟨4, 1, 1, 1⟩ .nil) .nil))

/-- The tree run A returns: the single slice restored over the seed. -/
def treeA : PTree :=
  .mk ⟨0, 1, 1, 1⟩ (.cons (.mk ⟨1, 1, 1, 1⟩ .nil)
    (.cons (.mk ⟨2, 1, 1, 1⟩ .nil) .nil))

/-- Post-finalization state of run B (the extinct-tip record keeps the tip
`1`, which the restore phase did not touch; the tree no longer contains it). -/
def sBfin : ContState := { sB4 with tree := treeB }

/-- Post-finalization state of run A. -/
def sAfin : ContState := { sA2 with tree := treeA }

/-- `discrete_birth_death_tree(birth_rate=1/2, death_rate=0, ntax=3)`. -/
def kwD3 : DiscKwargs :=
  { birth_rate := 1/2, death_rate := 0, birth_rate_sd := 0, death_rate_sd := 0
    ntax := some 3, taxon_namespace_size := none, max_time := none
    repeat_until_success := none }

/-- Uniform draws of the concrete discrete overshoot run. -/
def uD3 : ℕ → ℚ := lget [3/10, 3/10, 3/10, 2/10]

/-- Random source of the concrete discrete overshoot run. -/
def rngD3 (k l m : ℕ) : Rng :=
  { exps := fun _ => 1, unifs := uD3, gausses := fun _ => 0
    ei := k, ui := l, gi := m }

/-- The tree the discrete overshoot run returns: both tips of generation one
give birth in generation two, jumping from two straight to four leaves. -/
def tD3 : PTree :=
  .mk ⟨0, 1, 1/2, 0⟩
    (.cons (.mk ⟨1, 1, 1/2, 0⟩ (.cons (.mk ⟨3, 0, 1/2, 0⟩ .nil)
      (.cons (.mk ⟨4, 0, 1/2, 0⟩ .nil) .nil)))
      (.cons (.mk ⟨2, 1, 1/2, 0⟩ (.cons (.mk ⟨5, 0, 1/2, 0⟩ .nil)
        (.cons (.mk ⟨6, 0, 1/2, 0⟩ .nil) .nil))) .nil))

/-- Diagnostic result of the discrete overshoot run. -/
def rD3 : DiscResult :=
  { tree := tD3, isRooted := true, numGens := 2, gensToAdd := 0 }

/-- `discrete_birth_death_tree(birth_rate=1/2, death_rate=1/10, ntax=2,
max_time=3)`. -/
def kwD4 : DiscKwargs :=
  { birth_rate := 1/2, death_rate := 1/10, birth_rate_sd := 0, death_rate_sd := 0
    ntax := some 2, taxon_namespace_size := none, max_time := some 3
    repeat_until_success := none }

/-- Uniform draws of the concrete extension-overrun run: the first draw fires
a birth, the next five decline the extension event, the last accepts it. -/
def uD4 : ℕ → ℚ := lget [3/10, 9/10, 9/10, 9/10, 9/10, 9/10, 0]

/-- Random source of the concrete extension-overrun run. -/
def rngD4 (k l m : ℕ) : Rng :=
  { exps := fun _ => 1, unifs := uD4, gausses := fun _ => 0
    ei := k, ui := l, gi := m }

/-- The tree the extension-overrun run returns: one generation of growth,
then five extra generations added to both tip edges. -/
def tD4 : PTree :=
  .mk ⟨0, 1, 1/2, 1/10⟩ (.cons (.mk ⟨1, 5, 1/2, 1/10⟩ .nil)
    (.cons (.mk ⟨2, 5, 1/2, 1/10⟩ .nil) .nil))

/-- Diagnostic result of the extension-overrun run: the five added
generations push the represented time to `6`, past `max_time = 3`. -/
def rD4 : DiscResult :=
  { tree := tD4, isRooted := true, numGens := 1, gensToAdd := 5 }

/-- Resolved configuration of `kwD3`. -/
def cfgD3 : DiscCfg :=
  { birth_rate := 1/2, death_rate := 0, birth_rate_sd := 0, death_rate_sd := 0
    target_num_taxa := some 3, target_num_gens := none
    repeat_until_success := false }

/-- Resolved configuration of `kwD4`. -/
def cfgD4 : DiscCfg :=
  { birth_rate := 1/2, death_rate := 1/10, birth_rate_sd := 0, death_rate_sd := 0
    target_num_taxa := some 2, target_num_gens := some 3
    repeat_until_success := false }

/-- A discrete configuration with the retry flag set, used to exercise the
extinction-retry path at the root. -/
def cfgW : DiscCfg :=
  { birth_rate := 1/10, death_rate := 1/2, birth_rate_sd := 0, death_rate_sd := 0
    target_num_taxa := some 2, target_num_gens := none
    repeat_until_success := true }

/-- Its initial state: a single root leaf, so a death event there is a total
extinction. -/
def sW : DiscState := discInit cfgW

/-- Overshoot run, after generation one's single leaf step (a birth). -/
def dA : DiscState :=
  { tree := .mk ⟨0, 1, 1/2, 0⟩ (.cons (.mk ⟨1, 0, 1/2, 0⟩ .nil)
      (.cons (.mk ⟨2, 0, 1/2, 0⟩ .nil) .nil))
    isRooted := true, numGens := 0, nextId := 3 }

/-- Overshoot run, at the start of generation two. -/
def dB : DiscState := { dA with numGens := 1 }

/-- Overshoot run, after generation two's first leaf step (a birth at `1`). -/
def dC : DiscState :=
  { tree := .mk ⟨0, 1, 1/2, 0⟩
      (.cons (.mk ⟨1, 1, 1/2, 0⟩ (.cons (.mk ⟨3, 0, 1/2, 0⟩ .nil)
        (.cons (.mk ⟨4, 0, 1/2, 0⟩ .nil) .nil)))
        (.cons (.mk ⟨2, 0, 1/2, 0⟩ .nil) .nil))
    isRooted := true, numGens := 1, nextId := 5 }

/-- Overshoot run, after generation two's second leaf step (a birth at `2`):
four leaves, overshooting the target of three. -/
def dD : DiscState :=
  { tree := .mk ⟨0, 1, 1/2, 0⟩
      (.cons (.mk ⟨1, 1, 1/2, 0⟩ (.cons (.mk ⟨3, 0, 1/2, 0⟩ .nil)
        (.cons (.mk ⟨4, 0, 1/2, 0⟩ .nil) .nil)))
        (.cons (.mk ⟨2, 1, 1/2, 0⟩ (.cons (.mk ⟨5, 0, 1/2, 0⟩ .nil)
          (.cons (.mk ⟨6, 0, 1/2, 0⟩ .nil) .nil))) .nil))
    isRooted := true, numGens := 1, nextId := 7 }

/-- Overshoot run, as the generation loop exits. -/
def dE : DiscState := { dD with numGens := 2 }

/-- Extension-overrun run, after generation one's single leaf step. -/
def eA : DiscState :=
  { tree := .mk ⟨0, 1, 1/2, 1/10⟩ (.cons (.mk ⟨1, 0, 1/2, 1/10⟩ .nil)
      (.cons (.mk ⟨2, 0, 1/2, 1/10⟩ .nil) .nil))
    isRooted := true, numGens := 0, nextId := 3 }

/-- Extension-overrun run, as the generation loop exits. -/
def eB : DiscState := { eA with numGens := 1 }

/-! ### Basic lemmas about the tree operations -/

@[simp] theorem rootId_mk (d : NodeData) (cs : PForest) :
    (PTree.mk d cs).rootId = d.nid := rfl

@[simp] theorem rootLen_mk (d : NodeData) (cs : PForest) :
    (PTree.mk d cs).rootLen = d.elen := rfl

@[simp] theorem idsT_mk (d : NodeData) (cs : PForest) :
    idsT (.mk d cs) = d.nid :: idsF cs := rfl

@[simp] theorem idsF_nil : idsF .nil = [] := rfl

@[simp] theorem idsF_cons (t : PTree) (ts : PForest) :
    idsF (.cons t ts) = idsT t ++ idsF ts := rfl

@[simp] theorem leafIdsT_leaf (d : NodeData) : leafIdsT (.mk d .nil) = [d.nid] := rfl

@[simp] theorem leafIdsT_cons (d : NodeData) (t : PTree) (ts : PForest) :
    leafIdsT (.mk d (.cons t ts)) = leafIdsT t ++ leafIdsF ts := rfl

@[simp] theorem leafIdsF_nil : leafIdsF .nil = [] := rfl

@[simp] theorem leafIdsF_cons (t : PTree) (ts : PForest) :
    leafIdsF (.cons t ts) = leafIdsT t ++ leafIdsF ts := rfl

@[simp] theorem lensT_mk (d : NodeData) (cs : PForest) :
    lensT (.mk d cs) = d.elen :: lensF cs := rfl

@[simp] theorem lensF_nil : lensF .nil = [] := rfl

@[simp] theorem lensF_cons (t : PTree) (ts : PForest) :
    lensF (.cons t ts) = lensT t ++ lensF ts := rfl

@[simp] theorem rootIdsF_nil : rootIdsF .nil = [] := rfl

@[simp] theorem rootIdsF_cons (t : PTree) (ts : PForest) :
    rootIdsF (.cons t ts) = t.rootId :: rootIdsF ts := rfl

@[simp] theorem updLenT_mk (f : ℕ → ℚ → ℚ) (d : NodeData) (cs : PForest) :
    updLenT f (.mk d cs) = .mk { d with elen := f d.nid d.elen } (updLenF f cs) := rfl

@[simp] theorem updLenF_nil (f : ℕ → ℚ → ℚ) : updLenF f .nil = .nil := rfl

@[simp] theorem updLenF_cons (f : ℕ → ℚ → ℚ) (t : PTree) (ts : PForest) :
    updLenF f (.cons t ts) = .cons (updLenT f t) (updLenF f ts) := rfl

theorem rootId_mem_idsT (t : PTree) : t.rootId ∈ idsT t := by
  cases t with
  | mk d cs => simp

mutual

theorem leafIds_sublist_idsT : ∀ t : PTree, List.Sublist (leafIdsT t) (idsT t)
  | .mk d .nil => by simp
  | .mk d (.cons c cs) => by
      simpa using (leafIds_sublist_idsF (.cons c cs)).cons d.nid

theorem leafIds_sublist_idsF : ∀ ts : PForest, List.Sublist (leafIdsF ts) (idsF ts)
  | .nil => by simp
  | .cons t ts => by
      simpa using (leafIds_sublist_idsT t).append (leafIds_sublist_idsF ts)

end

theorem mem_ids_of_mem_leafIds {t : PTree} {x : ℕ} (h : x ∈ leafIdsT t) :
    x ∈ idsT t :=
  (leafIds_sublist_idsT t).mem h

theorem nodup_leafIds {t : PTree} (h : (idsT t).Nodup) : (leafIdsT t).Nodup :=
  h.sublist (leafIds_sublist_idsT t)

mutual

theorem addChT_of_not_mem (a : ℕ) (c1 c2 : NodeData) :
    ∀ t : PTree, a ∉ idsT t → addChT a c1 c2 t = t
  | .mk d cs, h => by
      have hd : d.nid ≠ a := by simp at h; exact fun hh => h.1 hh.symm
      have hcs : a ∉ idsF cs := by simp at h; exact h.2
      simp [addChT, hd, addChF_of_not_mem a c1 c2 cs hcs]

theorem addChF_of_not_mem (a : ℕ) (c1 c2 : NodeData) :
    ∀ ts : PForest, a ∉ idsF ts → addChF a c1 c2 ts = ts
  | .nil, _ => rfl
  | .cons t ts, h => by
      have h1 : a ∉ idsT t := by simp at h; exact h.1
      have h2 : a ∉ idsF ts := by simp at h; exact h.2
      simp [addChF, addChT_of_not_mem a c1 c2 t h1, addChF_of_not_mem a c1 c2 ts h2]

end

mutual

theorem dropChT_of_not_mem (a : ℕ) :
    ∀ t : PTree, a ∉ idsT t → dropChT a t = t
  | .mk d cs, h => by
      have hd : d.nid ≠ a := by simp at h; exact fun hh => h.1 hh.symm
      have hcs : a ∉ idsF cs := by simp at h; exact h.2
      simp [dropChT, hd, dropChF_of_not_mem a cs hcs]

theorem dropChF_of_not_mem (a : ℕ) :
    ∀ ts : PForest, a ∉ idsF ts → dropChF a ts = ts
  | .nil, _ => rfl
  | .cons t ts, h => by
      have h1 : a ∉ idsT t := by simp at h; exact h.1
      have h2 : a ∉ idsF ts := by simp at h; exact h.2
      simp [dropChF, dropChT_of_not_mem a t h1, dropChF_of_not_mem a ts h2]

end

mutual

theorem removeSubT_of_not_mem (a : ℕ) :
    ∀ t : PTree, a ∉ idsT t → removeSubT a t = t
  | .mk d cs, h => by
      have hcs : a ∉ idsF cs := by simp at h; exact h.2
      simp [removeSubT, removeSubF_of_not_mem a cs hcs]

theorem removeSubF_of_not_mem (a : ℕ) :
    ∀ ts : PForest, a ∉ idsF ts → removeSubF a ts = ts
  | .nil, _ => rfl
  | .cons t ts, h => by
      have h1 : a ∉ idsT t := by simp at h; exact h.1
      have h2 : a ∉ idsF ts := by simp at h; exact h.2
      have hr : t.rootId ≠ a := fun hh => h1 (hh ▸ rootId_mem_idsT t)
      simp [removeSubF, hr, removeSubT_of_not_mem a t h1, removeSubF_of_not_mem a ts h2]

end

mutual

theorem subtreeAtT_rootId (a : ℕ) :
    ∀ t st : PTree, subtreeAtT a t = some st → st.rootId = a
  | .mk d cs, st, h => by
      by_cases hd : d.nid = a
      · simp [subtreeAtT, hd] at h
        subst h
        simpa using hd
      · simp [subtreeAtT, hd] at h
        exact subtreeAtF_rootId a cs st h

theorem subtreeAtF_rootId (a : ℕ) :
    ∀ ts : PForest, ∀ st : PTree, subtreeAtF a ts = some st → st.rootId = a
  | .nil, st, h => by simp [subtreeAtF] at h
  | .cons t ts, st, h => by
      simp only [subtreeAtF] at h
      cases hh : subtreeAtT a t with
      | some st2 =>
          rw [hh] at h
          simp at h
          exact h ▸ subtreeAtT_rootId a t st2 hh
      | none =>
          rw [hh] at h
          simp at h
          exact subtreeAtF_rootId a ts st h

end

mutual

theorem subtreeAtT_ids_sublist (a : ℕ) :
    ∀ t st : PTree, subtreeAtT a t = some st → List.Sublist (idsT st) (idsT t)
  | .mk d cs, st, h => by
      by_cases hd : d.nid = a
      · simp [subtreeAtT, hd] at h
        subst h
        exact List.Sublist.refl _
      · simp [subtreeAtT, hd] at h
        simpa using (subtreeAtF_ids_sublist a cs st h).cons d.nid

theorem subtreeAtF_ids_sublist (a : ℕ) :
    ∀ ts : PForest, ∀ st : PTree, subtreeAtF a ts = some st → List.Sublist (idsT st) (idsF ts)
  | .nil, st, h => by simp [subtreeAtF] at h
  | .cons t ts, st, h => by
      simp only [subtreeAtF] at h
      cases hh : subtreeAtT a t with
      | some st2 =>
          rw [hh] at h
          simp at h
          subst h
          exact (subtreeAtT_ids_sublist a t st2 hh).trans (List.sublist_append_left _ _)
      | none =>
          rw [hh] at h
          simp at h
          exact (subtreeAtF_ids_sublist a ts st h).trans (List.sublist_append_right _ _)

end

mutual

theorem subtreeAtT_isSome (a : ℕ) :
    ∀ t : PTree, a ∈ idsT t → (subtreeAtT a t).isSome
  | .mk d cs, h => by
      by_cases hd : d.nid = a
      · simp [subtreeAtT, hd]
      · have hcs : a ∈ idsF cs := by
          simp at h
          rcases h with h | h
          · exact absurd h.symm hd
          · exact h
        simp only [subtreeAtT, hd, if_false]
        exact subtreeAtF_isSome a cs hcs

theorem subtreeAtF_isSome (a : ℕ) :
    ∀ ts : PForest, a ∈ idsF ts → (subtreeAtF a ts).isSome
  | .cons t ts, h => by
      simp only [subtreeAtF]
      rcases (by simpa using h : a ∈ idsT t ∨ a ∈ idsF ts) with h1 | h2
      · cases hh : subtreeAtT a t with
        | some st => simp
        | none => exact absurd (subtreeAtT_isSome a t h1) (by simp [hh])
      · cases hh : subtreeAtT a t with
        | some st => simp
        | none => exact subtreeAtF_isSome a ts h2

end

mutual

theorem subtreeAtT_none (a : ℕ) :
    ∀ t : PTree, subtreeAtT a t = none → a ∉ idsT t
  | .mk d cs, h => by
      by_cases hd : d.nid = a
      · simp [subtreeAtT, hd] at h
      · simp only [subtreeAtT, hd, if_false] at h
        have := subtreeAtF_none a cs h
        simp [Ne.symm hd, this]

theorem subtreeAtF_none (a : ℕ) :
    ∀ ts : PForest, subtreeAtF a ts = none → a ∉ idsF ts
  | .nil, _ => by simp
  | .cons t ts, h => by
      simp only [subtreeAtF] at h
      cases hh : subtreeAtT a t with
      | some st => rw [hh] at h; simp at h
      | none =>
          rw [hh] at h
          have h1 := subtreeAtT_none a t hh
          have h2 := subtreeAtF_none a ts h
          simp [h1, h2]

end

theorem descIn_self {t : PTree} {a : ℕ} (h : a ∈ idsT t) : descIn t a a := by
  unfold descIn
  cases hh : subtreeAtT a t with
  | some st =>
      have := subtreeAtT_rootId a t st hh
      simpa [this] using (this ▸ rootId_mem_idsT st)
  | none => exact absurd (subtreeAtT_isSome a t h) (by simp [hh])

theorem mem_of_descIn {t : PTree} {a x : ℕ} (h : descIn t a x) : x ∈ idsT t := by
  unfold descIn at h
  cases hh : subtreeAtT a t with
  | some st =>
      rw [hh] at h
      exact (subtreeAtT_ids_sublist a t st hh).mem h
  | none => rw [hh] at h; exact absurd h not_false

theorem base_of_descIn {t : PTree} {a x : ℕ} (h : descIn t a x) : a ∈ idsT t := by
  unfold descIn at h
  cases hh : subtreeAtT a t with
  | some st =>
      have hr := subtreeAtT_rootId a t st hh
      have hm : st.rootId ∈ idsT t :=
        (subtreeAtT_ids_sublist a t st hh).mem (rootId_mem_idsT st)
      exact hr ▸ hm
  | none => rw [hh] at h; exact absurd h not_false

mutual

theorem idsT_updLenT (f : ℕ → ℚ → ℚ) : ∀ t : PTree, idsT (updLenT f t) = idsT t
  | .mk d cs => by simp [idsF_updLenF f cs]

theorem idsF_updLenF (f : ℕ → ℚ → ℚ) : ∀ ts : PForest, idsF (updLenF f ts) = idsF ts
  | .nil => rfl
  | .cons t ts => by simp [idsT_updLenT f t, idsF_updLenF f ts]

end

mutual

theorem leafIdsT_updLenT (f : ℕ → ℚ → ℚ) :
    ∀ t : PTree, leafIdsT (updLenT f t) = leafIdsT t
  | .mk d .nil => rfl
  | .mk d (.cons c cs) => by
      simp [leafIdsT_updLenT f c, leafIdsF_updLenF f cs]

theorem leafIdsF_updLenF (f : ℕ → ℚ → ℚ) :
    ∀ ts : PForest, leafIdsF (updLenF f ts) = leafIdsF ts
  | .nil => rfl
  | .cons t ts => by simp [leafIdsT_updLenT f t, leafIdsF_updLenF f ts]

end

mutual

theorem lensT_updLenT_nonneg (f : ℕ → ℚ → ℚ) (hf : ∀ i q, 0 ≤ q → 0 ≤ f i q) :
    ∀ t : PTree, (∀ q ∈ lensT t, 0 ≤ q) → ∀ q ∈ lensT (updLenT f t), 0 ≤ q
  | .mk d cs, h, q, hq => by
      simp at hq
      rcases hq with hq | hq
      · subst hq
        exact hf _ _ (h d.elen (by simp))
      · exact lensF_updLenF_nonneg f hf cs (fun r hr => h r (by simp [hr])) q hq

theorem lensF_updLenF_nonneg (f : ℕ → ℚ → ℚ) (hf : ∀ i q, 0 ≤ q → 0 ≤ f i q) :
    ∀ ts : PForest, (∀ q ∈ lensF ts, 0 ≤ q) → ∀ q ∈ lensF (updLenF f ts), 0 ≤ q
  | .cons t ts, h, q, hq => by
      simp at hq
      rcases hq with hq | hq
      · exact lensT_updLenT_nonneg f hf t (fun r hr => h r (by simp [hr])) q hq
      · exact lensF_updLenF_nonneg f hf ts (fun r hr => h r (by simp [hr])) q hq

end

mutual

theorem subtreeAtT_updLenT (f : ℕ → ℚ → ℚ) (a : ℕ) :
    ∀ t : PTree, subtreeAtT a (updLenT f t) = (subtreeAtT a t).map (updLenT f)
  | .mk d cs => by
      by_cases hd : d.nid = a
      · simp [subtreeAtT, hd]
      · simp [subtreeAtT, hd, subtreeAtF_updLenF f a cs]

theorem subtreeAtF_updLenF (f : ℕ → ℚ → ℚ) (a : ℕ) :
    ∀ ts : PForest, subtreeAtF a (updLenF f ts) = (subtreeAtF a ts).map (updLenT f)
  | .nil => rfl
  | .cons t ts => by
      simp only [updLenF_cons, subtreeAtF]
      rw [subtreeAtT_updLenT f a t]
      cases subtreeAtT a t with
      | some st => simp
      | none => simpa using subtreeAtF_updLenF f a ts

end

theorem rootLen_mem_lensT (t : PTree) : t.rootLen ∈ lensT t := by
  cases t with
  | mk d cs => simp

mutual

theorem lens_sublist_of_subtreeAtT (a : ℕ) :
    ∀ t st : PTree, subtreeAtT a t = some st → List.Sublist (lensT st) (lensT t)
  | .mk d cs, st, h => by
      by_cases hd : d.nid = a
      · simp [subtreeAtT, hd] at h
        subst h
        exact List.Sublist.refl _
      · simp [subtreeAtT, hd] at h
        simpa using (lens_sublist_of_subtreeAtF a cs st h).cons d.elen

theorem lens_sublist_of_subtreeAtF (a : ℕ) :
    ∀ ts : PForest, ∀ st : PTree, subtreeAtF a ts = some st →
      List.Sublist (lensT st) (lensF ts)
  | .nil, st, h => by simp [subtreeAtF] at h
  | .cons t ts, st, h => by
      simp only [subtreeAtF] at h
      cases hh : subtreeAtT a t with
      | some st2 =>
          rw [hh] at h
          simp at h
          subst h
          exact (lens_sublist_of_subtreeAtT a t st2 hh).trans
            (List.sublist_append_left _ _)
      | none =>
          rw [hh] at h
          exact (lens_sublist_of_subtreeAtF a ts st h).trans
            (List.sublist_append_right _ _)

end

theorem getLen_mem_lensT {t : PTree} {a : ℕ} {q : ℚ} (h : getLen t a = some q) :
    q ∈ lensT t := by
  unfold getLen at h
  cases hh : subtreeAtT a t with
  | some st =>
      rw [hh] at h
      simp at h
      exact h ▸ (lens_sublist_of_subtreeAtT a t st hh).mem (rootLen_mem_lensT st)
  | none => rw [hh] at h; exact absurd h (by simp)

theorem idsF_appendTwo (c1 c2 : NodeData) :
    ∀ cs : PForest, idsF (appendTwo cs c1 c2) = idsF cs ++ [c1.nid, c2.nid]
  | .nil => rfl
  | .cons t ts => by simp [appendTwo, idsF_appendTwo c1 c2 ts]

theorem leafIdsF_appendTwo (c1 c2 : NodeData) :
    ∀ cs : PForest, leafIdsF (appendTwo cs c1 c2) = leafIdsF cs ++ [c1.nid, c2.nid]
  | .nil => rfl
  | .cons t ts => by simp [appendTwo, leafIdsF_appendTwo c1 c2 ts]

theorem lensF_appendTwo (c1 c2 : NodeData) :
    ∀ cs : PForest, lensF (appendTwo cs c1 c2) = lensF cs ++ [c1.elen, c2.elen]
  | .nil => rfl
  | .cons t ts => by simp [appendTwo, lensF_appendTwo c1 c2 ts]

theorem subtreeAtF_appendTwo (c1 c2 : NodeData) (a : ℕ)
    (h1 : a ≠ c1.nid) (h2 : a ≠ c2.nid) :
    ∀ cs : PForest, subtreeAtF a (appendTwo cs c1 c2) = subtreeAtF a cs
  | .nil => by simp [appendTwo, subtreeAtF, subtreeAtT, Ne.symm h1, Ne.symm h2]
  | .cons t ts => by
      simp only [appendTwo, subtreeAtF]
      cases subtreeAtT a t with
      | some st => simp
      | none => simpa using subtreeAtF_appendTwo c1 c2 a h1 h2 ts

@[simp] theorem addChT_mk (a : ℕ) (c1 c2 d : NodeData) (cs : PForest) :
    addChT a c1 c2 (.mk d cs) =
      if d.nid = a then .mk d (appendTwo cs c1 c2)
      else .mk d (addChF a c1 c2 cs) := rfl

@[simp] theorem addChF_nil (a : ℕ) (c1 c2 : NodeData) :
    addChF a c1 c2 .nil = .nil := rfl

@[simp] theorem addChF_cons (a : ℕ) (c1 c2 : NodeData) (t : PTree) (ts : PForest) :
    addChF a c1 c2 (.cons t ts) = .cons (addChT a c1 c2 t) (addChF a c1 c2 ts) := rfl

mutual

theorem perm_idsT_addChT (a : ℕ) (c1 c2 : NodeData) :
    ∀ t : PTree, (idsT t).Nodup → a ∈ idsT t →
      List.Perm (idsT (addChT a c1 c2 t)) (c1.nid :: c2.nid :: idsT t)
  | .mk d cs, hn, ha => by
      by_cases hd : d.nid = a
      · rw [addChT_mk, if_pos hd]
        rw [List.perm_iff_count]
        intro y
        simp [idsF_appendTwo, List.count_append, List.count_cons]
        omega
      · have hacs : a ∈ idsF cs := by
          simp at ha
          rcases ha with ha | ha
          · exact absurd ha.symm hd
          · exact ha
        have hncs : (idsF cs).Nodup := by simp at hn; exact hn.2
        have ih := perm_idsF_addChF a c1 c2 cs hncs hacs
        rw [addChT_mk, if_neg hd]
        rw [List.perm_iff_count]
        intro y
        have hc := ih.count_eq y
        simp [List.count_cons] at hc ⊢
        omega

theorem perm_idsF_addChF (a : ℕ) (c1 c2 : NodeData) :
    ∀ ts : PForest, (idsF ts).Nodup → a ∈ idsF ts →
      List.Perm (idsF (addChF a c1 c2 ts)) (c1.nid :: c2.nid :: idsF ts)
  | .cons t ts, hn, ha => by
      rw [idsF_cons, List.nodup_append] at hn
      obtain ⟨hnt, hnts, hdisj⟩ := hn
      rcases (by simpa using ha : a ∈ idsT t ∨ a ∈ idsF ts) with hat | hats
      · have hno : a ∉ idsF ts := fun hh => hdisj hat hh
        have ih := perm_idsT_addChT a c1 c2 t hnt hat
        rw [addChF_cons, idsF_cons, addChF_of_not_mem a c1 c2 ts hno]
        rw [List.perm_iff_count]
        intro y
        have hc := ih.count_eq y
        simp [List.count_append, List.count_cons] at hc ⊢
        omega
      · have hno : a ∉ idsT t := fun hh => hdisj hh hats
        have ih := perm_idsF_addChF a c1 c2 ts hnts hats
        rw [addChF_cons, idsF_cons, addChT_of_not_mem a c1 c2 t hno]
        rw [List.perm_iff_count]
        intro y
        have hc := ih.count_eq y
        simp [List.count_append, List.count_cons] at hc ⊢
        omega

end

mutual

theorem perm_leafIdsT_addChT (a : ℕ) (c1 c2 : NodeData) :
    ∀ t : PTree, (idsT t).Nodup → a ∈ leafIdsT t →
      List.Perm (leafIdsT (addChT a c1 c2 t))
        (c1.nid :: c2.nid :: (leafIdsT t).erase a)
  | .mk d .nil, hn, ha => by
      have hda : d.nid = a := by
        have : a = d.nid := by simpa using ha
        exact this.symm
      rw [addChT_mk, if_pos hda]
      simp [appendTwo, hda]
  | .mk d (.cons c cs), hn, ha => by
      have hacs : a ∈ leafIdsF (.cons c cs) := by simpa using ha
      have hnf : (idsF (.cons c cs)).Nodup := by
        rw [idsT_mk, List.nodup_cons] at hn
        exact hn.2
      have hd : d.nid ≠ a := by
        intro hh
        rw [idsT_mk, List.nodup_cons] at hn
        exact hn.1 (hh ▸ (leafIds_sublist_idsF (.cons c cs)).mem hacs)
      rw [addChT_mk, if_neg hd]
      have ih := perm_leafIdsF_addChF a c1 c2 (.cons c cs) hnf hacs
      rw [addChF_cons] at ih ⊢
      simpa using ih

theorem perm_leafIdsF_addChF (a : ℕ) (c1 c2 : NodeData) :
    ∀ ts : PForest, (idsF ts).Nodup → a ∈ leafIdsF ts →
      List.Perm (leafIdsF (addChF a c1 c2 ts))
        (c1.nid :: c2.nid :: (leafIdsF ts).erase a)
  | .cons t ts, hn, ha => by
      rw [idsF_cons, List.nodup_append] at hn
      obtain ⟨hnt, hnts, hdisj⟩ := hn
      by_cases hat : a ∈ leafIdsT t
      · have haidt : a ∈ idsT t := (leafIds_sublist_idsT t).mem hat
        have hno : a ∉ idsF ts := fun hh => hdisj haidt hh
        have ih := perm_leafIdsT_addChT a c1 c2 t hnt hat
        rw [addChF_cons, leafIdsF_cons, leafIdsF_cons,
          addChF_of_not_mem a c1 c2 ts hno,
          List.erase_append_left _ hat]
        exact ih.append_right _
      · have hats : a ∈ leafIdsF ts := by
          rcases (by simpa using ha : a ∈ leafIdsT t ∨ a ∈ leafIdsF ts) with h | h
          · exact absurd h hat
          · exact h
        have hno : a ∉ idsT t :=
          fun hh => hdisj hh ((leafIds_sublist_idsF ts).mem hats)
        have hnolt : a ∉ leafIdsT t := hat
        have ih := perm_leafIdsF_addChF a c1 c2 ts hnts hats
        rw [addChF_cons, leafIdsF_cons, leafIdsF_cons,
          addChT_of_not_mem a c1 c2 t hno,
          List.erase_append_right _ hnolt]
        rw [List.perm_iff_count]
        intro y
        have hc := ih.count_eq y
        simp [List.count_append, List.count_cons] at hc ⊢
        omega

end

mutual

theorem lensT_addChT_nonneg (a : ℕ) (c1 c2 : NodeData)
    (hc1 : 0 ≤ c1.elen) (hc2 : 0 ≤ c2.elen) :
    ∀ t : PTree, (∀ q ∈ lensT t, 0 ≤ q) → ∀ q ∈ lensT (addChT a c1 c2 t), 0 ≤ q
  | .mk d cs, h, q, hq => by
      by_cases hd : d.nid = a
      · rw [addChT_mk, if_pos hd] at hq
        simp only [lensT_mk, lensF_appendTwo, List.mem_cons, List.mem_append,
          List.mem_singleton] at hq
        rcases hq with hq | hq | hq | hq
        · exact hq ▸ h d.elen (by simp)
        · exact h q (by simp [hq])
        · exact hq ▸ hc1
        · rcases hq with hq | hq
          · exact hq ▸ hc2
          · simp at hq
      · rw [addChT_mk, if_neg hd] at hq
        simp at hq
        rcases hq with hq | hq
        · exact hq ▸ h d.elen (by simp)
        · exact lensF_addChF_nonneg a c1 c2 hc1 hc2 cs
            (fun r hr => h r (by simp [hr])) q hq

theorem lensF_addChF_nonneg (a : ℕ) (c1 c2 : NodeData)
    (hc1 : 0 ≤ c1.elen) (hc2 : 0 ≤ c2.elen) :
    ∀ ts : PForest, (∀ q ∈ lensF ts, 0 ≤ q) → ∀ q ∈ lensF (addChF a c1 c2 ts), 0 ≤ q
  | .cons t ts, h, q, hq => by
      simp at hq
      rcases hq with hq | hq
      · exact lensT_addChT_nonneg a c1 c2 hc1 hc2 t
          (fun r hr => h r (by simp [hr])) q hq
      · exact lensF_addChF_nonneg a c1 c2 hc1 hc2 ts
          (fun r hr => h r (by simp [hr])) q hq

end

mutual

theorem subtreeAtT_addChT (a : ℕ) (c1 c2 : NodeData) (x : ℕ)
    (hx1 : x ≠ c1.nid) (hx2 : x ≠ c2.nid) :
    ∀ t : PTree, (idsT t).Nodup →
      subtreeAtT x (addChT a c1 c2 t) = (subtreeAtT x t).map (addChT a c1 c2)
  | .mk d cs, hn => by
      by_cases hdx : d.nid = x
      · have e2 : ∀ cs2, subtreeAtT x (PTree.mk d cs2) = some (PTree.mk d cs2) :=
          fun cs2 => by simp [subtreeAtT, hdx]
        by_cases hda : d.nid = a
        · rw [addChT_mk, if_pos hda, e2, e2]
          simp [addChT_mk, hda]
        · rw [addChT_mk, if_neg hda, e2, e2]
          simp [addChT_mk, hda]
      · by_cases hda : d.nid = a
        · rw [addChT_mk, if_pos hda]
          simp only [subtreeAtT, hdx, if_false]
          rw [subtreeAtF_appendTwo c1 c2 x hx1 hx2 cs]
          have hacs : a ∉ idsF cs := by
            rw [idsT_mk, List.nodup_cons] at hn
            exact hda ▸ hn.1
          cases hst : subtreeAtF x cs with
          | none => simp
          | some st =>
              have hsub := subtreeAtF_ids_sublist x cs st hst
              have : a ∉ idsT st := fun hh => hacs (hsub.mem hh)
              simp [addChT_of_not_mem a c1 c2 st this]
        · rw [addChT_mk, if_neg hda]
          simp only [subtreeAtT, hdx, if_false]
          have hncs : (idsF cs).Nodup := by
            rw [idsT_mk, List.nodup_cons] at hn
            exact hn.2
          exact subtreeAtF_addChF a c1 c2 x hx1 hx2 cs hncs

theorem subtreeAtF_addChF (a : ℕ) (c1 c2 : NodeData) (x : ℕ)
    (hx1 : x ≠ c1.nid) (hx2 : x ≠ c2.nid) :
    ∀ ts : PForest, (idsF ts).Nodup →
      subtreeAtF x (addChF a c1 c2 ts) = (subtreeAtF x ts).map (addChT a c1 c2)
  | .nil, _ => rfl
  | .cons t ts, hn => by
      rw [idsF_cons, List.nodup_append] at hn
      obtain ⟨hnt, hnts, _⟩ := hn
      rw [addChF_cons]
      simp only [subtreeAtF]
      rw [subtreeAtT_addChT a c1 c2 x hx1 hx2 t hnt]
      cases subtreeAtT x t with
      | some st => simp
      | none => simpa using subtreeAtF_addChF a c1 c2 x hx1 hx2 ts hnts

end

theorem subtreeAtT_eq_none_of_not_mem {a : ℕ} {t : PTree} (h : a ∉ idsT t) :
    subtreeAtT a t = none := by
  cases hh : subtreeAtT a t with
  | none => rfl
  | some st =>
      exact absurd ((subtreeAtT_rootId a t st hh) ▸
        (subtreeAtT_ids_sublist a t st hh).mem (rootId_mem_idsT st)) h

@[simp] theorem dropChT_mk (a : ℕ) (d : NodeData) (cs : PForest) :
    dropChT a (.mk d cs) =
      if d.nid = a then .mk d .nil else .mk d (dropChF a cs) := rfl

@[simp] theorem dropChF_nil (a : ℕ) : dropChF a .nil = .nil := rfl

@[simp] theorem dropChF_cons (a : ℕ) (t : PTree) (ts : PForest) :
    dropChF a (.cons t ts) = .cons (dropChT a t) (dropChF a ts) := rfl

mutual

theorem ids_sublist_dropChT (a : ℕ) :
    ∀ t : PTree, List.Sublist (idsT (dropChT a t)) (idsT t)
  | .mk d cs => by
      by_cases hd : d.nid = a
      · rw [dropChT_mk, if_pos hd]
        simp
      · rw [dropChT_mk, if_neg hd]
        simpa using (ids_sublist_dropChF a cs).cons₂ d.nid

theorem ids_sublist_dropChF (a : ℕ) :
    ∀ ts : PForest, List.Sublist (idsF (dropChF a ts)) (idsF ts)
  | .nil => by simp
  | .cons t ts => by
      simpa using (ids_sublist_dropChT a t).append (ids_sublist_dropChF a ts)

end

mutual

theorem lens_sublist_dropChT (a : ℕ) :
    ∀ t : PTree, List.Sublist (lensT (dropChT a t)) (lensT t)
  | .mk d cs => by
      by_cases hd : d.nid = a
      · rw [dropChT_mk, if_pos hd]
        simp
      · rw [dropChT_mk, if_neg hd]
        simpa using (lens_sublist_dropChF a cs).cons₂ d.elen

theorem lens_sublist_dropChF (a : ℕ) :
    ∀ ts : PForest, List.Sublist (lensF (dropChF a ts)) (lensF ts)
  | .nil => by simp
  | .cons t ts => by
      simpa using (lens_sublist_dropChT a t).append (lens_sublist_dropChF a ts)

end

mutual

theorem mem_idsT_dropChT (a x : ℕ) :
    ∀ t : PTree, (idsT t).Nodup → ∀ st : PTree, subtreeAtT a t = some st →
      (x ∈ idsT (dropChT a t) ↔ x ∈ idsT t ∧ (x ∉ idsT st ∨ x = a))
  | .mk d cs, hn, st, hst => by
      by_cases hd : d.nid = a
      · rw [subtreeAtT, if_pos hd] at hst
        rw [dropChT_mk, if_pos hd]
        injection hst with hst
        subst hst
        have ha : a ∈ idsT (PTree.mk d cs) := hd ▸ rootId_mem_idsT _
        constructor
        · intro hx
          have : x = d.nid := by simpa using hx
          exact ⟨this ▸ rootId_mem_idsT _, Or.inr (this.trans hd)⟩
        · rintro ⟨hx, hx2 | hx2⟩
          · exact absurd hx hx2
          · simp [hx2, hd]
      · rw [subtreeAtT, if_neg hd] at hst
        rw [dropChT_mk, if_neg hd]
        rw [idsT_mk, List.nodup_cons] at hn
        have ih := mem_idsF_dropChF a x cs hn.2 st hst
        have hds : d.nid ∉ idsT st :=
          fun hh => hn.1 ((subtreeAtF_ids_sublist a cs st hst).mem hh)
        simp only [idsT_mk, List.mem_cons, ih]
        constructor
        · rintro (hx | hx)
          · exact ⟨Or.inl hx, Or.inl (hx ▸ hds)⟩
          · exact ⟨Or.inr hx.1, hx.2⟩
        · rintro ⟨hx | hx, hx2⟩
          · exact Or.inl hx
          · exact Or.inr ⟨hx, hx2⟩

theorem mem_idsF_dropChF (a x : ℕ) :
    ∀ ts : PForest, (idsF ts).Nodup → ∀ st : PTree, subtreeAtF a ts = some st →
      (x ∈ idsF (dropChF a ts) ↔ x ∈ idsF ts ∧ (x ∉ idsT st ∨ x = a))
  | .cons t ts, hn, st, hst => by
      rw [idsF_cons, List.nodup_append] at hn
      obtain ⟨hnt, hnts, hdisj⟩ := hn
      rw [subtreeAtF] at hst
      cases hh : subtreeAtT a t with
      | some st1 =>
          rw [hh] at hst
          injection hst with hst
          subst hst
          have hat : a ∈ idsT t :=
            (subtreeAtT_rootId a t st1 hh) ▸
              (subtreeAtT_ids_sublist a t st1 hh).mem (rootId_mem_idsT st1)
          have hno : a ∉ idsF ts := fun hhh => hdisj hat hhh
          have ih := mem_idsT_dropChT a x t hnt st1 hh
          rw [dropChF_cons, dropChF_of_not_mem a ts hno]
          simp only [idsF_cons, List.mem_append, ih]
          have hstt : ∀ y, y ∈ idsT st1 → y ∈ idsT t :=
            fun y hy => (subtreeAtT_ids_sublist a t st1 hh).mem hy
          constructor
          · rintro (hx | hx)
            · exact ⟨Or.inl hx.1, hx.2⟩
            · exact ⟨Or.inr hx, Or.inl (fun hh2 => hdisj (hstt x hh2) hx)⟩
          · rintro ⟨hx | hx, hx2⟩
            · exact Or.inl ⟨hx, hx2⟩
            · exact Or.inr hx
      | none =>
          rw [hh] at hst
          have hnot : a ∉ idsT t := subtreeAtT_none a t hh
          have ih := mem_idsF_dropChF a x ts hnts st hst
          have hstts : ∀ y, y ∈ idsT st → y ∈ idsF ts :=
            fun y hy => (subtreeAtF_ids_sublist a ts st hst).mem hy
          rw [dropChF_cons, dropChT_of_not_mem a t hnot]
          simp only [idsF_cons, List.mem_append, ih]
          constructor
          · rintro (hx | hx)
            · exact ⟨Or.inl hx, Or.inl (fun hh2 => hdisj hx (hstts x hh2))⟩
            · exact ⟨Or.inr hx.1, hx.2⟩
          · rintro ⟨hx | hx, hx2⟩
            · exact Or.inl hx
            · exact Or.inr ⟨hx, hx2⟩

end

mutual

theorem mem_leafIdsT_dropChT (a x : ℕ) :
    ∀ t : PTree, (idsT t).Nodup → ∀ st : PTree, subtreeAtT a t = some st →
      (x ∈ leafIdsT (dropChT a t) ↔ x = a ∨ (x ∈ leafIdsT t ∧ x ∉ idsT st))
  | .mk d cs, hn, st, hst => by
      by_cases hd : d.nid = a
      · rw [subtreeAtT, if_pos hd] at hst
        injection hst with hst
        subst hst
        rw [dropChT_mk, if_pos hd]
        have hsub := leafIds_sublist_idsT (PTree.mk d cs)
        simp only [leafIdsT_leaf, List.mem_singleton]
        constructor
        · intro hx
          exact Or.inl (hx.trans hd)
        · rintro (hx | hx)
          · exact hx ▸ hd.symm
          · exact absurd (hsub.mem hx.1) hx.2
      · cases cs with
        | nil =>
            rw [subtreeAtT, if_neg hd] at hst
            simp [subtreeAtF] at hst
        | cons c cs2 =>
            rw [subtreeAtT, if_neg hd] at hst
            rw [dropChT_mk, if_neg hd]
            rw [idsT_mk, List.nodup_cons] at hn
            have ih := mem_leafIdsF_dropChF a x (.cons c cs2) hn.2 st hst
            simpa using ih

theorem mem_leafIdsF_dropChF (a x : ℕ) :
    ∀ ts : PForest, (idsF ts).Nodup → ∀ st : PTree, subtreeAtF a ts = some st →
      (x ∈ leafIdsF (dropChF a ts) ↔ x = a ∨ (x ∈ leafIdsF ts ∧ x ∉ idsT st))
  | .cons t ts, hn, st, hst => by
      rw [idsF_cons, List.nodup_append] at hn
      obtain ⟨hnt, hnts, hdisj⟩ := hn
      rw [subtreeAtF] at hst
      cases hh : subtreeAtT a t with
      | some st1 =>
          rw [hh] at hst
          injection hst with hst
          subst hst
          have hat : a ∈ idsT t :=
            (subtreeAtT_rootId a t st1 hh) ▸
              (subtreeAtT_ids_sublist a t st1 hh).mem (rootId_mem_idsT st1)
          have hno : a ∉ idsF ts := fun hhh => hdisj hat hhh
          have ih := mem_leafIdsT_dropChT a x t hnt st1 hh
          have hstt : ∀ y, y ∈ idsT st1 → y ∈ idsT t :=
            fun y hy => (subtreeAtT_ids_sublist a t st1 hh).mem hy
          have hfact : x ∈ leafIdsF ts → x ∉ idsT st1 := fun hy hy2 =>
            hdisj (hstt x hy2) ((leafIds_sublist_idsF ts).mem hy)
          rw [dropChF_cons, dropChF_of_not_mem a ts hno]
          simp only [leafIdsF_cons, List.mem_append, ih]
          tauto
      | none =>
          rw [hh] at hst
          have hnot : a ∉ idsT t := subtreeAtT_none a t hh
          have ih := mem_leafIdsF_dropChF a x ts hnts st hst
          have hstts : ∀ y, y ∈ idsT st → y ∈ idsF ts :=
            fun y hy => (subtreeAtF_ids_sublist a ts st hst).mem hy
          have hfact : x ∈ leafIdsT t → x ∉ idsT st := fun hy hy2 =>
            hdisj ((leafIds_sublist_idsT t).mem hy) (hstts x hy2)
          rw [dropChF_cons, dropChT_of_not_mem a t hnot]
          simp only [leafIdsF_cons, List.mem_append, ih]
          tauto

end

mutual

theorem subtreeAtT_dropChT (a x : ℕ) :
    ∀ t : PTree, (idsT t).Nodup → ∀ st : PTree, subtreeAtT a t = some st →
      (x ∉ idsT st ∨ x = a) →
      subtreeAtT x (dropChT a t) = (subtreeAtT x t).map (dropChT a)
  | .mk d cs, hn, st, hst, hx => by
      by_cases hd : d.nid = a
      · rw [subtreeAtT, if_pos hd] at hst
        injection hst with hst
        subst hst
        rw [dropChT_mk, if_pos hd]
        rcases hx with hx | hx
        · have hxt : x ∉ idsT (PTree.mk d cs) := hx
          rw [subtreeAtT_eq_none_of_not_mem hxt]
          have hxd : d.nid ≠ x := fun hh => hxt (hh ▸ rootId_mem_idsT _)
          simp [subtreeAtT, hxd, subtreeAtF]
        · subst hx
          have hdx : d.nid = x := hd
          simp [subtreeAtT, hdx, dropChT_mk, hd]
      · rw [subtreeAtT, if_neg hd] at hst
        rw [dropChT_mk, if_neg hd]
        rw [idsT_mk, List.nodup_cons] at hn
        by_cases hdx : d.nid = x
        · have e1 : subtreeAtT x (PTree.mk d cs) = some (PTree.mk d cs) := by
            simp [subtreeAtT, hdx]
          have e2 : subtreeAtT x (PTree.mk d (dropChF a cs)) =
              some (PTree.mk d (dropChF a cs)) := by
            simp [subtreeAtT, hdx]
          rw [e2, e1]
          simp [dropChT_mk, hd]
        · simp only [subtreeAtT, hdx, if_false]
          exact subtreeAtF_dropChF a x cs hn.2 st hst hx

theorem subtreeAtF_dropChF (a x : ℕ) :
    ∀ ts : PForest, (idsF ts).Nodup → ∀ st : PTree, subtreeAtF a ts = some st →
      (x ∉ idsT st ∨ x = a) →
      subtreeAtF x (dropChF a ts) = (subtreeAtF x ts).map (dropChT a)
  | .cons t ts, hn, st, hst, hx => by
      rw [idsF_cons, List.nodup_append] at hn
      obtain ⟨hnt, hnts, hdisj⟩ := hn
      rw [subtreeAtF] at hst
      cases hh : subtreeAtT a t with
      | some st1 =>
          rw [hh] at hst
          injection hst with hst
          subst hst
          have hat : a ∈ idsT t :=
            (subtreeAtT_rootId a t st1 hh) ▸
              (subtreeAtT_ids_sublist a t st1 hh).mem (rootId_mem_idsT st1)
          have hno : a ∉ idsF ts := fun hhh => hdisj hat hhh
          rw [dropChF_cons, dropChF_of_not_mem a ts hno]
          simp only [subtreeAtF]
          rw [subtreeAtT_dropChT a x t hnt st1 hh hx]
          cases hxt : subtreeAtT x t with
          | some st2 => simp
          | none =>
              simp only [Option.map_none]
              cases hxts : subtreeAtF x ts with
              | none => simp
              | some st3 =>
                  have : a ∉ idsT st3 :=
                    fun hh2 => hno ((subtreeAtF_ids_sublist x ts st3 hxts).mem hh2)
                  simp [dropChT_of_not_mem a st3 this]
      | none =>
          rw [hh] at hst
          have hnot : a ∉ idsT t := subtreeAtT_none a t hh
          rw [dropChF_cons, dropChT_of_not_mem a t hnot]
          simp only [subtreeAtF]
          cases hxt : subtreeAtT x t with
          | some st2 =>
              have : a ∉ idsT st2 :=
                fun hh2 => hnot ((subtreeAtT_ids_sublist x t st2 hxt).mem hh2)
              simp [dropChT_of_not_mem a st2 this]
          | none =>
              simpa using subtreeAtF_dropChF a x ts hnts st hst hx

end

@[simp] theorem removeSubT_mk (a : ℕ) (d : NodeData) (cs : PForest) :
    removeSubT a (.mk d cs) = .mk d (removeSubF a cs) := rfl

@[simp] theorem removeSubF_nil (a : ℕ) : removeSubF a .nil = .nil := rfl

theorem removeSubF_cons (a : ℕ) (t : PTree) (ts : PForest) :
    removeSubF a (.cons t ts) =
      if t.rootId = a then removeSubF a ts
      else .cons (removeSubT a t) (removeSubF a ts) := rfl

mutual

theorem ids_sublist_removeSubT (a : ℕ) :
    ∀ t : PTree, List.Sublist (idsT (removeSubT a t)) (idsT t)
  | .mk d cs => by
      simpa using (ids_sublist_removeSubF a cs).cons₂ d.nid

theorem ids_sublist_removeSubF (a : ℕ) :
    ∀ ts : PForest, List.Sublist (idsF (removeSubF a ts)) (idsF ts)
  | .nil => by simp
  | .cons t ts => by
      rw [removeSubF_cons]
      by_cases hr : t.rootId = a
      · rw [if_pos hr]
        exact (ids_sublist_removeSubF a ts).trans (List.sublist_append_right _ _)
      · rw [if_neg hr]
        simpa using (ids_sublist_removeSubT a t).append (ids_sublist_removeSubF a ts)

end

mutual

theorem lens_sublist_removeSubT (a : ℕ) :
    ∀ t : PTree, List.Sublist (lensT (removeSubT a t)) (lensT t)
  | .mk d cs => by
      simpa using (lens_sublist_removeSubF a cs).cons₂ d.elen

theorem lens_sublist_removeSubF (a : ℕ) :
    ∀ ts : PForest, List.Sublist (lensF (removeSubF a ts)) (lensF ts)
  | .nil => by simp
  | .cons t ts => by
      rw [removeSubF_cons]
      by_cases hr : t.rootId = a
      · rw [if_pos hr]
        exact (lens_sublist_removeSubF a ts).trans (List.sublist_append_right _ _)
      · rw [if_neg hr]
        simpa using (lens_sublist_removeSubT a t).append (lens_sublist_removeSubF a ts)

end

/-- A subtree that is a bare chain: every node has exactly one child except
the single leaf at the bottom, which carries identity `x`. -/
def chainToB (x : ℕ) : PTree → Bool
  | .mk d .nil => d.nid == x
  | .mk _ (.cons c .nil) => chainToB x c
  | .mk _ (.cons _ (.cons _ _)) => false

theorem leafIds_of_chainToB (x : ℕ) :
    ∀ t : PTree, chainToB x t = true → leafIdsT t = [x]
  | .mk d .nil, h => by
      simp [chainToB] at h
      simp [h]
  | .mk d (.cons c .nil), h => by
      rw [chainToB] at h
      simp [leafIds_of_chainToB x c h]

mutual

theorem subtree_of_subtree (p z : ℕ) :
    ∀ t : PTree, (idsT t).Nodup → ∀ sp : PTree, subtreeAtT p t = some sp →
      z ∈ idsT sp → subtreeAtT z t = subtreeAtT z sp
  | .mk d cs, hn, sp, hsp, hz => by
      by_cases hd : d.nid = p
      · rw [subtreeAtT, if_pos hd] at hsp
        injection hsp with hsp
        rw [hsp]
      · rw [subtreeAtT, if_neg hd] at hsp
        have hzn : z ≠ d.nid := by
          intro hh
          rw [idsT_mk, List.nodup_cons] at hn
          exact hn.1 (hh ▸ (subtreeAtF_ids_sublist p cs sp hsp).mem hz)
        rw [subtreeAtT, if_neg (fun hh => hzn hh.symm)]
        rw [idsT_mk, List.nodup_cons] at hn
        exact subtree_of_subtreeF p z cs hn.2 sp hsp hz

theorem subtree_of_subtreeF (p z : ℕ) :
    ∀ ts : PForest, (idsF ts).Nodup → ∀ sp : PTree, subtreeAtF p ts = some sp →
      z ∈ idsT sp → subtreeAtF z ts = subtreeAtT z sp
  | .cons t ts, hn, sp, hsp, hz => by
      rw [idsF_cons, List.nodup_append] at hn
      obtain ⟨hnt, hnts, hdisj⟩ := hn
      rw [subtreeAtF] at hsp
      cases hh : subtreeAtT p t with
      | some sp1 =>
          rw [hh] at hsp
          injection hsp with hsp
          have hh2 : subtreeAtT p t = some sp := by rw [hh, hsp]
          have heq := subtree_of_subtree p z t hnt sp hh2 hz
          rw [subtreeAtF]
          rw [heq]
          have hs : (subtreeAtT z sp).isSome := subtreeAtT_isSome z sp hz
          cases hzz : subtreeAtT z sp with
          | some s2 => simp
          | none => rw [hzz] at hs; simp at hs
      | none =>
          rw [hh] at hsp
          have hzts : z ∈ idsF ts := (subtreeAtF_ids_sublist p ts sp hsp).mem hz
          have hznt : z ∉ idsT t := fun hh2 => hdisj hh2 hzts
          rw [subtreeAtF, subtreeAtT_eq_none_of_not_mem hznt]
          exact subtree_of_subtreeF p z ts hnts sp hsp hz

end

mutual

theorem leafChar_of_mem (x : ℕ) :
    ∀ t : PTree, (idsT t).Nodup → x ∈ leafIdsT t → ∃ d : NodeData,
      subtreeAtT x t = some (.mk d .nil) ∧ d.nid = x
  | .mk d .nil, _, hx => by
      have hdx : d.nid = x := (by simpa using hx : x = d.nid).symm
      exact ⟨d, by simp [subtreeAtT, hdx], hdx⟩
  | .mk d (.cons c cs), hn, hx => by
      have hx2 : x ∈ leafIdsF (.cons c cs) := by simpa using hx
      rw [idsT_mk, List.nodup_cons] at hn
      have hdx : d.nid ≠ x := fun hh =>
        hn.1 (hh ▸ (leafIds_sublist_idsF (.cons c cs)).mem hx2)
      obtain ⟨d2, hd2, hd2x⟩ := leafChar_of_memF x (.cons c cs) hn.2 hx2
      exact ⟨d2, by rw [subtreeAtT, if_neg hdx]; exact hd2, hd2x⟩

theorem leafChar_of_memF (x : ℕ) :
    ∀ ts : PForest, (idsF ts).Nodup → x ∈ leafIdsF ts → ∃ d : NodeData,
      subtreeAtF x ts = some (.mk d .nil) ∧ d.nid = x
  | .cons t ts, hn, hx => by
      rw [idsF_cons, List.nodup_append] at hn
      obtain ⟨hnt, hnts, hdisj⟩ := hn
      rcases (by simpa using hx : x ∈ leafIdsT t ∨ x ∈ leafIdsF ts) with h | h
      · obtain ⟨d2, hd2, hd2x⟩ := leafChar_of_mem x t hnt h
        exact ⟨d2, by rw [subtreeAtF, hd2], hd2x⟩
      · obtain ⟨d2, hd2, hd2x⟩ := leafChar_of_memF x ts hnts h
        have hxnt : x ∉ idsT t :=
          fun hh => hdisj hh ((leafIds_sublist_idsF ts).mem h)
        exact ⟨d2, by
          rw [subtreeAtF, subtreeAtT_eq_none_of_not_mem hxnt]
          exact hd2, hd2x⟩

end

mutual

theorem mem_leafIds_of_subtree_leafT (x : ℕ) (d : NodeData) :
    ∀ t : PTree, subtreeAtT x t = some (.mk d .nil) → x ∈ leafIdsT t
  | .mk d2 cs, h => by
      by_cases hd : d2.nid = x
      · rw [subtreeAtT, if_pos hd] at h
        injection h with h
        injection h with h1 h2
        subst h2
        simpa using hd.symm
      · rw [subtreeAtT, if_neg hd] at h
        have hf := mem_leafIds_of_subtree_leafF x d cs h
        cases cs with
        | nil => simp at hf
        | cons c cs2 => simpa using hf

theorem mem_leafIds_of_subtree_leafF (x : ℕ) (d : NodeData) :
    ∀ ts : PForest, subtreeAtF x ts = some (.mk d .nil) → x ∈ leafIdsF ts
  | .cons t ts, h => by
      rw [subtreeAtF] at h
      cases hh : subtreeAtT x t with
      | some st =>
          rw [hh] at h
          injection h with h
          subst h
          simp [mem_leafIds_of_subtree_leafT x d t hh]
      | none =>
          rw [hh] at h
          simp [mem_leafIds_of_subtree_leafF x d ts h]

end

theorem mem_leafIds_iff_of_subtree {t sa : PTree} {a w : ℕ}
    (hn : (idsT t).Nodup) (hsa : subtreeAtT a t = some sa) (hw : w ∈ idsT sa) :
    (w ∈ leafIdsT t ↔ w ∈ leafIdsT sa) := by
  have hsub := subtree_of_subtree a w t hn sa hsa hw
  have hnsa : (idsT sa).Nodup := hn.sublist (subtreeAtT_ids_sublist a t sa hsa)
  constructor
  · intro h
    obtain ⟨d2, hd2, _⟩ := leafChar_of_mem w t hn h
    exact mem_leafIds_of_subtree_leafT w d2 sa (by rw [← hsub]; exact hd2)
  · intro h
    obtain ⟨d2, hd2, _⟩ := leafChar_of_mem w sa hnsa h
    exact mem_leafIds_of_subtree_leafT w d2 t (by rw [hsub]; exact hd2)

@[simp] theorem parentOfT_mk (x : ℕ) (d : NodeData) (cs : PForest) :
    parentOfT x (.mk d cs) =
      if x ∈ rootIdsF cs then some d.nid else parentOfF x cs := rfl

@[simp] theorem parentOfF_nil (x : ℕ) : parentOfF x .nil = none := rfl

theorem parentOfF_cons (x : ℕ) (t : PTree) (ts : PForest) :
    parentOfF x (.cons t ts) =
      match parentOfT x t with
      | some p => some p
      | none => parentOfF x ts := rfl

theorem rootIds_subset_idsF : ∀ ts : PForest, ∀ r ∈ rootIdsF ts, r ∈ idsF ts
  | .cons t ts, r, hr => by
      rcases (by simpa using hr : r = t.rootId ∨ r ∈ rootIdsF ts) with h | h
      · simp [h, rootId_mem_idsT t]
      · simp [rootIds_subset_idsF ts r h]

mutual

theorem mem_of_parentOfT (x p : ℕ) :
    ∀ t : PTree, parentOfT x t = some p → x ∈ idsT t
  | .mk d cs, h => by
      rw [parentOfT_mk] at h
      by_cases hx : x ∈ rootIdsF cs
      · simp [rootIds_subset_idsF cs x hx]
      · rw [if_neg hx] at h
        simp [mem_of_parentOfF x p cs h]

theorem mem_of_parentOfF (x p : ℕ) :
    ∀ ts : PForest, parentOfF x ts = some p → x ∈ idsF ts
  | .cons t ts, h => by
      rw [parentOfF_cons] at h
      cases hh : parentOfT x t with
      | some p2 =>
          rw [hh] at h
          simp [mem_of_parentOfT x p2 t hh]
      | none =>
          rw [hh] at h
          simp [mem_of_parentOfF x p ts h]

end

mutual

theorem parent_mem_of_parentOfT (x p : ℕ) :
    ∀ t : PTree, parentOfT x t = some p → p ∈ idsT t
  | .mk d cs, h => by
      rw [parentOfT_mk] at h
      by_cases hx : x ∈ rootIdsF cs
      · rw [if_pos hx] at h
        injection h with h
        simp [h]
      · rw [if_neg hx] at h
        simp [parent_mem_of_parentOfF x p cs h]

theorem parent_mem_of_parentOfF (x p : ℕ) :
    ∀ ts : PForest, parentOfF x ts = some p → p ∈ idsF ts
  | .cons t ts, h => by
      rw [parentOfF_cons] at h
      cases hh : parentOfT x t with
      | some p2 =>
          rw [hh] at h
          injection h with h
          subst h
          simp [parent_mem_of_parentOfT x p2 t hh]
      | none =>
          rw [hh] at h
          simp [parent_mem_of_parentOfF x p ts h]

end

theorem parentOfT_eq_none_of_not_mem {x : ℕ} {t : PTree} (h : x ∉ idsT t) :
    parentOfT x t = none := by
  cases hh : parentOfT x t with
  | none => rfl
  | some p => exact absurd (mem_of_parentOfT x p t hh) h

mutual

theorem root_of_parentOfT_none (x : ℕ) :
    ∀ t : PTree, parentOfT x t = none → x ∈ idsT t → x = t.rootId
  | .mk d cs, h, hx => by
      rw [parentOfT_mk] at h
      by_cases hr : x ∈ rootIdsF cs
      · rw [if_pos hr] at h
        exact absurd h (by simp)
      · rw [if_neg hr] at h
        rcases (by simpa using hx : x = d.nid ∨ x ∈ idsF cs) with hh | hh
        · simpa using hh
        · exact absurd (rootmem_of_parentOfF_none x cs h hh) hr

theorem rootmem_of_parentOfF_none (x : ℕ) :
    ∀ ts : PForest, parentOfF x ts = none → x ∈ idsF ts → x ∈ rootIdsF ts
  | .cons t ts, h, hx => by
      rw [parentOfF_cons] at h
      cases hh : parentOfT x t with
      | some p => rw [hh] at h; exact absurd h (by simp)
      | none =>
          rw [hh] at h
          rcases (by simpa using hx : x ∈ idsT t ∨ x ∈ idsF ts) with h2 | h2
          · simp [← root_of_parentOfT_none x t hh h2]
          · simp [rootmem_of_parentOfF_none x ts h h2]

end

mutual

theorem coh_of_parentOfT (x p : ℕ) :
    ∀ t : PTree, (idsT t).Nodup → parentOfT x t = some p →
      ∃ dp csp, subtreeAtT p t = some (.mk dp csp) ∧ x ∈ rootIdsF csp
  | .mk d cs, hn, h => by
      rw [parentOfT_mk] at h
      by_cases hx : x ∈ rootIdsF cs
      · rw [if_pos hx] at h
        injection h with h
        subst h
        exact ⟨d, cs, by simp [subtreeAtT], hx⟩
      · rw [if_neg hx] at h
        rw [idsT_mk, List.nodup_cons] at hn
        obtain ⟨dp, csp, hsp, hxp⟩ := coh_of_parentOfF x p cs hn.2 h
        have hpmem : p ∈ idsF cs := by
          have := subtreeAtF_ids_sublist p cs _ hsp
          have hroot := subtreeAtF_rootId p cs _ hsp
          exact hroot ▸ this.mem (rootId_mem_idsT _)
        have hdp : d.nid ≠ p := fun hh => hn.1 (hh ▸ hpmem)
        exact ⟨dp, csp, by rw [subtreeAtT, if_neg hdp]; exact hsp, hxp⟩

theorem coh_of_parentOfF (x p : ℕ) :
    ∀ ts : PForest, (idsF ts).Nodup → parentOfF x ts = some p →
      ∃ dp csp, subtreeAtF p ts = some (.mk dp csp) ∧ x ∈ rootIdsF csp
  | .cons t ts, hn, h => by
      rw [idsF_cons, List.nodup_append] at hn
      obtain ⟨hnt, hnts, hdisj⟩ := hn
      rw [parentOfF_cons] at h
      cases hh : parentOfT x t with
      | some p2 =>
          rw [hh] at h
          injection h with h
          subst h
          obtain ⟨dp, csp, hsp, hxp⟩ := coh_of_parentOfT x p2 t hnt hh
          exact ⟨dp, csp, by rw [subtreeAtF, hsp], hxp⟩
      | none =>
          rw [hh] at h
          obtain ⟨dp, csp, hsp, hxp⟩ := coh_of_parentOfF x p ts hnts h
          have hpmem : p ∈ idsF ts := by
            have := subtreeAtF_ids_sublist p ts _ hsp
            have hroot := subtreeAtF_rootId p ts _ hsp
            exact hroot ▸ this.mem (rootId_mem_idsT _)
          have hpnt : p ∉ idsT t := fun hh2 => hdisj hh2 hpmem
          exact ⟨dp, csp, by
            rw [subtreeAtF, subtreeAtT_eq_none_of_not_mem hpnt]
            exact hsp, hxp⟩

end

mutual

/-- Identities on the path from the root down to the node with identity `a`
(first occurrence), inclusive. -/
def pathToT (a : ℕ) : PTree → Option (List ℕ)
  | .mk d cs =>
      if d.nid = a then some [d.nid]
      else (pathToF a cs).map (fun l => d.nid :: l)

/-- Path lookup inside a forest. -/
def pathToF (a : ℕ) : PForest → Option (List ℕ)
  | .nil => none
  | .cons t ts =>
      match pathToT a t with
      | some l => some l
      | none => pathToF a ts

end

mutual

theorem pathToT_isSome (a : ℕ) :
    ∀ t : PTree, a ∈ idsT t → (pathToT a t).isSome
  | .mk d cs, h => by
      by_cases hd : d.nid = a
      · simp [pathToT, hd]
      · have hcs : a ∈ idsF cs := by
          rcases (by simpa using h : a = d.nid ∨ a ∈ idsF cs) with hh | hh
          · exact absurd hh.symm hd
          · exact hh
        rw [pathToT, if_neg hd]
        have := pathToF_isSome a cs hcs
        cases hh : pathToF a cs with
        | some l => simp
        | none => rw [hh] at this; simp at this

theorem pathToF_isSome (a : ℕ) :
    ∀ ts : PForest, a ∈ idsF ts → (pathToF a ts).isSome
  | .cons t ts, h => by
      rw [pathToF]
      cases hh : pathToT a t with
      | some l => simp
      | none =>
          rcases (by simpa using h : a ∈ idsT t ∨ a ∈ idsF ts) with h2 | h2
          · exact absurd (pathToT_isSome a t h2) (by rw [hh]; simp)
          · exact pathToF_isSome a ts h2

end

mutual

theorem pathToT_mem (a : ℕ) :
    ∀ t : PTree, ∀ l, pathToT a t = some l → a ∈ idsT t
  | .mk d cs, l, h => by
      by_cases hd : d.nid = a
      · simp
        exact Or.inl hd.symm
      · rw [pathToT, if_neg hd] at h
        cases hh : pathToF a cs with
        | some l2 => simp [pathToF_mem a cs l2 hh]
        | none => rw [hh] at h; simp at h

theorem pathToF_mem (a : ℕ) :
    ∀ ts : PForest, ∀ l, pathToF a ts = some l → a ∈ idsF ts
  | .cons t ts, l, h => by
      rw [pathToF] at h
      cases hh : pathToT a t with
      | some l2 => simp [pathToT_mem a t l2 hh]
      | none => rw [hh] at h; simp [pathToF_mem a ts l h]

end

mutual

theorem pathToT_sublist (a : ℕ) :
    ∀ t : PTree, ∀ l, pathToT a t = some l → List.Sublist l (idsT t)
  | .mk d cs, l, h => by
      by_cases hd : d.nid = a
      · rw [pathToT, if_pos hd] at h
        injection h with h
        subst h
        simp
      · rw [pathToT, if_neg hd] at h
        cases hh : pathToF a cs with
        | some l2 =>
            rw [hh] at h
            injection h with h
            subst h
            simpa using (pathToF_sublist a cs l2 hh).cons₂ d.nid
        | none => rw [hh] at h; simp at h

theorem pathToF_sublist (a : ℕ) :
    ∀ ts : PForest, ∀ l, pathToF a ts = some l → List.Sublist l (idsF ts)
  | .cons t ts, l, h => by
      rw [pathToF] at h
      cases hh : pathToT a t with
      | some l2 =>
          rw [hh] at h
          injection h with h
          exact h ▸ ((pathToT_sublist a t l2 hh).trans (List.sublist_append_left _ _))
      | none =>
          rw [hh] at h
          exact (pathToF_sublist a ts l h).trans (List.sublist_append_right _ _)

end

mutual

theorem pathToT_ne_nil (a : ℕ) :
    ∀ t : PTree, ∀ l, pathToT a t = some l → l ≠ []
  | .mk d cs, l, h => by
      by_cases hd : d.nid = a
      · rw [pathToT, if_pos hd] at h
        injection h with h
        subst h
        simp
      · rw [pathToT, if_neg hd] at h
        cases hh : pathToF a cs with
        | some l2 =>
            rw [hh] at h
            injection h with h
            subst h
            simp
        | none => rw [hh] at h; simp at h

theorem pathToF_ne_nil (a : ℕ) :
    ∀ ts : PForest, ∀ l, pathToF a ts = some l → l ≠ []
  | .cons t ts, l, h => by
      rw [pathToF] at h
      cases hh : pathToT a t with
      | some l2 =>
          rw [hh] at h
          injection h with h
          exact h ▸ pathToT_ne_nil a t l2 hh
      | none =>
          rw [hh] at h
          exact pathToF_ne_nil a ts l h

end

theorem pathToT_eq_none_of_not_mem {a : ℕ} {t : PTree} (h : a ∉ idsT t) :
    pathToT a t = none := by
  cases hh : pathToT a t with
  | none => rfl
  | some l => exact absurd (pathToT_mem a t l hh) h

theorem pathToF_of_root (y : ℕ) :
    ∀ cs : PForest, (idsF cs).Nodup → y ∈ rootIdsF cs → pathToF y cs = some [y]
  | .cons c cs2, hn, hy => by
      rw [idsF_cons, List.nodup_append] at hn
      obtain ⟨hnc, hncs, hdisj⟩ := hn
      rcases (by simpa using hy : y = c.rootId ∨ y ∈ rootIdsF cs2) with h | h
      · rw [pathToF]
        have : pathToT y c = some [y] := by
          cases c with
          | mk dc csc =>
              have : dc.nid = y := by simpa using h.symm
              rw [pathToT, if_pos this, this]
        rw [this]
      · have hyc : y ∉ idsT c :=
          fun hh => hdisj hh (rootIds_subset_idsF cs2 y h)
        rw [pathToF, pathToT_eq_none_of_not_mem hyc]
        exact pathToF_of_root y cs2 hncs h

mutual

theorem pathTo_parent_stepT (y p : ℕ) :
    ∀ t : PTree, (idsT t).Nodup → parentOfT y t = some p →
      ∀ lp, pathToT p t = some lp → pathToT y t = some (lp ++ [y])
  | .mk d cs, hn, hpar, lp, hp => by
      rw [idsT_mk, List.nodup_cons] at hn
      rw [parentOfT_mk] at hpar
      by_cases hy : y ∈ rootIdsF cs
      · rw [if_pos hy] at hpar
        injection hpar with hpar
        have hdy : d.nid ≠ y := fun hh => hn.1 (hh ▸ rootIds_subset_idsF cs y hy)
        rw [pathToT, if_neg hdy, pathToF_of_root y cs hn.2 hy]
        rw [pathToT, if_pos hpar] at hp
        injection hp with hp
        subst hp
        simp
      · rw [if_neg hy] at hpar
        have hycs : y ∈ idsF cs := mem_of_parentOfF y p cs hpar
        have hdp : d.nid ≠ p := fun hh => hn.1 (hh ▸ parent_mem_of_parentOfF y p cs hpar)
        have hdy : d.nid ≠ y := fun hh => hn.1 (hh ▸ hycs)
        rw [pathToT, if_neg hdp] at hp
        cases hh : pathToF p cs with
        | some lp2 =>
            rw [hh] at hp
            injection hp with hp
            have hstep := pathTo_parent_stepF y p cs hn.2 hpar lp2 hh
            rw [pathToT, if_neg hdy, hstep]
            simp [← hp]
        | none => rw [hh] at hp; simp at hp

theorem pathTo_parent_stepF (y p : ℕ) :
    ∀ ts : PForest, (idsF ts).Nodup → parentOfF y ts = some p →
      ∀ lp, pathToF p ts = some lp → pathToF y ts = some (lp ++ [y])
  | .cons t ts, hn, hpar, lp, hp => by
      rw [idsF_cons, List.nodup_append] at hn
      obtain ⟨hnt, hnts, hdisj⟩ := hn
      rw [parentOfF_cons] at hpar
      cases hh : parentOfT y t with
      | some p2 =>
          rw [hh] at hpar
          injection hpar with hpar
          have hh2 : parentOfT y t = some p := by rw [hh, hpar]
          have hpt : p ∈ idsT t := parent_mem_of_parentOfT y p t hh2
          rw [pathToF] at hp
          cases hh3 : pathToT p t with
          | some l2 =>
              rw [hh3] at hp
              injection hp with hp
              have hstep := pathTo_parent_stepT y p t hnt hh2 l2 hh3
              rw [pathToF, hstep]
              simp [hp]
          | none =>
              exact absurd (pathToT_isSome p t hpt) (by rw [hh3]; simp)
      | none =>
          rw [hh] at hpar
          have hpts : p ∈ idsF ts := parent_mem_of_parentOfF y p ts hpar
          have hyts : y ∈ idsF ts := mem_of_parentOfF y p ts hpar
          have hpnt : p ∉ idsT t := fun hh2 => hdisj hh2 hpts
          have hynt : y ∉ idsT t := fun hh2 => hdisj hh2 hyts
          rw [pathToF, pathToT_eq_none_of_not_mem hpnt] at hp
          have := pathTo_parent_stepF y p ts hnts hpar lp hp
          rw [pathToF, pathToT_eq_none_of_not_mem hynt, this]

end

theorem lenF_eq_one {cs : PForest} (h : lenF cs = 1) :
    ∃ c0 : PTree, cs = .cons c0 .nil := by
  cases cs with
  | nil => simp [lenF] at h
  | cons c0 rest =>
      cases rest with
      | nil => exact ⟨c0, rfl⟩
      | cons c1 rest2 => simp [lenF] at h

/-- A node sits at the top of a chain leading down to the leaf `x`. -/
def ChainAt (t : PTree) (x y : ℕ) : Prop :=
  ∃ st, subtreeAtT y t = some st ∧ chainToB x st = true

theorem chain_up_step {t : PTree} {x y p : ℕ} (hn : (idsT t).Nodup)
    (hch : ChainAt t x y) (hp : parentOfT y t = some p)
    (hcc : childCountOf t p = some 1) : ChainAt t x p := by
  obtain ⟨st, hst, hcb⟩ := hch
  obtain ⟨dp, csp, hsp, hyroot⟩ := coh_of_parentOfT y p t hn hp
  rw [childCountOf, hsp] at hcc
  have hlen : lenF csp = 1 := by
    injection hcc
  obtain ⟨c0, hc0⟩ := lenF_eq_one hlen
  subst hc0
  have hy0 : c0.rootId = y := by
    rcases (by simpa using hyroot : y = c0.rootId) with h
    exact h.symm
  have hyin : y ∈ idsT (PTree.mk dp (.cons c0 .nil)) := by
    simp [← hy0, rootId_mem_idsT c0]
  have hcomp := subtree_of_subtree p y t hn _ hsp hyin
  have hnsp : (idsT (PTree.mk dp (.cons c0 .nil))).Nodup :=
    hn.sublist (subtreeAtT_ids_sublist p t _ hsp)
  have hdpy : dp.nid ≠ y := by
    intro hh
    rw [idsT_mk, List.nodup_cons] at hnsp
    exact hnsp.1 (hh ▸ (by simp [← hy0, rootId_mem_idsT c0] : y ∈ idsF (.cons c0 .nil)))
  have hsty : subtreeAtT y (PTree.mk dp (.cons c0 .nil)) = some c0 := by
    rw [subtreeAtT, if_neg hdpy, subtreeAtF]
    cases c0 with
    | mk d0 cs0 =>
        have : d0.nid = y := by simpa using hy0
        rw [subtreeAtT, if_pos this]
  have hst0 : st = c0 := by
    have : subtreeAtT y t = some c0 := by rw [hcomp, hsty]
    rw [hst] at this
    injection this
  refine ⟨PTree.mk dp (.cons c0 .nil), hsp, ?_⟩
  rw [chainToB]
  exact hst0 ▸ hcb

theorem climb_zero (t : PTree) (x : ℕ) : climb t 0 x = x := rfl

theorem climb_succ (t : PTree) (fuel x : ℕ) :
    climb t (fuel + 1) x =
      match parentOfT x t with
      | none => x
      | some p => if childCountOf t p = some 1 then climb t fuel p else x := rfl

theorem climb_spec (t : PTree) (x : ℕ) (hn : (idsT t).Nodup) :
    ∀ fuel y l, pathToT y t = some l → l.length ≤ fuel → ChainAt t x y →
      ChainAt t x (climb t fuel y) ∧
        (∀ p, parentOfT (climb t fuel y) t = some p →
          ¬ childCountOf t p = some 1) := by
  intro fuel
  induction fuel with
  | zero =>
      intro y l hl hlen _
      have := pathToT_ne_nil y t l hl
      cases l with
      | nil => exact absurd rfl this
      | cons a l2 => simp at hlen
  | succ fuel ih =>
      intro y l hl hlen hch
      rw [climb_succ]
      cases hp : parentOfT y t with
      | none =>
          dsimp only
          refine ⟨hch, ?_⟩
          intro p hp2
          rw [hp] at hp2
          exact absurd hp2 (by simp)
      | some p =>
          dsimp only
          by_cases hcc : childCountOf t p = some 1
          · rw [if_pos hcc]
            have hpm : p ∈ idsT t := parent_mem_of_parentOfT y p t hp
            have hlp := pathToT_isSome p t hpm
            cases hlp2 : pathToT p t with
            | none => rw [hlp2] at hlp; simp at hlp
            | some lp =>
                have hstep := pathTo_parent_stepT y p t hn hp lp hlp2
                rw [hl] at hstep
                injection hstep with hstep
                have hlplen : lp.length + 1 = l.length := by
                  rw [hstep]
                  simp
                have := chain_up_step hn hch hp hcc
                exact ih p lp hlp2 (by omega) this
          · rw [if_neg hcc]
            refine ⟨hch, ?_⟩
            intro p2 hp2
            rw [hp] at hp2
            injection hp2 with hp2
            exact hp2 ▸ hcc

theorem lenF_pos_ne_nil {cs : PForest} (h : 1 ≤ lenF cs) : cs ≠ .nil := by
  cases cs with
  | nil => simp [lenF] at h
  | cons c cs2 => simp

theorem leafIdsT_of_ne_nil (d : NodeData) {cs : PForest} (h : cs ≠ .nil) :
    leafIdsT (.mk d cs) = leafIdsF cs := by
  cases cs with
  | nil => exact absurd rfl h
  | cons c cs2 => simp

theorem ne_root_of_parent {t : PTree} {x p : ℕ} (hn : (idsT t).Nodup)
    (h : parentOfT x t = some p) : x ≠ t.rootId := by
  cases t with
  | mk d cs =>
      rw [idsT_mk, List.nodup_cons] at hn
      intro hx
      rw [parentOfT_mk] at h
      by_cases hr : x ∈ rootIdsF cs
      · exact hn.1 ((by simpa using hx : x = d.nid) ▸ rootIds_subset_idsF cs x hr)
      · rw [if_neg hr] at h
        exact hn.1 ((by simpa using hx : x = d.nid) ▸ mem_of_parentOfF x p cs h)

theorem subtreeAtT_root (t : PTree) : subtreeAtT t.rootId t = some t := by
  cases t with
  | mk d cs => rw [subtreeAtT, if_pos (by simp)]

theorem removeSubF_ne_nil (r : ℕ) :
    ∀ cs : PForest, (idsF cs).Nodup → 2 ≤ lenF cs → removeSubF r cs ≠ .nil
  | .cons c cs2, hn, hl => by
      rw [idsF_cons, List.nodup_append] at hn
      obtain ⟨hnc, hncs, hdisj⟩ := hn
      rw [removeSubF_cons]
      by_cases hr : c.rootId = r
      · rw [if_pos hr]
        have hrc : r ∉ idsF cs2 := fun hh =>
          hdisj (hr ▸ rootId_mem_idsT c) hh
        rw [removeSubF_of_not_mem r cs2 hrc]
        have : 1 ≤ lenF cs2 := by
          rw [lenF] at hl
          omega
        exact lenF_pos_ne_nil this
      · rw [if_neg hr]
        simp

theorem mem_leafIdsF_removeSubF_root (r w : ℕ) :
    ∀ cs : PForest, (idsF cs).Nodup → r ∈ rootIdsF cs →
      ∀ sr : PTree, subtreeAtF r cs = some sr →
      (w ∈ leafIdsF (removeSubF r cs) ↔ w ∈ leafIdsF cs ∧ w ∉ idsT sr)
  | .cons c cs2, hn, hr, sr, hsr => by
      rw [idsF_cons, List.nodup_append] at hn
      obtain ⟨hnc, hncs, hdisj⟩ := hn
      rcases (by simpa using hr : r = c.rootId ∨ r ∈ rootIdsF cs2) with h | h
      · have hcr : subtreeAtT r c = some c := h ▸ subtreeAtT_root c
        rw [subtreeAtF, hcr] at hsr
        injection hsr with hsr
        have hrc2 : r ∉ idsF cs2 := fun hh =>
          hdisj (h ▸ rootId_mem_idsT c) hh
        rw [removeSubF_cons, if_pos h.symm, removeSubF_of_not_mem r cs2 hrc2]
        constructor
        · intro hw
          refine ⟨by simp [hw], fun hw2 => ?_⟩
          rw [← hsr] at hw2
          exact hdisj hw2 ((leafIds_sublist_idsF cs2).mem hw)
        · rintro ⟨hw, hw2⟩
          rw [← hsr] at hw2
          rcases (by simpa using hw : w ∈ leafIdsT c ∨ w ∈ leafIdsF cs2) with h2 | h2
          · exact absurd ((leafIds_sublist_idsT c).mem h2) hw2
          · exact h2
      · have hrcs : r ∈ idsF cs2 := rootIds_subset_idsF cs2 r h
        have hrnc : r ∉ idsT c := fun hh => hdisj hh hrcs
        have hcr : c.rootId ≠ r := fun hh => hrnc (hh ▸ rootId_mem_idsT c)
        rw [subtreeAtF, subtreeAtT_eq_none_of_not_mem hrnc] at hsr
        rw [removeSubF_cons, if_neg hcr, removeSubT_of_not_mem r c hrnc]
        have ih := mem_leafIdsF_removeSubF_root r w cs2 hncs h sr hsr
        have hdisj2 : w ∈ leafIdsT c → w ∉ idsT sr := fun hw hw2 =>
          hdisj ((leafIds_sublist_idsT c).mem hw)
            ((subtreeAtF_ids_sublist r cs2 sr hsr).mem hw2)
        simp only [leafIdsF_cons, List.mem_append, ih]
        tauto

mutual

theorem mem_leafIds_removeSubT (r w : ℕ) :
    ∀ t : PTree, (idsT t).Nodup → ∀ p, parentOfT r t = some p →
      (∀ dp csp, subtreeAtT p t = some (.mk dp csp) → 2 ≤ lenF csp) →
      ∀ sr : PTree, subtreeAtT r t = some sr →
      (w ∈ leafIdsT (removeSubT r t) ↔ w ∈ leafIdsT t ∧ w ∉ idsT sr)
  | .mk d cs, hn, p, hpar, hcc, sr, hsr => by
      have hnd := hn
      rw [idsT_mk, List.nodup_cons] at hnd
      rw [parentOfT_mk] at hpar
      by_cases hr : r ∈ rootIdsF cs
      · rw [if_pos hr] at hpar
        injection hpar with hpar
        have hdr : d.nid ≠ r := fun hh => hnd.1 (hh ▸ rootIds_subset_idsF cs r hr)
        rw [subtreeAtT, if_neg hdr] at hsr
        have hclen : 2 ≤ lenF cs := by
          refine hcc d cs ?_
          rw [← hpar, subtreeAtT, if_pos rfl]
        have hne := removeSubF_ne_nil r cs hnd.2 hclen
        have hcsne : cs ≠ .nil := lenF_pos_ne_nil (by omega)
        rw [removeSubT_mk, leafIdsT_of_ne_nil d hne, leafIdsT_of_ne_nil d hcsne]
        exact mem_leafIdsF_removeSubF_root r w cs hnd.2 hr sr hsr
      · rw [if_neg hr] at hpar
        have hrcs : r ∈ idsF cs := mem_of_parentOfF r p cs hpar
        have hdr : d.nid ≠ r := fun hh => hnd.1 (hh ▸ hrcs)
        have hpcs : p ∈ idsF cs := parent_mem_of_parentOfF r p cs hpar
        have hdp : d.nid ≠ p := fun hh => hnd.1 (hh ▸ hpcs)
        rw [subtreeAtT, if_neg hdr] at hsr
        have hcc2 : ∀ dp csp, subtreeAtF p cs = some (.mk dp csp) → 2 ≤ lenF csp := by
          intro dp csp hh
          refine hcc dp csp ?_
          rw [subtreeAtT, if_neg hdp]
          exact hh
        have ih := mem_leafIds_removeSubF r w cs hnd.2 p hpar hcc2 sr hsr
        have hcsne : cs ≠ .nil := by
          intro hh
          subst hh
          simp at hrcs
        have hshape : removeSubF r cs ≠ .nil := by
          cases cs with
          | nil => exact absurd rfl hcsne
          | cons c cs2 =>
              have hcr : c.rootId ≠ r := fun hh => hr (by simp [hh])
              rw [removeSubF_cons, if_neg hcr]
              simp
        rw [removeSubT_mk, leafIdsT_of_ne_nil d hshape, leafIdsT_of_ne_nil d hcsne]
        exact ih

theorem mem_leafIds_removeSubF (r w : ℕ) :
    ∀ ts : PForest, (idsF ts).Nodup → ∀ p, parentOfF r ts = some p →
      (∀ dp csp, subtreeAtF p ts = some (.mk dp csp) → 2 ≤ lenF csp) →
      ∀ sr : PTree, subtreeAtF r ts = some sr →
      (w ∈ leafIdsF (removeSubF r ts) ↔ w ∈ leafIdsF ts ∧ w ∉ idsT sr)
  | .cons c cs2, hn, p, hpar, hcc, sr, hsr => by
      rw [idsF_cons, List.nodup_append] at hn
      obtain ⟨hnc, hncs, hdisj⟩ := hn
      rw [parentOfF_cons] at hpar
      cases hh : parentOfT r c with
      | some p2 =>
          rw [hh] at hpar
          injection hpar with hpar
          have hh2 : parentOfT r c = some p := by rw [hh, hpar]
          have hrc : r ∈ idsT c := mem_of_parentOfT r p c hh2
          have hcr : c.rootId ≠ r := fun hhh =>
            (ne_root_of_parent hnc hh2) hhh.symm
          have hrcs2 : r ∉ idsF cs2 := fun hhh => hdisj hrc hhh
          rw [subtreeAtF] at hsr
          cases hss : subtreeAtT r c with
          | none => exact absurd (subtreeAtT_isSome r c hrc) (by rw [hss]; simp)
          | some s2 =>
              rw [hss] at hsr
              injection hsr with hsr
              have hsrc : subtreeAtT r c = some sr := by rw [hss, hsr]
              have hcc2 : ∀ dp csp, subtreeAtT p c = some (.mk dp csp) →
                  2 ≤ lenF csp := by
                intro dp csp hhh
                refine hcc dp csp ?_
                rw [subtreeAtF, hhh]
              have ih := mem_leafIds_removeSubT r w c hnc p hh2 hcc2 sr hsrc
              rw [removeSubF_cons, if_neg hcr, removeSubF_of_not_mem r cs2 hrcs2]
              have hdisj2 : w ∈ leafIdsF cs2 → w ∉ idsT sr := fun hw hw2 =>
                hdisj ((subtreeAtT_ids_sublist r c sr hsrc).mem hw2)
                  ((leafIds_sublist_idsF cs2).mem hw)
              simp only [leafIdsF_cons, List.mem_append, ih]
              tauto
      | none =>
          rw [hh] at hpar
          have hrnc : r ∉ idsT c := by
            intro hrc
            exact hdisj hrc (mem_of_parentOfF r p cs2 hpar)
          have hcr : c.rootId ≠ r := fun hhh => hrnc (hhh ▸ rootId_mem_idsT c)
          have hpcs2 : p ∈ idsF cs2 := parent_mem_of_parentOfF r p cs2 hpar
          have hpnc : p ∉ idsT c := fun hhh => hdisj hhh hpcs2
          rw [subtreeAtF, subtreeAtT_eq_none_of_not_mem hrnc] at hsr
          have hcc2 : ∀ dp csp, subtreeAtF p cs2 = some (.mk dp csp) →
              2 ≤ lenF csp := by
            intro dp csp hhh
            refine hcc dp csp ?_
            rw [subtreeAtF, subtreeAtT_eq_none_of_not_mem hpnc]
            exact hhh
          have ih := mem_leafIds_removeSubF r w cs2 hncs p hpar hcc2 sr hsr
          rw [removeSubF_cons, if_neg hcr, removeSubT_of_not_mem r c hrnc]
          have hdisj2 : w ∈ leafIdsT c → w ∉ idsT sr := fun hw hw2 =>
            hdisj ((leafIds_sublist_idsT c).mem hw)
              ((subtreeAtF_ids_sublist r cs2 sr hsr).mem hw2)
          simp only [leafIdsF_cons, List.mem_append, ih]
          tauto

end

theorem pruneExtinctStep_eq (t : PTree) (x : ℕ) :
    pruneExtinctStep t x =
      match parentOfT (climb t (idsT t).length x) t with
      | some _ => removeSubT (climb t (idsT t).length x) t
      | none => t := rfl

theorem pruneExtinctStep_not_mem {t : PTree} {x : ℕ} (h : x ∉ idsT t) :
    pruneExtinctStep t x = t := by
  have h0 : parentOfT x t = none := parentOfT_eq_none_of_not_mem h
  have hc : climb t (idsT t).length x = x := by
    cases hf : (idsT t).length with
    | zero => rfl
    | succ f => rw [climb_succ, h0]
  rw [pruneExtinctStep_eq, hc, h0]

theorem pruneExtinctStep_spec {t : PTree} {x z : ℕ} (hn : (idsT t).Nodup)
    (hx : x ∈ leafIdsT t) (hz : z ∈ leafIdsT t) (hzx : z ≠ x) :
    (∀ w, w ∈ leafIdsT (pruneExtinctStep t x) ↔ w ∈ leafIdsT t ∧ w ≠ x) ∧
    List.Sublist (idsT (pruneExtinctStep t x)) (idsT t) ∧
    List.Sublist (lensT (pruneExtinctStep t x)) (lensT t) := by
  obtain ⟨dx, hdx, hdxx⟩ := leafChar_of_mem x t hn hx
  have hch0 : ChainAt t x x := ⟨.mk dx .nil, hdx, by simp [chainToB, hdxx]⟩
  have hxm : x ∈ idsT t := mem_ids_of_mem_leafIds hx
  have hpl := pathToT_isSome x t hxm
  cases hpl2 : pathToT x t with
  | none => rw [hpl2] at hpl; simp at hpl
  | some l =>
      have hlen : l.length ≤ (idsT t).length := (pathToT_sublist x t l hpl2).length_le
      obtain ⟨hchain, hstab⟩ := climb_spec t x hn (idsT t).length x l hpl2 hlen hch0
      obtain ⟨st, hst, hcb⟩ := hchain
      have hleafst := leafIds_of_chainToB x st hcb
      cases hpar : parentOfT (climb t (idsT t).length x) t with
      | none =>
          have hym : climb t (idsT t).length x ∈ idsT t := by
            have hr := subtreeAtT_rootId _ t st hst
            exact hr ▸ (subtreeAtT_ids_sublist _ t st hst).mem (rootId_mem_idsT st)
          have hyr := root_of_parentOfT_none _ t hpar hym
          have hwhole : subtreeAtT (climb t (idsT t).length x) t = some t :=
            hyr ▸ subtreeAtT_root t
          rw [hst] at hwhole
          injection hwhole with hwhole
          rw [hwhole] at hleafst
          rw [hleafst] at hz
          simp at hz
          exact absurd hz hzx
      | some p =>
          have hres : pruneExtinctStep t x = removeSubT (climb t (idsT t).length x) t := by
            rw [pruneExtinctStep_eq, hpar]
          have hcc : ∀ dp csp, subtreeAtT p t = some (.mk dp csp) → 2 ≤ lenF csp := by
            intro dp csp hhh
            obtain ⟨dp2, csp2, hsp2, hyroot⟩ := coh_of_parentOfT _ p t hn hpar
            rw [hhh] at hsp2
            injection hsp2 with hsp2
            injection hsp2 with hd1 hd2
            rw [← hd2] at hyroot
            have hne : csp ≠ .nil := by
              intro hnil
              rw [hnil] at hyroot
              simp at hyroot
            have hcnt := hstab p hpar
            have hcv : childCountOf t p = some (lenF csp) := by
              rw [childCountOf, hhh]
            have hone : lenF csp ≠ 1 := by
              intro h1
              exact hcnt (by rw [hcv, h1])
            have hpos : 1 ≤ lenF csp := by
              cases hcs : csp with
              | nil => exact absurd hcs hne
              | cons c0 cs0 => rw [lenF]; omega
            omega
          have hxst : x ∈ idsT st := by
            have : x ∈ leafIdsT st := by rw [hleafst]; simp
            exact mem_ids_of_mem_leafIds this
          refine ⟨?_, ?_, ?_⟩
          · intro w
            rw [hres]
            rw [mem_leafIds_removeSubT _ w t hn p hpar hcc st hst]
            constructor
            · rintro ⟨hw, hw2⟩
              exact ⟨hw, fun hwx => hw2 (hwx ▸ hxst)⟩
            · rintro ⟨hw, hw2⟩
              refine ⟨hw, fun hwst => ?_⟩
              have := (mem_leafIds_iff_of_subtree hn hst hwst).mp hw
              rw [hleafst] at this
              simp at this
              exact hw2 this
          · rw [hres]
            exact ids_sublist_removeSubT _ t
          · rw [hres]
            exact lens_sublist_removeSubT _ t

theorem suppressT_leaf (d : NodeData) : suppressT (.mk d .nil) = .mk d .nil := rfl

theorem suppressT_one (d : NodeData) (c : PTree) :
    suppressT (.mk d (.cons c .nil)) =
      match suppressT c with
      | .mk dc cs => .mk { dc with elen := dc.elen + d.elen } cs := rfl

theorem suppressT_many (d : NodeData) (c c2 : PTree) (cs : PForest) :
    suppressT (.mk d (.cons c (.cons c2 cs))) =
      .mk d (.cons (suppressT c) (.cons (suppressT c2) (suppressF cs))) := rfl

@[simp] theorem suppressF_nil : suppressF .nil = .nil := rfl

@[simp] theorem suppressF_cons (t : PTree) (ts : PForest) :
    suppressF (.cons t ts) = .cons (suppressT t) (suppressF ts) := rfl

theorem leafIdsT_data_irrel (d d2 : NodeData) (h : d.nid = d2.nid) (cs : PForest) :
    leafIdsT (.mk d cs) = leafIdsT (.mk d2 cs) := by
  cases cs with
  | nil => simp [h]
  | cons c cs2 => simp

mutual

theorem leafIdsT_suppressT : ∀ t : PTree, leafIdsT (suppressT t) = leafIdsT t
  | .mk d .nil => rfl
  | .mk d (.cons c .nil) => by
      have ih := leafIdsT_suppressT c
      rw [suppressT_one]
      cases hsc : suppressT c with
      | mk dc cs =>
          rw [hsc] at ih
          have := leafIdsT_data_irrel { dc with elen := dc.elen + d.elen } dc rfl cs
          rw [this, ih]
          simp
  | .mk d (.cons c (.cons c2 cs)) => by
      rw [suppressT_many]
      simp [leafIdsT_suppressT c, leafIdsT_suppressT c2, leafIdsF_suppressF cs]

theorem leafIdsF_suppressF : ∀ ts : PForest, leafIdsF (suppressF ts) = leafIdsF ts
  | .nil => rfl
  | .cons t ts => by
      simp [leafIdsT_suppressT t, leafIdsF_suppressF ts]

end

mutual

theorem lensT_suppressT_nonneg :
    ∀ t : PTree, (∀ q ∈ lensT t, 0 ≤ q) → ∀ q ∈ lensT (suppressT t), 0 ≤ q
  | .mk d .nil, h, q, hq => h q (by rw [suppressT_leaf] at hq; exact hq)
  | .mk d (.cons c .nil), h, q, hq => by
      have ihc := lensT_suppressT_nonneg c (fun r hr => h r (by simp [hr]))
      rw [suppressT_one] at hq
      cases hsc : suppressT c with
      | mk dc cs =>
          rw [hsc] at hq ihc
          simp at hq
          rcases hq with hq | hq
          · subst hq
            have h1 : 0 ≤ dc.elen := ihc dc.elen (by simp)
            have h2 : 0 ≤ d.elen := h d.elen (by simp)
            exact add_nonneg h1 h2
          · exact ihc q (by simp [hq])
  | .mk d (.cons c (.cons c2 cs)), h, q, hq => by
      rw [suppressT_many] at hq
      simp at hq
      rcases hq with hq | hq | hq | hq
      · exact hq ▸ h d.elen (by simp)
      · exact lensT_suppressT_nonneg c (fun r hr => h r (by simp [hr])) q hq
      · exact lensT_suppressT_nonneg c2 (fun r hr => h r (by simp [hr])) q hq
      · exact lensF_suppressF_nonneg cs (fun r hr => h r (by simp [hr])) q hq

theorem lensF_suppressF_nonneg :
    ∀ ts : PForest, (∀ q ∈ lensF ts, 0 ≤ q) → ∀ q ∈ lensF (suppressF ts), 0 ≤ q
  | .cons t ts, h, q, hq => by
      simp at hq
      rcases hq with hq | hq
      · exact lensT_suppressT_nonneg t (fun r hr => h r (by simp [hr])) q hq
      · exact lensF_suppressF_nonneg ts (fun r hr => h r (by simp [hr])) q hq

end

/-! ### Unfolding lemmas for the bounded loops -/

theorem contLoop_succ (cfg : ContCfg) (fuel : ℕ) (s : ContState) (rng : Rng) :
    contLoop cfg (fuel + 1) s rng =
      match contStep cfg s rng with
      | .error e => .error e
      | .ok (.done s1 rng1) => .ok (s1, rng1)
      | .ok (.next s1 rng1) => contLoop cfg fuel s1 rng1 := rfl

theorem contLoop_next {cfg : ContCfg} {s s1 : ContState} {rng rng1 : Rng}
    (fuel : ℕ) (h : contStep cfg s rng = .ok (.next s1 rng1)) :
    contLoop cfg (fuel + 1) s rng = contLoop cfg fuel s1 rng1 := by
  rw [contLoop_succ, h]

theorem contLoop_done {cfg : ContCfg} {s s1 : ContState} {rng rng1 : Rng}
    (fuel : ℕ) (h : contStep cfg s rng = .ok (.done s1 rng1)) :
    contLoop cfg (fuel + 1) s rng = .ok (s1, rng1) := by
  rw [contLoop_succ, h]

theorem birth_death_sim_of {kw : ContKwargs} {cfg : ContCfg} (rng : Rng) (fuel : ℕ)
    (hcfg : resolveContCfg kw = .ok cfg) :
    birth_death_sim kw rng fuel = .ok (contLoop cfg fuel (contInit cfg) rng) := by
  simp only [birth_death_sim, hcfg]

theorem birth_death_tree_of {kw : ContKwargs} {cfg : ContCfg} {rng rng1 rng2 : Rng}
    {fuel : ℕ} {s s2 : ContState}
    (hcfg : resolveContCfg kw = .ok cfg)
    (hloop : contLoop cfg fuel (contInit cfg) rng = .ok (s, rng1))
    (hfin : contFinalize cfg s rng1 = .ok (s2, rng2)) :
    birth_death_tree kw rng fuel = .ok (.ok (s2.tree, s2.isRooted)) := by
  simp only [birth_death_tree, hcfg, hloop, hfin]

theorem birth_death_tree_of_err {kw : ContKwargs} {cfg : ContCfg} {rng rng1 : Rng}
    {fuel : ℕ} {s : ContState} {e : SimErr}
    (hcfg : resolveContCfg kw = .ok cfg)
    (hloop : contLoop cfg fuel (contInit cfg) rng = .ok (s, rng1))
    (hfin : contFinalize cfg s rng1 = .error e) :
    birth_death_tree kw rng fuel = .ok (.error e) := by
  simp only [birth_death_tree, hcfg, hloop, hfin]

theorem discGeneration_nil (cfg : DiscCfg) (s : DiscState) (rng : Rng) :
    discGeneration cfg [] s rng = .ok (s, rng) := rfl

theorem discGeneration_cons {cfg : DiscCfg} {s s1 : DiscState} {rng rng1 : Rng}
    (i : ℕ) (rest : List ℕ) (h : discProcessLeaf cfg s i rng = .ok (s1, rng1)) :
    discGeneration cfg (i :: rest) s rng = discGeneration cfg rest s1 rng1 := by
  simp only [discGeneration, h]

theorem discLoop_stop {cfg : DiscCfg} {s : DiscState} {rng : Rng} (fuel : ℕ)
    (h : ¬ discCond cfg s) : discLoop cfg (fuel + 1) s rng = .ok (s, rng) := by
  simp only [discLoop, if_neg h]

theorem discLoop_gen {cfg : DiscCfg} {s s1 : DiscState} {rng rng1 : Rng}
    (fuel : ℕ) (h : discCond cfg s)
    (hg : discGeneration cfg (leafIdsT s.tree) s rng = .ok (s1, rng1)) :
    discLoop cfg (fuel + 1) s rng =
      discLoop cfg fuel { s1 with numGens := s1.numGens + 1 } rng1 := by
  simp only [discLoop, if_pos h, hg]

theorem discGeneration_cons_err {cfg : DiscCfg} {s : DiscState} {rng : Rng}
    {e : SimErr} (i : ℕ) (rest : List ℕ)
    (h : discProcessLeaf cfg s i rng = .error e) :
    discGeneration cfg (i :: rest) s rng = .error e := by
  simp only [discGeneration, h]

theorem discLoop_gen_err {cfg : DiscCfg} {s : DiscState} {rng : Rng}
    {e : SimErr} (fuel : ℕ) (h : discCond cfg s)
    (hg : discGeneration cfg (leafIdsT s.tree) s rng = .error e) :
    discLoop cfg (fuel + 1) s rng = .error e := by
  simp only [discLoop, if_pos h, hg]

theorem discrete_birth_death_sim_of {kw : DiscKwargs} {cfg : DiscCfg}
    {rng rng1 rng2 : Rng} {fuel : ℕ} {s : DiscState} {gta : ℕ} {r : DiscResult}
    (hcfg : resolveDiscCfg kw = .ok cfg)
    (hloop : discLoop cfg fuel (discInit cfg) rng = .ok (s, rng1))
    (hext : discExtension cfg s.numGens fuel 0 rng1 = .ok (gta, rng2))
    (hr : r = { tree := addLenTo (leafIdsT s.tree) (gta : ℚ) s.tree
                isRooted := s.isRooted, numGens := s.numGens, gensToAdd := gta }) :
    discrete_birth_death_sim kw rng fuel = .ok (.ok r) := by
  subst hr
  simp only [discrete_birth_death_sim, hcfg, hloop, hext]

/-! ### The concrete runs, evaluated one loop iteration at a time -/

section ConcreteRuns

attribute [local semireducible] Rat.add Rat.mul Rat.inv Rat.sub Rat.ofScientific

theorem resolveB : resolveContCfg kwB = .ok cfgB := rfl

theorem resolveA : resolveContCfg kwA = .ok cfgA := rfl

theorem stepB1 : contStep cfgB (contInit cfgB) (rngC 0 0 0) =
    .ok (.next sB1 (rngC 1 1 4)) := rfl

theorem stepB2 : contStep cfgB sB1 (rngC 1 1 4) =
    .ok (.next sB2 (rngC 2 2 4)) := rfl

theorem stepB3 : contStep cfgB sB2 (rngC 2 2 4) =
    .ok (.next sB3 (rngC 3 3 8)) := rfl

theorem stepB4 : contStep cfgB sB3 (rngC 3 3 8) =
    .ok (.next sB4 (rngC 4 4 12)) := rfl

theorem stepB5 : contStep cfgB sB4 (rngC 4 4 12) =
    .ok (.done sB4 (rngC 4 4 12)) := rfl

theorem loopB : contLoop cfgB 6 (contInit cfgB) (rngC 0 0 0) =
    .ok (sB4, rngC 4 4 12) := by
  rw [contLoop_next 5 stepB1, contLoop_next 4 stepB2, contLoop_next 3 stepB3,
    contLoop_next 2 stepB4, contLoop_done 1 stepB5]

theorem finB : contFinalize cfgB sB4 (rngC 4 4 12) = .ok (sBfin, rngC 4 5 12) := by
  have hres : contPostProcess (contRestore sB4 1 [(3, 0), (4, 0)]) = sBfin := by decide
  show (match gsaSelectSlice sB4.slices (uC5 4) with
    | none => (.error .assertionFailed : Except SimErr (ContState × Rng))
    | some sl => .ok (contPostProcess (contRestore sB4 sl.1 sl.2), rngC 4 5 12)) =
      .ok (sBfin, rngC 4 5 12)
  rw [show gsaSelectSlice sB4.slices (uC5 4) = some (1, [(3, 0), (4, 0)]) from by decide]
  show Except.ok (contPostProcess (contRestore sB4 1 [(3, 0), (4, 0)]), rngC 4 5 12) =
    Except.ok (sBfin, rngC 4 5 12)
  rw [hres]

theorem treeRunB : birth_death_tree kwB (rngC 0 0 0) 6 = .ok (.ok (treeB, true)) :=
  birth_death_tree_of resolveB loopB finB

theorem simRunB : birth_death_sim kwB (rngC 0 0 0) 6 = .ok (.ok (sB4, rngC 4 4 12)) := by
  rw [birth_death_sim_of (rngC 0 0 0) 6 resolveB, loopB]

theorem stepA1 : contStep cfgA (contInit cfgA) (rngC 0 0 0) =
    .ok (.next sB1 (rngC 1 1 4)) := rfl

theorem stepA2 : contStep cfgA sB1 (rngC 1 1 4) =
    .ok (.done sA2 (rngC 2 1 4)) := rfl

theorem loopA : contLoop cfgA 6 (contInit cfgA) (rngC 0 0 0) =
    .ok (sA2, rngC 2 1 4) := by
  rw [contLoop_next 5 stepA1, contLoop_done 4 stepA2]

theorem finA : contFinalize cfgA sA2 (rngC 2 1 4) = .ok (sAfin, rngC 2 2 4) := by
  have hres : contPostProcess (contRestore sA2 1 [(1, 0), (2, 0)]) = sAfin := by decide
  show (match gsaSelectSlice sA2.slices (uC5 1) with
    | none => (.error .assertionFailed : Except SimErr (ContState × Rng))
    | some sl => .ok (contPostProcess (contRestore sA2 sl.1 sl.2), rngC 2 2 4)) =
      .ok (sAfin, rngC 2 2 4)
  rw [show gsaSelectSlice sA2.slices (uC5 1) = some (1, [(1, 0), (2, 0)]) from by decide]
  show Except.ok (contPostProcess (contRestore sA2 1 [(1, 0), (2, 0)]), rngC 2 2 4) =
    Except.ok (sAfin, rngC 2 2 4)
  rw [hres]

theorem treeRunA : birth_death_tree kwA (rngC 0 0 0) 6 = .ok (.ok (treeA, true)) :=
  birth_death_tree_of resolveA loopA finA

set_option maxHeartbeats 4000000 in
theorem runC8 : birth_death_tree kwC8 (rngC 0 0 0) 3 =
    .ok (.error .assertionFailed) := by decide

theorem resolveD3 : resolveDiscCfg kwD3 = .ok cfgD3 := rfl

theorem resolveD4 : resolveDiscCfg kwD4 = .ok cfgD4 := rfl

theorem dstep1 : discProcessLeaf cfgD3 (discInit cfgD3) 0 (rngD3 0 0 0) =
    .ok (dA, rngD3 0 1 4) := rfl

theorem dstep2 : discProcessLeaf cfgD3 dB 1 (rngD3 0 1 4) =
    .ok (dC, rngD3 0 2 8) := rfl

theorem dstep3 : discProcessLeaf cfgD3 dC 2 (rngD3 0 2 8) =
    .ok (dD, rngD3 0 3 12) := rfl

theorem dgen1 : discGeneration cfgD3 [0] (discInit cfgD3) (rngD3 0 0 0) =
    .ok (dA, rngD3 0 1 4) := by
  rw [discGeneration_cons 0 [] dstep1, discGeneration_nil]

theorem dgen2 : discGeneration cfgD3 [1, 2] dB (rngD3 0 1 4) =
    .ok (dD, rngD3 0 3 12) := by
  rw [discGeneration_cons 1 [2] dstep2, discGeneration_cons 2 [] dstep3,
    discGeneration_nil]

theorem dloopD3 : discLoop cfgD3 6 (discInit cfgD3) (rngD3 0 0 0) =
    .ok (dE, rngD3 0 3 12) := by
  rw [discLoop_gen 5 (by decide) dgen1, discLoop_gen 4 (by decide) dgen2,
    discLoop_stop 3 (by decide)]
  rfl

theorem dextD3 : discExtension cfgD3 dE.numGens 6 0 (rngD3 0 3 12) =
    .ok (0, rngD3 0 4 12) := rfl

theorem runD3 : discrete_birth_death_sim kwD3 (rngD3 0 0 0) 6 = .ok (.ok rD3) :=
  discrete_birth_death_sim_of resolveD3 dloopD3 dextD3 (by decide)

theorem estep1 : discProcessLeaf cfgD4 (discInit cfgD4) 0 (rngD4 0 0 0) =
    .ok (eA, rngD4 0 1 4) := rfl

theorem egen1 : discGeneration cfgD4 [0] (discInit cfgD4) (rngD4 0 0 0) =
    .ok (eA, rngD4 0 1 4) := by
  rw [discGeneration_cons 0 [] estep1, discGeneration_nil]

theorem eloopD4 : discLoop cfgD4 7 (discInit cfgD4) (rngD4 0 0 0) =
    .ok (eB, rngD4 0 1 4) := by
  rw [discLoop_gen 6 (by decide) egen1, discLoop_stop 5 (by decide)]
  rfl

theorem eextD4 : discExtension cfgD4 eB.numGens 7 0 (rngD4 0 1 4) =
    .ok (5, rngD4 0 7 4) := rfl

theorem runD4 : discrete_birth_death_sim kwD4 (rngD4 0 0 0) 7 = .ok (.ok rD4) :=
  discrete_birth_death_sim_of resolveD4 eloopD4 eextD4 (by decide)

end ConcreteRuns

/-! ### The slice-selection loop always keeps the last overshooting slice -/

theorem gsaSelectScan_append_last {α : Type} (sl : ℚ × α) :
    ∀ (l : List (ℚ × α)) (r : ℚ) (sel : Option (ℚ × α)),
      r - ((l ++ [sl]).map Prod.fst).sum < 0 →
      gsaSelectScan r sel (l ++ [sl]) = some sl
  | [], r, sel, h => by
      have h2 : r - sl.1 < 0 := by simpa using h
      show (if r - sl.1 < 0 then some sl else sel) = some sl
      rw [if_pos h2]
  | hd :: tl, r, sel, h => by
      show gsaSelectScan (r - hd.1) (if r - hd.1 < 0 then some hd else sel)
        (tl ++ [sl]) = some sl
      apply gsaSelectScan_append_last sl tl
      have h3 : ((hd :: tl ++ [sl]).map Prod.fst).sum =
          hd.1 + ((tl ++ [sl]).map Prod.fst).sum := by simp
      rw [h3] at h
      linarith

/-- Whenever the scaled draw is strictly below the total recorded duration,
the selection loop of the source returns the LAST slice, not the first one
whose cumulative duration reaches the draw. -/
theorem gsaSelectSlice_last {α : Type} (l : List (ℚ × α)) (sl : ℚ × α) (u : ℚ)
    (hu : u < 1) (hpos : 0 < ((l ++ [sl]).map Prod.fst).sum) :
    gsaSelectSlice (l ++ [sl]) u = some sl := by
  unfold gsaSelectSlice
  apply gsaSelectScan_append_last
  have h1 : u * ((l ++ [sl]).map Prod.fst).sum <
      1 * ((l ++ [sl]).map Prod.fst).sum :=
    mul_lt_mul_of_pos_right hu hpos
  linarith

/-! ### Sorting makes the Yule fitter order-insensitive -/

theorem sortDesc_perm_eq {l1 l2 : List ℚ} (h : l1.Perm l2) :
    sortDesc l1 = sortDesc l2 :=
  List.eq_of_perm_of_sorted
    ((List.perm_insertionSort _ l1).trans (h.trans (List.perm_insertionSort _ l2).symm))
    (List.sorted_insertionSort _ l1) (List.sorted_insertionSort _ l2)

theorem fit_pure_birth_model_perm {l1 l2 : List ℚ} (h : l1.Perm l2) (flag : Bool) :
    fit_pure_birth_model l1 flag = fit_pure_birth_model l2 flag := by
  simp only [fit_pure_birth_model, sortDesc_perm_eq h]

/-! ### Validation of the continuous engine, characterized -/

theorem resolveContCfg_error_iff (kw : ContKwargs) :
    (∃ e, resolveContCfg kw = .error e) ↔
      (contTarget kw = none ∧ (kw.gsa_ntax.isSome ∨ kw.max_time = none)) ∨
      (∃ t g, contTarget kw = some t ∧ kw.gsa_ntax = some g ∧ g < t) := by
  rcases kw with ⟨b, d, sb, sd, ntax, ns, mt, gsa, rep⟩
  cases ntax <;> cases ns <;> cases gsa <;> cases mt <;>
    simp [resolveContCfg, contTarget] <;>
    split_ifs <;> simp_all

theorem resolveContCfg_gsa_eq_target {kw : ContKwargs} {t : ℕ}
    (h1 : contTarget kw = some t) (h2 : kw.gsa_ntax = some t) :
    ∃ cfg : ContCfg, resolveContCfg kw = .ok cfg ∧ cfg.gsa_ntax = some t ∧
      cfg.target_num_taxa = some t ∧ cfg.terminate_at_full_tree = false := by
  have h1' : (match kw.ntax, kw.taxon_namespace_size with
    | none, some n => some n
    | t, _ => t) = some t := h1
  refine ⟨{ birth_rate := kw.birth_rate, death_rate := kw.death_rate
            birth_rate_sd := kw.birth_rate_sd, death_rate_sd := kw.death_rate_sd
            target_num_taxa := some t, max_time := kw.max_time
            gsa_ntax := some t, terminate_at_full_tree := false
            repeat_until_success := kw.repeat_until_success.getD true },
    ?_, rfl, rfl, rfl⟩
  simp only [resolveContCfg, h1', h2, lt_irrefl, if_false]

/-! ### The two extinction-retry paths -/

theorem contRestart_spec (s : ContState) :
    (contRestart s).leafNodes = [s.tree.rootId] ∧
    (contRestart s).totalTime = 0 ∧
    (contRestart s).extinctTips = [] ∧
    (contRestart s).isRooted = s.isRooted ∧
    idsT (contRestart s).tree = [s.tree.rootId] := by
  refine ⟨rfl, rfl, rfl, rfl, ?_⟩
  cases s with
  | mk tree rooted leaves tt slices ext next =>
      cases tree with
      | mk d cs => simp [contRestart, dropChT, PTree.rootId]

theorem discProcessLeaf_retry_frame (cfg : DiscCfg) (s : DiscState) (rng : Rng)
    (hrep : cfg.repeat_until_success = true)
    (hlo : ((ratesOf s.tree s.tree.rootId).getD (cfg.birth_rate, cfg.death_rate)).1 <
      rng.unifs rng.ui)
    (hhi : rng.unifs rng.ui <
      ((ratesOf s.tree s.tree.rootId).getD (cfg.birth_rate, cfg.death_rate)).1 +
      ((ratesOf s.tree s.tree.rootId).getD (cfg.birth_rate, cfg.death_rate)).2) :
    discProcessLeaf cfg s s.tree.rootId rng =
      .ok ({ s with
        tree := updLenT (fun j l => if j = s.tree.rootId then l + 1 else l) s.tree
        numGens := 0 }, (rng.drawUnif).2) := by
  unfold discProcessLeaf
  dsimp only [Rng.drawUnif]
  rw [if_neg (not_lt.mpr (le_of_lt hlo)), if_pos ⟨hlo, hhi⟩,
    if_neg (fun hh : s.tree.rootId ≠ s.tree.rootId => hh rfl),
    if_neg (by simp [hrep])]

/-! ### Defaulting of the extinction-retry flag -/

theorem resolveContCfg_default_repeat (kw : ContKwargs) :
    resolveContCfg { kw with repeat_until_success := none } =
      resolveContCfg { kw with repeat_until_success := some true } := rfl

theorem resolveDiscCfg_default_repeat (kw : DiscKwargs) :
    resolveDiscCfg { kw with repeat_until_success := none } =
      resolveDiscCfg { kw with repeat_until_success := some false } := rfl

theorem birth_death_tree_default_repeat (kw : ContKwargs) (rng : Rng) (fuel : ℕ) :
    birth_death_tree { kw with repeat_until_success := none } rng fuel =
      birth_death_tree { kw with repeat_until_success := some true } rng fuel := by
  unfold birth_death_tree
  rw [resolveContCfg_default_repeat]

theorem discrete_birth_death_tree_default_repeat (kw : DiscKwargs) (rng : Rng)
    (fuel : ℕ) :
    discrete_birth_death_tree { kw with repeat_until_success := none } rng fuel =
      discrete_birth_death_tree { kw with repeat_until_success := some false } rng fuel := by
  unfold discrete_birth_death_tree discrete_birth_death_sim
  rw [resolveDiscCfg_default_repeat]

/-! ### Transport lemmas for the loop invariant -/

theorem weightedPick_mem {α : Type} :
    ∀ (elems : List α) (ws : List ℚ) (tg : ℚ) (x : α),
      weightedPick elems ws tg = some x → x ∈ elems
  | [], _, _, x, h => by simp [weightedPick] at h
  | [e], _, _, x, h => by
      simp [weightedPick] at h
      simp [h]
  | e :: e2 :: es, [], _, x, h => by
      simp only [weightedPick, Option.some.injEq] at h
      subst h
      exact List.mem_cons_of_mem e (List.mem_cons_self e2 es)
  | e :: e2 :: es, w :: ws, tg, x, h => by
      simp only [weightedPick] at h
      by_cases hc : tg ≤ w
      · rw [if_pos hc] at h
        injection h with h
        simp [h]
      · rw [if_neg hc] at h
        exact List.mem_cons_of_mem e (weightedPick_mem (e2 :: es) ws (tg - w) x h)

theorem contEvents_mem {t : PTree} {br dr : ℚ} :
    ∀ (ls : List ℕ) (p : (ℕ × Bool) × ℚ), p ∈ contEvents t br dr ls → p.1.1 ∈ ls
  | [], p, h => by simp [contEvents] at h
  | i :: rest, p, h => by
      simp only [contEvents, List.mem_cons] at h
      rcases h with h | h | h
      · subst h; exact List.mem_cons_self i rest
      · subst h; exact List.mem_cons_self i rest
      · exact List.mem_cons_of_mem i (contEvents_mem rest p h)

theorem descIn_iff_mem_sub {t : PTree} {a : ℕ} {sa : PTree}
    (hst : subtreeAtT a t = some sa) :
    ∀ x, descIn t a x ↔ x ∈ idsT sa := by
  intro x
  unfold descIn
  rw [hst]

theorem not_descIn_of_leaf {t : PTree} (hn : (idsT t).Nodup) {a b : ℕ}
    (ha : a ∈ leafIdsT t) (hab : b ≠ a) : ¬ descIn t a b := by
  obtain ⟨d, hd, hda⟩ := leafChar_of_mem a t hn ha
  rw [descIn_iff_mem_sub hd]
  intro hb
  simp only [idsT_mk, idsF_nil, List.mem_singleton] at hb
  exact hab (hb.trans hda)

theorem descIn_updLenT (f : ℕ → ℚ → ℚ) (t : PTree) (a x : ℕ) :
    descIn (updLenT f t) a x ↔ descIn t a x := by
  unfold descIn
  rw [subtreeAtT_updLenT]
  cases subtreeAtT a t with
  | none => simp
  | some sa => simp [idsT_updLenT]

mutual

theorem mem_idsT_addChT_old (a : ℕ) (c1 c2 : NodeData) (x : ℕ)
    (hx1 : x ≠ c1.nid) (hx2 : x ≠ c2.nid) :
    ∀ t : PTree, (x ∈ idsT (addChT a c1 c2 t) ↔ x ∈ idsT t)
  | .mk d cs => by
      by_cases hd : d.nid = a
      · simp [addChT, hd, idsF_appendTwo, hx1, hx2]
      · simp [addChT, hd, mem_idsF_addChF_old a c1 c2 x hx1 hx2 cs]

theorem mem_idsF_addChF_old (a : ℕ) (c1 c2 : NodeData) (x : ℕ)
    (hx1 : x ≠ c1.nid) (hx2 : x ≠ c2.nid) :
    ∀ ts : PForest, (x ∈ idsF (addChF a c1 c2 ts) ↔ x ∈ idsF ts)
  | .nil => Iff.rfl
  | .cons t ts => by
      simp [mem_idsT_addChT_old a c1 c2 x hx1 hx2 t,
        mem_idsF_addChF_old a c1 c2 x hx1 hx2 ts]

end

theorem new_mem_idsT_addChT {a : ℕ} {c1 c2 : NodeData} {t : PTree}
    (hn : (idsT t).Nodup) (ha : a ∈ idsT t) :
    c1.nid ∈ idsT (addChT a c1 c2 t) ∧ c2.nid ∈ idsT (addChT a c1 c2 t) := by
  constructor <;> rw [(perm_idsT_addChT a c1 c2 t hn ha).mem_iff] <;> simp

theorem descIn_addChT_old {t : PTree} (hn : (idsT t).Nodup) {a b x : ℕ}
    {c1 c2 : NodeData} (hb1 : b ≠ c1.nid) (hb2 : b ≠ c2.nid)
    (hx1 : x ≠ c1.nid) (hx2 : x ≠ c2.nid) :
    descIn (addChT a c1 c2 t) b x ↔ descIn t b x := by
  unfold descIn
  rw [subtreeAtT_addChT a c1 c2 b hb1 hb2 t hn]
  cases subtreeAtT b t with
  | none => simp
  | some sb => simp [mem_idsT_addChT_old a c1 c2 x hx1 hx2 sb]

theorem descIn_addChT_new {t : PTree} (hn : (idsT t).Nodup) {a nd : ℕ}
    {c1 c2 : NodeData} (ha1 : a ≠ c1.nid) (ha2 : a ≠ c2.nid)
    (h : descIn t a nd) :
    descIn (addChT nd c1 c2 t) a c1.nid ∧ descIn (addChT nd c1 c2 t) a c2.nid := by
  unfold descIn at h ⊢
  rw [subtreeAtT_addChT nd c1 c2 a ha1 ha2 t hn]
  cases hsa : subtreeAtT a t with
  | none => rw [hsa] at h; exact absurd h not_false
  | some sa =>
      rw [hsa] at h
      have hnsa : (idsT sa).Nodup :=
        hn.sublist (subtreeAtT_ids_sublist a t sa hsa)
      simpa using @new_mem_idsT_addChT nd c1 c2 sa hnsa h

theorem SliceInv_mono_ext {target : ℕ} {t : PTree} {ex ex2 : List ℕ}
    {sl : ℚ × List (ℕ × ℚ)} (hsub : ∀ x ∈ ex, x ∈ ex2)
    (h : SliceInv target t ex sl) : SliceInv target t ex2 sl := by
  obtain ⟨h1, h2, h3, h4, h5, h6, h7⟩ := h
  refine ⟨h1, h2, h3, h4, h5, h6, fun w hw => ?_⟩
  rcases h7 w hw with h | h
  · exact Or.inl h
  · exact Or.inr (hsub w h)

/-! ### The GSA restore phase, one edge at a time -/

theorem childIdsOf_spec {t : PTree} (hn : (idsT t).Nodup) {a : ℕ} {sa : PTree}
    (hst : subtreeAtT a t = some sa) :
    ∀ c ∈ childIdsOf t a, descIn t a c ∧ c ≠ a := by
  intro c hc
  unfold childIdsOf at hc
  rw [hst] at hc
  cases sa with
  | mk d cs =>
      have hrid : d.nid = a := subtreeAtT_rootId a t _ hst
      have hcs : c ∈ idsF cs := rootIds_subset_idsF cs c hc
      have hnsa : (idsT (PTree.mk d cs)).Nodup :=
        hn.sublist (subtreeAtT_ids_sublist a t _ hst)
      constructor
      · rw [descIn_iff_mem_sub hst]
        simp [hcs]
      · intro hca
        rw [hca, ← hrid] at hcs
        simp only [idsT_mk, List.nodup_cons] at hnsa
        exact hnsa.1 hcs

theorem mem_idsT_restoreStep {t : PTree} (hn : (idsT t).Nodup) {a : ℕ}
    {sa : PTree} (hst : subtreeAtT a t = some sa) (v : ℚ) (x : ℕ) :
    x ∈ idsT (setLen a v (dropChT a t)) ↔ x ∈ idsT t ∧ (x ∉ idsT sa ∨ x = a) := by
  unfold setLen
  rw [idsT_updLenT]
  exact mem_idsT_dropChT a x t hn sa hst

theorem mem_leafIdsT_restoreStep {t : PTree} (hn : (idsT t).Nodup) {a : ℕ}
    {sa : PTree} (hst : subtreeAtT a t = some sa) (v : ℚ) (x : ℕ) :
    x ∈ leafIdsT (setLen a v (dropChT a t)) ↔
      x = a ∨ (x ∈ leafIdsT t ∧ x ∉ idsT sa) := by
  unfold setLen
  rw [leafIdsT_updLenT]
  exact mem_leafIdsT_dropChT a x t hn sa hst

theorem descIn_restoreStep {t : PTree} (hn : (idsT t).Nodup) {a : ℕ}
    {sa : PTree} (hst : subtreeAtT a t = some sa) {b : ℕ} (hbsa : b ∉ idsT sa)
    (hba : ¬ descIn t b a) (v : ℚ) (x : ℕ) :
    descIn (setLen a v (dropChT a t)) b x ↔ descIn t b x := by
  unfold setLen descIn
  rw [subtreeAtT_updLenT, subtreeAtT_dropChT a b t hn sa hst (Or.inl hbsa)]
  cases hsb : subtreeAtT b t with
  | none => simp
  | some sb =>
      have hasb : a ∉ idsT sb := by
        rw [descIn_iff_mem_sub hsb] at hba
        exact hba
      simp [dropChT_of_not_mem a sb hasb, idsT_updLenT]

theorem nodup_idsT_restoreStep {t : PTree} (hn : (idsT t).Nodup) (a : ℕ) (v : ℚ) :
    (idsT (setLen a v (dropChT a t))).Nodup := by
  unfold setLen
  rw [idsT_updLenT]
  exact hn.sublist (ids_sublist_dropChT a t)

theorem lens_restoreStep_nonneg {t : PTree} (h : ∀ q ∈ lensT t, 0 ≤ q) (a : ℕ)
    {v : ℚ} (hv : 0 ≤ v) : ∀ q ∈ lensT (setLen a v (dropChT a t)), 0 ≤ q := by
  unfold setLen
  apply lensT_updLenT_nonneg
  · intro i q hq
    by_cases hi : i = a
    · simpa [hi] using hv
    · simpa [hi] using hq
  · intro q hq
    exact h q ((lens_sublist_dropChT a t).subset hq)

theorem mem_foldl_erase {x : ℕ} :
    ∀ (cids : List ℕ) (l : List ℕ), x ∈ l → x ∉ cids →
      x ∈ cids.foldl (fun l c => l.erase c) l
  | [], _, hx, _ => hx
  | c :: cids, l, hx, hnc => by
      simp only [List.foldl_cons]
      refine mem_foldl_erase cids (l.erase c) ?_
        (fun hh => hnc (List.mem_cons_of_mem c hh))
      have hxc : x ≠ c := fun hh => hnc (hh ▸ List.mem_cons_self c cids)
      exact (List.mem_erase_of_ne hxc).mpr hx

theorem foldl_erase_sublist :
    ∀ (cids : List ℕ) (l : List ℕ),
      List.Sublist (cids.foldl (fun l c => l.erase c) l) l
  | [], l => List.Sublist.refl l
  | c :: cids, l => by
      simp only [List.foldl_cons]
      exact (foldl_erase_sublist cids (l.erase c)).trans (List.erase_sublist c l)

theorem restore_fold_spec (dur : ℚ) (hdur : 0 ≤ dur) :
    ∀ (es : List (ℕ × ℚ)) (t : PTree) (ex : List ℕ) (p : PTree × List ℕ),
      es.foldl (contRestoreStep dur) (t, ex) = p →
      (idsT t).Nodup →
      (es.map Prod.fst).Nodup →
      (∀ a ∈ es.map Prod.fst, a ∈ idsT t) →
      (∀ a ∈ es.map Prod.fst, ∀ b ∈ es.map Prod.fst, a ≠ b → ¬ descIn t a b) →
      (∀ x ∈ ex, x ∈ idsT t → x ∈ leafIdsT t) →
      ex.Nodup →
      (∀ q ∈ lensT t, 0 ≤ q) →
      (∀ e ∈ es, 0 ≤ e.2) →
      (idsT p.1).Nodup ∧
      (∀ q ∈ lensT p.1, 0 ≤ q) ∧
      (∀ w, w ∈ leafIdsT p.1 ↔
        (w ∈ es.map Prod.fst ∨
          (w ∈ leafIdsT t ∧ ∀ a ∈ es.map Prod.fst, ¬ descIn t a w))) ∧
      (∀ x ∈ p.2, x ∈ ex ∧ x ∉ es.map Prod.fst) ∧
      (∀ x ∈ ex, x ∉ es.map Prod.fst →
        (∀ a ∈ es.map Prod.fst, ¬ descIn t a x) → x ∈ p.2) ∧
      p.2.Nodup ∧
      (∀ x ∈ p.2, x ∈ idsT p.1 → x ∈ leafIdsT p.1)
  | [], t, ex, p, hp, hn, _, _, _, hexleaf, hexnd, hlens, _ => by
      simp only [List.foldl_nil] at hp
      subst hp
      refine ⟨hn, hlens, ?_, ?_, ?_, hexnd, hexleaf⟩
      · intro w
        simp
      · intro x hx
        simpa using hx
      · intro x hx _ _
        exact hx
  | e :: rest, t, ex, p, hp, hn, hre, hmem, hpair, hexleaf, hexnd, hlens, hws => by
      have ha : e.1 ∈ idsT t := hmem e.1 (by simp)
      obtain ⟨sa, hsa⟩ := Option.isSome_iff_exists.mp (subtreeAtT_isSome e.1 t ha)
      have hre2 : e.1 ∉ rest.map Prod.fst ∧ (rest.map Prod.fst).Nodup := by
        simpa using hre
      -- the step
      have hstep : contRestoreStep dur (t, ex) e =
          (setLen e.1 (e.2 + dur) (dropChT e.1 t),
            ((childIdsOf t e.1).foldl (fun l c => l.erase c) ex).erase e.1) := rfl
      rw [List.foldl_cons, hstep] at hp
      set T1 := setLen e.1 (e.2 + dur) (dropChT e.1 t) with hT1
      set EX1 := ((childIdsOf t e.1).foldl (fun l c => l.erase c) ex).erase e.1
        with hEX1
      -- basic facts about the stepped tree and the stepped extinct record
      have F_ids : ∀ x, x ∈ idsT T1 ↔ x ∈ idsT t ∧ (x ∉ idsT sa ∨ x = e.1) :=
        mem_idsT_restoreStep hn hsa _
      have F_leaf : ∀ x, x ∈ leafIdsT T1 ↔
          x = e.1 ∨ (x ∈ leafIdsT t ∧ x ∉ idsT sa) :=
        mem_leafIdsT_restoreStep hn hsa _
      have hanot : ∀ b ∈ rest.map Prod.fst, b ∉ idsT sa := by
        intro b hb hbs
        have hab : e.1 ≠ b := fun hh => hre2.1 (hh ▸ hb)
        exact hpair e.1 (by simp) b (by simp [hb]) hab
          ((descIn_iff_mem_sub hsa b).mpr hbs)
      have hbnota : ∀ b ∈ rest.map Prod.fst, ¬ descIn t b e.1 := by
        intro b hb
        have hab : b ≠ e.1 := fun hh => hre2.1 (hh ▸ hb)
        exact hpair b (by simp [hb]) e.1 (by simp) hab
      have F_descR : ∀ b ∈ rest.map Prod.fst, ∀ x,
          descIn T1 b x ↔ descIn t b x := by
        intro b hb x
        exact descIn_restoreStep hn hsa (hanot b hb) (hbnota b hb) _ x
      have hexsub : ∀ x ∈ EX1, x ∈ ex := by
        intro x hx
        exact (foldl_erase_sublist _ ex).subset ((List.erase_sublist _ _).subset hx)
      have hexnd1 : EX1.Nodup :=
        (hexnd.sublist (foldl_erase_sublist _ ex)).sublist (List.erase_sublist _ _)
      have hLnd : ((childIdsOf t e.1).foldl (fun l c => l.erase c) ex).Nodup :=
        hexnd.sublist (foldl_erase_sublist _ ex)
      have hexne : ∀ x ∈ EX1, x ≠ e.1 := by
        intro x hx
        exact (hLnd.mem_erase_iff.mp hx).1
      -- hypotheses of the recursive call
      have ih := restore_fold_spec dur hdur rest T1 EX1 p hp
        (nodup_idsT_restoreStep hn e.1 _) hre2.2
        (by
          intro b hb
          exact (F_ids b).mpr ⟨hmem b (by simp [hb]), Or.inl (hanot b hb)⟩)
        (by
          intro b hb c hc hbc
          rw [F_descR b hb c]
          exact hpair b (by simp [hb]) c (by simp [hc]) hbc)
        (by
          intro x hx hxT
          have hxt : x ∈ idsT t ∧ (x ∉ idsT sa ∨ x = e.1) := (F_ids x).mp hxT
          have hxl : x ∈ leafIdsT t := hexleaf x (hexsub x hx) hxt.1
          rcases hxt.2 with hxs | hxe
          · exact (F_leaf x).mpr (Or.inr ⟨hxl, hxs⟩)
          · exact (F_leaf x).mpr (Or.inl hxe))
        hexnd1
        (lens_restoreStep_nonneg hlens e.1
          (add_nonneg (hws e (by simp)) hdur))
        (fun e2 he2 => hws e2 (by simp [he2]))
      obtain ⟨ih1, ih2, ih3, ih4, ih5, ih6, ih7⟩ := ih
      refine ⟨ih1, ih2, ?_, ?_, ?_, ih6, ih7⟩
      · -- leaf characterization
        intro w
        rw [ih3 w]
        simp only [List.map_cons, List.mem_cons]
        constructor
        · rintro (hw | ⟨hwT, hall⟩)
          · exact Or.inl (Or.inr hw)
          · have hall' : ∀ b ∈ rest.map Prod.fst, ¬ descIn t b w := by
              intro b hb
              rw [← F_descR b hb w]
              exact hall b hb
            rcases (F_leaf w).mp hwT with hwe | ⟨hwl, hwsa⟩
            · exact Or.inl (Or.inl hwe)
            · refine Or.inr ⟨hwl, ?_⟩
              rintro b (hb | hb)
              · subst hb
                rw [descIn_iff_mem_sub hsa]
                exact hwsa
              · exact hall' b hb
        · rintro ((hwe | hw) | ⟨hwl, hall⟩)
          · refine Or.inr ⟨(F_leaf w).mpr (Or.inl hwe), ?_⟩
            intro b hb
            rw [F_descR b hb w, hwe]
            exact hbnota b hb
          · exact Or.inl hw
          · refine Or.inr ⟨(F_leaf w).mpr (Or.inr ⟨hwl, ?_⟩), ?_⟩
            · rw [← descIn_iff_mem_sub hsa]
              exact hall e.1 (Or.inl rfl)
            · intro b hb
              rw [F_descR b hb w]
              exact hall b (Or.inr hb)
      · -- membership of the stepped extinct record
        intro x hx
        obtain ⟨hx1, hx2⟩ := ih4 x hx
        refine ⟨hexsub x hx1, ?_⟩
        simp only [List.map_cons, List.mem_cons]
        rintro (hxe | hxr)
        · exact hexne x hx1 hxe
        · exact hx2 hxr
      · -- survival of untouched extinct tips
        intro x hx hxn hxd
        simp only [List.map_cons, List.mem_cons] at hxn hxd
        have hxe : x ≠ e.1 := fun hh => hxn (Or.inl hh)
        have hxde : ¬ descIn t e.1 x := hxd e.1 (Or.inl rfl)
        have hxcids : x ∉ childIdsOf t e.1 := by
          intro hc
          exact hxde (childIdsOf_spec hn hsa x hc).1
        have hxL : x ∈ (childIdsOf t e.1).foldl (fun l c => l.erase c) ex :=
          mem_foldl_erase _ ex hx hxcids
        have hxEX1 : x ∈ EX1 := (List.mem_erase_of_ne hxe).mpr hxL
        refine ih5 x hxEX1 (fun hh => hxn (Or.inr hh)) ?_
        intro b hb
        rw [F_descR b hb x]
        exact hxd b (Or.inr hb)

theorem prune_fold_spec :
    ∀ (xs : List ℕ) (t : PTree) (z0 : ℕ),
      (idsT t).Nodup → xs.Nodup →
      (∀ x ∈ xs, x ∈ idsT t → x ∈ leafIdsT t) →
      z0 ∈ leafIdsT t → z0 ∉ xs →
      (∀ w, w ∈ leafIdsT (xs.foldl pruneExtinctStep t) ↔
        w ∈ leafIdsT t ∧ w ∉ xs) ∧
      (idsT (xs.foldl pruneExtinctStep t)).Nodup ∧
      List.Sublist (lensT (xs.foldl pruneExtinctStep t)) (lensT t)
  | [], t, z0, hn, _, _, _, _ => by
      refine ⟨?_, hn, List.Sublist.refl _⟩
      intro w
      simp
  | x :: rest, t, z0, hn, hxs, hleaf, hz0, hz0n => by
      simp only [List.foldl_cons]
      have hxs2 : x ∉ rest ∧ rest.Nodup := by simpa using hxs
      by_cases hxt : x ∈ idsT t
      · have hxl : x ∈ leafIdsT t := hleaf x (by simp) hxt
        have hz0x : z0 ≠ x := fun hh => hz0n (hh ▸ List.mem_cons_self x rest)
        obtain ⟨hiff, hids, hlens⟩ := pruneExtinctStep_spec hn hxl hz0 hz0x
        have ih := prune_fold_spec rest (pruneExtinctStep t x) z0
          (hn.sublist hids) hxs2.2
          (by
            intro y hy hyt
            have hyt0 : y ∈ idsT t := hids.subset hyt
            have hyl : y ∈ leafIdsT t := hleaf y (by simp [hy]) hyt0
            exact (hiff y).mpr ⟨hyl, fun hh => hxs2.1 (hh ▸ hy)⟩)
          ((hiff z0).mpr ⟨hz0, hz0x⟩)
          (fun hh => hz0n (List.mem_cons_of_mem x hh))
        obtain ⟨ih1, ih2, ih3⟩ := ih
        refine ⟨?_, ih2, ih3.trans hlens⟩
        intro w
        rw [ih1 w, hiff w]
        constructor
        · rintro ⟨⟨hw1, hw2⟩, hw3⟩
          refine ⟨hw1, ?_⟩
          simp [hw2, hw3]
        · rintro ⟨hw1, hw2⟩
          simp only [List.mem_cons, not_or] at hw2
          exact ⟨⟨hw1, hw2.1⟩, hw2.2⟩
      · rw [pruneExtinctStep_not_mem hxt]
        have ih := prune_fold_spec rest t z0 hn hxs2.2
          (fun y hy => hleaf y (by simp [hy]))
          hz0 (fun hh => hz0n (List.mem_cons_of_mem x hh))
        obtain ⟨ih1, ih2, ih3⟩ := ih
        refine ⟨?_, ih2, ih3⟩
        intro w
        rw [ih1 w]
        constructor
        · rintro ⟨hw1, hw2⟩
          refine ⟨hw1, ?_⟩
          simp only [List.mem_cons, not_or]
          exact ⟨fun hh => hxt (hh ▸ mem_ids_of_mem_leafIds hw1), hw2⟩
        · rintro ⟨hw1, hw2⟩
          simp only [List.mem_cons, not_or] at hw2
          exact ⟨hw1, hw2.2⟩

theorem gsaSelectScan_mem {α : Type} :
    ∀ (l : List (ℚ × α)) (r : ℚ) (sel : Option (ℚ × α)) (x : ℚ × α),
      gsaSelectScan r sel l = some x → sel = some x ∨ x ∈ l
  | [], _, sel, x, h => Or.inl h
  | sl :: rest, r, sel, x, h => by
      have h' : gsaSelectScan (r - sl.1)
          (if r - sl.1 < 0 then some sl else sel) rest = some x := h
      rcases gsaSelectScan_mem rest _ _ x h' with h2 | h2
      · by_cases hc : r - sl.1 < 0
        · rw [if_pos hc] at h2
          injection h2 with h2
          exact Or.inr (by simp [h2])
        · rw [if_neg hc] at h2
          exact Or.inl h2
      · exact Or.inr (List.mem_cons_of_mem sl h2)

theorem gsaSelectSlice_mem {α : Type} {slices : List (ℚ × α)} {u : ℚ}
    {sl : ℚ × α} (h : gsaSelectSlice slices u = some sl) : sl ∈ slices := by
  rcases gsaSelectScan_mem slices _ none sl h with h2 | h2
  · exact absurd h2 (by simp)
  · exact h2

theorem contFinalize_spec {cfg : ContCfg} {target : ℕ} {s s2 : ContState}
    {rng rng2 : Rng} (hgsa : cfg.gsa_ntax.isSome) (htpos : 1 ≤ target)
    (hinv : FinalInv target s)
    (hfin : contFinalize cfg s rng = .ok (s2, rng2)) :
    numLeaves s2.tree = target ∧ LensNonneg s2.tree ∧ s2.isRooted = true := by
  obtain ⟨hn, hroot, hlens, hexnd, hexleaf, hslices⟩ := hinv
  unfold contFinalize at hfin
  cases hg : cfg.gsa_ntax with
  | none =>
      rw [hg] at hgsa
      exact absurd hgsa (by simp)
  | some g =>
      rw [hg] at hfin
      have hfin2 : (match gsaSelectSlice s.slices (rng.unifs rng.ui) with
        | none => (.error .assertionFailed : Except SimErr (ContState × Rng))
        | some sl => .ok (contPostProcess (contRestore s sl.1 sl.2),
            { rng with ui := rng.ui + 1 })) = .ok (s2, rng2) := hfin
      cases hsel : gsaSelectSlice s.slices (rng.unifs rng.ui) with
      | none =>
          rw [hsel] at hfin2
          exact absurd hfin2 (by simp)
      | some sl =>
          rw [hsel] at hfin2
          simp only [Except.ok.injEq, Prod.mk.injEq] at hfin2
          obtain ⟨hs2, -⟩ := hfin2
          obtain ⟨hd, hnd, hlen, hmem, hpairs, hws, hcov⟩ :=
            hslices sl (gsaSelectSlice_mem hsel)
          obtain ⟨R1, R2, R3, R4, R5, R6, R7⟩ :=
            restore_fold_spec sl.1 hd sl.2 s.tree s.extinctTips
              (sl.2.foldl (contRestoreStep sl.1) (s.tree, s.extinctTips)) rfl
              hn hnd hmem hpairs (fun x hx _ => hexleaf x hx) hexnd hlens hws
          obtain ⟨z0, hz0⟩ : ∃ z0, z0 ∈ sl.2.map Prod.fst := by
            cases hh : sl.2.map Prod.fst with
            | nil => rw [hh] at hlen; simp at hlen; omega
            | cons z0 zs => exact ⟨z0, by simp [hh]⟩
          have hz0leaf := (R3 z0).mpr (Or.inl hz0)
          have hz0notin : z0 ∉
              (sl.2.foldl (contRestoreStep sl.1) (s.tree, s.extinctTips)).2 :=
            fun hh => (R4 z0 hh).2 hz0
          obtain ⟨Q1, Q2, Q3⟩ := prune_fold_spec _ _ z0 R1 R6 R7 hz0leaf hz0notin
          have hiff : ∀ w,
              w ∈ leafIdsT
                ((sl.2.foldl (contRestoreStep sl.1) (s.tree, s.extinctTips)).2.foldl
                  pruneExtinctStep
                  (sl.2.foldl (contRestoreStep sl.1) (s.tree, s.extinctTips)).1) ↔
              w ∈ sl.2.map Prod.fst := by
            intro w
            constructor
            · intro hw
              obtain ⟨hw1, hw2⟩ := (Q1 w).mp hw
              by_cases hwes : w ∈ sl.2.map Prod.fst
              · exact hwes
              · rcases (R3 w).mp hw1 with h | ⟨hwt, hall⟩
                · exact absurd h hwes
                · rcases hcov w hwt with ⟨a, ha, hdesc⟩ | hwext
                  · exact absurd hdesc (hall a ha)
                  · exact absurd (R5 w hwext hwes hall) hw2
            · intro hw
              exact (Q1 w).mpr ⟨(R3 w).mpr (Or.inl hw),
                fun hh => (R4 w hh).2 hw⟩
          have hs2tree : s2.tree =
              suppressT
                ((sl.2.foldl (contRestoreStep sl.1) (s.tree, s.extinctTips)).2.foldl
                  pruneExtinctStep
                  (sl.2.foldl (contRestoreStep sl.1) (s.tree, s.extinctTips)).1) := by
            rw [← hs2]
            rfl
          have hs2root : s2.isRooted = s.isRooted := by
            rw [← hs2]
            rfl
          refine ⟨?_, ?_, hs2root.trans hroot⟩
          · unfold numLeaves
            rw [hs2tree, leafIdsT_suppressT]
            have hperm := (List.perm_ext_iff_of_nodup (nodup_leafIds Q2) hnd).mpr hiff
            rw [hperm.length_eq, hlen]
          · intro q hq
            rw [hs2tree] at hq
            refine lensT_suppressT_nonneg _ ?_ q hq
            intro q2 hq2
            exact R2 q2 (Q3.subset hq2)

/-! ### Preservation of the loop invariant, case by case -/

theorem map_fst_contSnapshot (t : PTree) (ls : List ℕ) :
    (contSnapshot t ls).map Prod.fst = ls := by
  unfold contSnapshot
  rw [List.map_map]
  exact List.map_id'' (fun i => rfl) ls

theorem snapshot_lens_nonneg {t : PTree} (hlens : LensNonneg t) (ls : List ℕ) :
    ∀ e ∈ contSnapshot t ls, 0 ≤ e.2 := by
  intro e he
  unfold contSnapshot at he
  simp only [List.mem_map] at he
  obtain ⟨i, hi, hie⟩ := he
  subst hie
  cases hg : getLen t i with
  | none => simp [hg]
  | some q =>
      have : q ∈ lensT t := getLen_mem_lensT hg
      simpa [hg] using hlens q this

theorem SliceInv_updLen {target : ℕ} {t : PTree} {ex : List ℕ}
    {sl : ℚ × List (ℕ × ℚ)} (f : ℕ → ℚ → ℚ) (h : SliceInv target t ex sl) :
    SliceInv target (updLenT f t) ex sl := by
  obtain ⟨h1, h2, h3, h4, h5, h6, h7⟩ := h
  refine ⟨h1, h2, h3, ?_, ?_, h6, ?_⟩
  · intro a ha
    rw [idsT_updLenT]
    exact h4 a ha
  · intro a ha b hb hab
    rw [descIn_updLenT]
    exact h5 a ha b hb hab
  · intro w hw
    rw [leafIdsT_updLenT] at hw
    rcases h7 w hw with ⟨a, ha, hd⟩ | hext
    · exact Or.inl ⟨a, ha, (descIn_updLenT f t a w).mpr hd⟩
    · exact Or.inr hext

theorem ContInv_updLen {target : ℕ} {s : ContState} (f : ℕ → ℚ → ℚ)
    (hf : ∀ i q, 0 ≤ q → 0 ≤ f i q) (hinv : ContInv target s) (tt : ℚ) :
    ContInv target { s with tree := updLenT f s.tree, totalTime := tt } := by
  obtain ⟨⟨hn, hroot, hlens, hexnd, hexleaf, hslices⟩, hbound, hperm⟩ := hinv
  refine ⟨⟨?_, hroot, ?_, hexnd, ?_, ?_⟩, ?_, ?_⟩
  · rw [idsT_updLenT]; exact hn
  · exact lensT_updLenT_nonneg f hf s.tree hlens
  · intro x hx
    rw [leafIdsT_updLenT]
    exact hexleaf x hx
  · intro sl hsl
    exact SliceInv_updLen f (hslices sl hsl)
  · intro i hi
    rw [idsT_updLenT] at hi
    exact hbound i hi
  · rw [leafIdsT_updLenT]
    exact hperm

theorem ContInv_record {target : ℕ} {s : ContState} {w : ℚ} (hw : 0 ≤ w)
    (hlen : s.leafNodes.length = target) (hinv : ContInv target s) :
    ContInv target
      { s with slices := s.slices ++ [(w, contSnapshot s.tree s.leafNodes)] } := by
  obtain ⟨⟨hn, hroot, hlens, hexnd, hexleaf, hslices⟩, hbound, hperm⟩ := hinv
  have hldnd : (leafIdsT s.tree).Nodup := nodup_leafIds hn
  have hlnd : (s.leafNodes ++ s.extinctTips).Nodup := hperm.nodup_iff.mp hldnd
  have hlfnd : s.leafNodes.Nodup := (List.nodup_append.mp hlnd).1
  refine ⟨⟨hn, hroot, hlens, hexnd, hexleaf, ?_⟩, hbound, hperm⟩
  intro sl hsl
  simp only [List.mem_append, List.mem_singleton] at hsl
  rcases hsl with hsl | hsl
  · exact hslices sl hsl
  · subst hsl
    refine ⟨hw, ?_, ?_, ?_, ?_, snapshot_lens_nonneg hlens _, ?_⟩ <;>
      rw [map_fst_contSnapshot]
    · exact hlfnd
    · exact hlen
    · intro a ha
      exact mem_ids_of_mem_leafIds (hperm.mem_iff.mpr (List.mem_append_left _ ha))
    · intro a ha b hb hab
      exact not_descIn_of_leaf hn
        (hperm.mem_iff.mpr (List.mem_append_left _ ha)) (Ne.symm hab)
    · intro w2 hw2
      rcases List.mem_append.mp (hperm.mem_iff.mp hw2) with h | h
      · exact Or.inl ⟨w2, h, descIn_self (mem_ids_of_mem_leafIds hw2)⟩
      · exact Or.inr h

theorem ContInv_birth {target : ℕ} {s : ContState} {nd : ℕ} (q1 q2 q3 q4 : ℚ)
    (hinv : ContInv target s) (hnd : nd ∈ s.leafNodes) :
    ContInv target
      { s with
        tree := addChT nd ⟨s.nextId, 0, q1, q2⟩ ⟨s.nextId + 1, 0, q3, q4⟩ s.tree
        leafNodes := s.leafNodes.erase nd ++ [s.nextId, s.nextId + 1]
        nextId := s.nextId + 2 } := by
  obtain ⟨⟨hn, hroot, hlens, hexnd, hexleaf, hslices⟩, hbound, hperm⟩ := hinv
  have hldnd : (leafIdsT s.tree).Nodup := nodup_leafIds hn
  have hlnd : (s.leafNodes ++ s.extinctTips).Nodup := hperm.nodup_iff.mp hldnd
  have hndleaf : nd ∈ leafIdsT s.tree :=
    hperm.mem_iff.mpr (List.mem_append_left _ hnd)
  have hndids : nd ∈ idsT s.tree := mem_ids_of_mem_leafIds hndleaf
  have hfresh1 : s.nextId ∉ idsT s.tree := fun hh => absurd (hbound _ hh) (by omega)
  have hfresh2 : s.nextId + 1 ∉ idsT s.tree :=
    fun hh => absurd (hbound _ hh) (by omega)
  have hne12 : s.nextId ≠ s.nextId + 1 := by omega
  have hid1 : ∀ i ∈ idsT s.tree, i ≠ s.nextId :=
    fun i hi hh => hfresh1 (hh ▸ hi)
  have hid2 : ∀ i ∈ idsT s.tree, i ≠ s.nextId + 1 :=
    fun i hi hh => hfresh2 (hh ▸ hi)
  have hpermI := perm_idsT_addChT nd ⟨s.nextId, 0, q1, q2⟩
    ⟨s.nextId + 1, 0, q3, q4⟩ s.tree hn hndids
  have hpermL := perm_leafIdsT_addChT nd ⟨s.nextId, 0, q1, q2⟩
    ⟨s.nextId + 1, 0, q3, q4⟩ s.tree hn hndleaf
  have hdisj : ∀ x ∈ s.extinctTips, x ≠ nd := by
    intro x hx hh
    obtain ⟨-, -, hdis⟩ := List.nodup_append.mp hlnd
    exact hdis hnd (hh ▸ hx)
  refine ⟨⟨?_, hroot, ?_, hexnd, ?_, ?_⟩, ?_, ?_⟩
  · -- nodup ids
    rw [hpermI.nodup_iff]
    refine List.nodup_cons.mpr ⟨?_, List.nodup_cons.mpr ⟨hfresh2, hn⟩⟩
    simp only [List.mem_cons]
    rintro (hh | hh)
    · exact hne12 hh
    · exact hfresh1 hh
  · -- lens nonneg
    exact lensT_addChT_nonneg nd _ _ le_rfl le_rfl s.tree hlens
  · -- extinct tips are leaves
    intro x hx
    rw [hpermL.mem_iff]
    refine List.mem_cons_of_mem _ (List.mem_cons_of_mem _ ?_)
    exact (hldnd.mem_erase_iff).mpr ⟨hdisj x hx, hexleaf x hx⟩
  · -- slices
    intro sl hsl
    obtain ⟨h1, h2, h3, h4, h5, h6, h7⟩ := hslices sl hsl
    refine ⟨h1, h2, h3, ?_, ?_, h6, ?_⟩
    · intro a ha
      rw [hpermI.mem_iff]
      exact List.mem_cons_of_mem _ (List.mem_cons_of_mem _ (h4 a ha))
    · intro a ha b hb hab
      rw [descIn_addChT_old hn (hid1 a (h4 a ha)) (hid2 a (h4 a ha))
        (hid1 b (h4 b hb)) (hid2 b (h4 b hb))]
      exact h5 a ha b hb hab
    · intro w hw
      rw [hpermL.mem_iff] at hw
      simp only [List.mem_cons] at hw
      have hcase : ∀ hw2 : w = s.nextId ∨ w = s.nextId + 1,
          (∃ a ∈ sl.2.map Prod.fst,
            descIn (addChT nd ⟨s.nextId, 0, q1, q2⟩
              ⟨s.nextId + 1, 0, q3, q4⟩ s.tree) a w) ∨ w ∈ s.extinctTips := by
        intro hw2
        rcases h7 nd hndleaf with ⟨a, ha, hdesc⟩ | hext
        · have hnew := @descIn_addChT_new s.tree hn a nd
            ⟨s.nextId, 0, q1, q2⟩ ⟨s.nextId + 1, 0, q3, q4⟩
            (hid1 a (h4 a ha)) (hid2 a (h4 a ha)) hdesc
          rcases hw2 with hw2 | hw2 <;> rw [hw2]
          · exact Or.inl ⟨a, ha, hnew.1⟩
          · exact Or.inl ⟨a, ha, hnew.2⟩
        · exact absurd rfl (hdisj nd hext)
      rcases hw with hw | hw | hw
      · exact hcase (Or.inl hw)
      · exact hcase (Or.inr hw)
      · have hwl : w ∈ leafIdsT s.tree := ((hldnd.mem_erase_iff).mp hw).2
        have hwnd : w ≠ nd := ((hldnd.mem_erase_iff).mp hw).1
        rcases h7 w hwl with ⟨a, ha, hdesc⟩ | hext
        · refine Or.inl ⟨a, ha, ?_⟩
          rw [descIn_addChT_old hn (hid1 a (h4 a ha)) (hid2 a (h4 a ha))
            (hid1 w (mem_ids_of_mem_leafIds hwl))
            (hid2 w (mem_ids_of_mem_leafIds hwl))]
          exact hdesc
        · exact Or.inr hext
  · -- id bound
    intro i hi
    show i < s.nextId + 2
    rw [hpermI.mem_iff] at hi
    simp only [List.mem_cons] at hi
    rcases hi with hi | hi | hi
    · omega
    · omega
    · have := hbound i hi
      omega
  · -- leaf permutation
    refine hpermL.trans ?_
    have h2 : List.Perm ((leafIdsT s.tree).erase nd)
        (s.leafNodes.erase nd ++ s.extinctTips) := by
      have := hperm.erase nd
      rwa [List.erase_append_left _ hnd] at this
    refine ((h2.cons (s.nextId + 1)).cons s.nextId).trans ?_
    have hassoc : (s.leafNodes.erase nd ++ [s.nextId, s.nextId + 1]) ++
        s.extinctTips =
        s.leafNodes.erase nd ++ ([s.nextId, s.nextId + 1] ++ s.extinctTips) := by
      rw [List.append_assoc]
    rw [hassoc]
    have heq : s.nextId :: (s.nextId + 1) ::
        (s.leafNodes.erase nd ++ s.extinctTips) =
        ([s.nextId, s.nextId + 1] ++ s.leafNodes.erase nd) ++ s.extinctTips := by
      simp
    rw [heq]
    have hcomm : List.Perm ([s.nextId, s.nextId + 1] ++ s.leafNodes.erase nd)
        (s.leafNodes.erase nd ++ [s.nextId, s.nextId + 1]) :=
      List.perm_append_comm
    refine (hcomm.append_right s.extinctTips).trans ?_
    rw [List.append_assoc]

theorem ContInv_extinct {target : ℕ} {s : ContState} {nd : ℕ}
    (hinv : ContInv target s) (hnd : nd ∈ s.leafNodes) :
    ContInv target
      { s with leafNodes := s.leafNodes.erase nd
               extinctTips := s.extinctTips ++ [nd] } := by
  obtain ⟨⟨hn, hroot, hlens, hexnd, hexleaf, hslices⟩, hbound, hperm⟩ := hinv
  have hldnd : (leafIdsT s.tree).Nodup := nodup_leafIds hn
  have hlnd : (s.leafNodes ++ s.extinctTips).Nodup := hperm.nodup_iff.mp hldnd
  have hndleaf : nd ∈ leafIdsT s.tree :=
    hperm.mem_iff.mpr (List.mem_append_left _ hnd)
  have hdisj : nd ∉ s.extinctTips := by
    obtain ⟨-, -, hdis⟩ := List.nodup_append.mp hlnd
    exact fun hh => hdis hnd hh
  refine ⟨⟨hn, hroot, hlens, ?_, ?_, ?_⟩, hbound, ?_⟩
  · -- extinct nodup
    refine List.nodup_append.mpr ⟨hexnd, List.nodup_singleton nd, ?_⟩
    intro x hx hx2
    simp only [List.mem_singleton] at hx2
    exact hdisj (hx2 ▸ hx)
  · -- extinct are leaves
    intro x hx
    rcases List.mem_append.mp hx with hx | hx
    · exact hexleaf x hx
    · simp only [List.mem_singleton] at hx
      exact hx ▸ hndleaf
  · -- slices
    intro sl hsl
    exact SliceInv_mono_ext (fun x hx => List.mem_append_left _ hx)
      (hslices sl hsl)
  · -- permutation
    refine hperm.trans ?_
    have h1 : List.Perm s.leafNodes (nd :: s.leafNodes.erase nd) :=
      List.perm_cons_erase hnd
    refine (h1.append_right s.extinctTips).trans ?_
    have heq : (s.leafNodes.erase nd ++ (s.extinctTips ++ [nd])) =
        (s.leafNodes.erase nd ++ s.extinctTips) ++ [nd] := by
      rw [List.append_assoc]
    rw [List.cons_append, heq]
    exact (List.perm_append_singleton nd _).symm

theorem FinalInv_set_leaves {target : ℕ} {s : ContState} (l : List ℕ)
    (hinv : ContInv target s) : FinalInv target { s with leafNodes := l } := by
  obtain ⟨⟨hn, hroot, hlens, hexnd, hexleaf, hslices⟩, -, -⟩ := hinv
  exact ⟨hn, hroot, hlens, hexnd, hexleaf, hslices⟩

theorem ContInv_restart {target : ℕ} {s : ContState} (l : List ℕ)
    (hsl : s.slices = []) (hinv : ContInv target s) :
    ContInv target (contRestart { s with leafNodes := l }) := by
  obtain ⟨⟨hn, hroot, hlens, hexnd, hexleaf, hslices⟩, hbound, hperm⟩ := hinv
  obtain ⟨d, cs, htree⟩ : ∃ d cs, s.tree = .mk d cs := by
    cases s.tree with
    | mk d cs => exact ⟨d, cs, rfl⟩
  case intro.intro =>
      have hre : contRestart { s with leafNodes := l } =
          { tree := .mk d .nil, isRooted := s.isRooted, leafNodes := [d.nid]
            totalTime := 0, slices := s.slices, extinctTips := []
            nextId := s.nextId } := by
        simp [contRestart, htree, dropChT, PTree.rootId]
      rw [hre]
      refine ⟨⟨?_, hroot, ?_, List.nodup_nil, ?_, ?_⟩, ?_, ?_⟩
      · simp
      · intro q hq
        simp only [lensT_mk, lensF_nil, List.mem_singleton] at hq
        subst hq
        refine hlens d.elen ?_
        rw [htree]
        simp
      · intro x hx
        simp at hx
      · intro sl hsl2
        rw [hsl] at hsl2
        simp at hsl2
      · intro i hi
        simp only [idsT_mk, idsF_nil, List.mem_singleton] at hi
        subst hi
        refine hbound d.nid ?_
        rw [htree]
        simp
      · simp
theorem contApplyEvent_inv {cfg : ContCfg} {target : ℕ} {s : ContState}
    {rng : Rng} {events : List ((ℕ × Bool) × ℚ)} {total : ℚ}
    (hgsa : cfg.gsa_ntax.isSome)
    (hinv : ContInv target s)
    (hev : ∀ p ∈ events, p.1.1 ∈ s.leafNodes) :
    (∀ s1 rng1, contApplyEvent cfg s rng events total = .ok (.next s1 rng1) →
      ContInv target s1 ∧ rng1.exps = rng.exps) ∧
    (∀ s1 rng1, contApplyEvent cfg s rng events total = .ok (.done s1 rng1) →
      FinalInv target s1 ∧ rng1.exps = rng.exps) := by
  have hmem : ∀ nd be, weightedPick (events.map Prod.fst)
      (events.map fun e => e.2 / total)
      (rng.unifs rng.ui * (events.map fun e => e.2 / total).sum) = some (nd, be) →
      nd ∈ s.leafNodes := by
    intro nd be hp
    have h2 := weightedPick_mem _ _ _ _ hp
    simp only [List.mem_map] at h2
    obtain ⟨p, hpmem, hpe⟩ := h2
    have h3 := hev p hpmem
    rw [hpe] at h3
    exact h3
  constructor
  · intro s1 rng1 h
    unfold contApplyEvent weighted_choice at h
    dsimp only [Rng.drawUnif, Rng.drawGauss] at h
    rcases hpick : weightedPick (events.map Prod.fst)
        (events.map fun e => e.2 / total)
        (rng.unifs rng.ui * (events.map fun e => e.2 / total).sum)
      with _ | ⟨nd, be⟩
    · rw [hpick] at h
      simp at h
    · simp only [hpick] at h
      split_ifs at h with hbe hlen hdone hrep <;>
        simp only [Except.ok.injEq, StepRes.next.injEq, reduceCtorEq] at h
      · -- birth
        obtain ⟨hs, hr⟩ := h
        subst hs
        subst hr
        exact ⟨ContInv_birth _ _ _ _ hinv (hmem nd be hpick), rfl⟩
      · -- extinction with survivors
        obtain ⟨hs, hr⟩ := h
        subst hs
        subst hr
        exact ⟨ContInv_extinct hinv (hmem nd be hpick), rfl⟩
      · -- restart
        obtain ⟨hs, hr⟩ := h
        subst hs
        subst hr
        have hsl : s.slices = [] := by
          by_cases hs2 : s.slices = []
          · exact hs2
          · exact absurd ⟨hgsa, hs2⟩ hdone
        exact ⟨ContInv_restart _ hsl hinv, rfl⟩
  · intro s1 rng1 h
    unfold contApplyEvent weighted_choice at h
    dsimp only [Rng.drawUnif, Rng.drawGauss] at h
    rcases hpick : weightedPick (events.map Prod.fst)
        (events.map fun e => e.2 / total)
        (rng.unifs rng.ui * (events.map fun e => e.2 / total).sum)
      with _ | ⟨nd, be⟩
    · rw [hpick] at h
      simp at h
    · simp only [hpick] at h
      split_ifs at h with hbe hlen hdone hrep <;>
        simp only [Except.ok.injEq, StepRes.done.injEq, reduceCtorEq] at h
      · -- extinction break
        obtain ⟨hs, hr⟩ := h
        subst hs
        subst hr
        exact ⟨FinalInv_set_leaves _ hinv, rfl⟩

theorem contGrow_inv {cfg : ContCfg} {target : ℕ} {s : ContState} {rng : Rng}
    (hgsa : cfg.gsa_ntax.isSome) (hcf : cfg.target_num_taxa = some target)
    (hinv : ContInv target s) (hv : Rng.ValidExp rng) :
    (∀ s1 rng1, contGrow cfg s rng = .ok (.next s1 rng1) →
      ContInv target s1 ∧ rng1.exps = rng.exps) ∧
    (∀ s1 rng1, contGrow cfg s rng = .ok (.done s1 rng1) →
      FinalInv target s1) := by
  have hw : 0 ≤ rng.exps rng.ei := hv rng.ei
  have hf : ∀ (ls : List ℕ) (i : ℕ) (q : ℚ), 0 ≤ q →
      0 ≤ (if i ∈ ls then q + rng.exps rng.ei else q) := by
    intro ls i q hq
    split_ifs
    · exact add_nonneg hq hw
    · exact hq
  have hev : ∀ p ∈ contEvents s.tree cfg.birth_rate cfg.death_rate s.leafNodes,
      p.1.1 ∈ s.leafNodes := fun p hp => contEvents_mem _ p hp
  have hreclen : (cfg.gsa_ntax.isSome &&
      (cfg.target_num_taxa == some s.leafNodes.length)) = true →
      s.leafNodes.length = target := by
    intro hrec
    rw [hcf] at hrec
    simp only [Bool.and_eq_true, beq_iff_eq, Option.some.injEq] at hrec
    exact hrec.2.symm
  have hmain : ∀ res, contGrow cfg s rng = res →
      (∀ s1 rng1, res = .ok (.next s1 rng1) →
        ContInv target s1 ∧ rng1.exps = rng.exps) ∧
      (∀ s1 rng1, res = .ok (.done s1 rng1) → FinalInv target s1) := by
    intro res h
    unfold contGrow at h
    dsimp only [Rng.drawExp] at h
    by_cases htot :
        ((contEvents s.tree cfg.birth_rate cfg.death_rate s.leafNodes).map
          Prod.snd).sum ≤ 0
    · rw [if_pos htot] at h
      subst h
      exact ⟨fun s1 rng1 hh => by simp at hh, fun s1 rng1 hh => by simp at hh⟩
    · rw [if_neg htot] at h
      by_cases hterm : ((cfg.gsa_ntax.isSome &&
          (cfg.target_num_taxa == some s.leafNodes.length)) &&
          cfg.terminate_at_full_tree) = true
      · have hterm2 := hterm
        rw [Bool.and_eq_true] at hterm2
        rw [if_pos hterm] at h
        rw [if_pos hterm2.1] at h
        subst h
        refine ⟨fun s1 rng1 hh => by simp at hh, fun s1 rng1 hh => ?_⟩
        simp only [Except.ok.injEq, StepRes.done.injEq] at hh
        obtain ⟨hs, -⟩ := hh
        rw [← hs]
        exact (ContInv_record hw (hreclen hterm2.1) hinv).1
      · rw [if_neg hterm] at h
        by_cases hrec : (cfg.gsa_ntax.isSome &&
            (cfg.target_num_taxa == some s.leafNodes.length)) = true
        · rw [if_pos hrec] at h
          have happ := @contApplyEvent_inv cfg target
            { tree := addLenTo s.leafNodes (rng.exps rng.ei) s.tree
              isRooted := s.isRooted, leafNodes := s.leafNodes
              totalTime := s.totalTime + rng.exps rng.ei
              slices := s.slices ++
                [(rng.exps rng.ei, contSnapshot s.tree s.leafNodes)]
              extinctTips := s.extinctTips, nextId := s.nextId }
            { rng with ei := rng.ei + 1 }
            (contEvents s.tree cfg.birth_rate cfg.death_rate s.leafNodes)
            ((contEvents s.tree cfg.birth_rate cfg.death_rate s.leafNodes).map
              Prod.snd).sum
            hgsa
            (ContInv_updLen
              (fun i l => if i ∈ s.leafNodes then l + rng.exps rng.ei else l)
              (hf s.leafNodes)
              (ContInv_record hw (hreclen hrec) hinv)
              (s.totalTime + rng.exps rng.ei))
            hev
          rcases hmt : cfg.max_time with _ | mt
          · simp only [hmt] at h
            rw [← h]
            exact ⟨fun s1 rng1 hh => happ.1 s1 rng1 hh,
              fun s1 rng1 hh => (happ.2 s1 rng1 hh).1⟩
          · simp only [hmt] at h
            by_cases hle : (s.totalTime + rng.exps rng.ei ≤ mt)
            · rw [if_pos hle] at h
              rw [← h]
              exact ⟨fun s1 rng1 hh => happ.1 s1 rng1 hh,
                fun s1 rng1 hh => (happ.2 s1 rng1 hh).1⟩
            · rw [if_neg hle] at h
              subst h
              refine ⟨fun s1 rng1 hh => ?_, fun s1 rng1 hh => by simp at hh⟩
              simp only [Except.ok.injEq, StepRes.next.injEq] at hh
              obtain ⟨hs, hr⟩ := hh
              rw [← hs, ← hr]
              refine ⟨?_, rfl⟩
              exact ContInv_updLen
                (fun i l => if i ∈ s.leafNodes then l + rng.exps rng.ei else l)
                (hf s.leafNodes)
                (ContInv_record hw (hreclen hrec) hinv)
                (s.totalTime + rng.exps rng.ei)
        · rw [if_neg hrec] at h
          have happ := @contApplyEvent_inv cfg target
            { tree := addLenTo s.leafNodes (rng.exps rng.ei) s.tree
              isRooted := s.isRooted, leafNodes := s.leafNodes
              totalTime := s.totalTime + rng.exps rng.ei
              slices := s.slices
              extinctTips := s.extinctTips, nextId := s.nextId }
            { rng with ei := rng.ei + 1 }
            (contEvents s.tree cfg.birth_rate cfg.death_rate s.leafNodes)
            ((contEvents s.tree cfg.birth_rate cfg.death_rate s.leafNodes).map
              Prod.snd).sum
            hgsa
            (ContInv_updLen
              (fun i l => if i ∈ s.leafNodes then l + rng.exps rng.ei else l)
              (hf s.leafNodes) hinv (s.totalTime + rng.exps rng.ei))
            hev
          rcases hmt : cfg.max_time with _ | mt
          · simp only [hmt] at h
            rw [← h]
            exact ⟨fun s1 rng1 hh => happ.1 s1 rng1 hh,
              fun s1 rng1 hh => (happ.2 s1 rng1 hh).1⟩
          · simp only [hmt] at h
            by_cases hle : (s.totalTime + rng.exps rng.ei ≤ mt)
            · rw [if_pos hle] at h
              rw [← h]
              exact ⟨fun s1 rng1 hh => happ.1 s1 rng1 hh,
                fun s1 rng1 hh => (happ.2 s1 rng1 hh).1⟩
            · rw [if_neg hle] at h
              subst h
              refine ⟨fun s1 rng1 hh => ?_, fun s1 rng1 hh => by simp at hh⟩
              simp only [Except.ok.injEq, StepRes.next.injEq] at hh
              obtain ⟨hs, hr⟩ := hh
              rw [← hs, ← hr]
              refine ⟨?_, rfl⟩
              exact ContInv_updLen
                (fun i l => if i ∈ s.leafNodes then l + rng.exps rng.ei else l)
                (hf s.leafNodes) hinv (s.totalTime + rng.exps rng.ei)
  exact ⟨fun s1 rng1 h => (hmain _ rfl).1 s1 rng1 h,
    fun s1 rng1 h => (hmain _ rfl).2 s1 rng1 h⟩

theorem contStep_inv {cfg : ContCfg} {target : ℕ} {s : ContState} {rng : Rng}
    (hgsa : cfg.gsa_ntax.isSome) (hcf : cfg.target_num_taxa = some target)
    (hinv : ContInv target s) (hv : Rng.ValidExp rng) :
    (∀ s1 rng1, contStep cfg s rng = .ok (.next s1 rng1) →
      ContInv target s1 ∧ rng1.exps = rng.exps) ∧
    (∀ s1 rng1, contStep cfg s rng = .ok (.done s1 rng1) →
      FinalInv target s1) := by
  have hmain : ∀ res, contStep cfg s rng = res →
      (∀ s1 rng1, res = .ok (.next s1 rng1) →
        ContInv target s1 ∧ rng1.exps = rng.exps) ∧
      (∀ s1 rng1, res = .ok (.done s1 rng1) → FinalInv target s1) := by
    intro res h
    unfold contStep at h
    rcases hg : cfg.gsa_ntax with _ | g
    · rw [hg] at hgsa
      simp at hgsa
    · simp only [hg] at h
      by_cases hge : g ≤ s.leafNodes.length
      · rw [if_pos hge] at h
        subst h
        refine ⟨fun s1 rng1 hh => by simp at hh, fun s1 rng1 hh => ?_⟩
        simp only [Except.ok.injEq, StepRes.done.injEq] at hh
        obtain ⟨hs, -⟩ := hh
        rw [← hs]
        exact hinv.1
      · rw [if_neg hge] at h
        rw [← h]
        exact contGrow_inv hgsa hcf hinv hv
  exact ⟨fun s1 rng1 h => (hmain _ rfl).1 s1 rng1 h,
    fun s1 rng1 h => (hmain _ rfl).2 s1 rng1 h⟩

theorem contLoop_inv {cfg : ContCfg} {target : ℕ}
    (hgsa : cfg.gsa_ntax.isSome) (hcf : cfg.target_num_taxa = some target) :
    ∀ (fuel : ℕ) (s : ContState) (rng : Rng) (sE : ContState) (rngE : Rng),
      ContInv target s → Rng.ValidExp rng →
      contLoop cfg fuel s rng = .ok (sE, rngE) → FinalInv target sE
  | 0, s, rng, sE, rngE, _, _, h => by simp [contLoop] at h
  | fuel + 1, s, rng, sE, rngE, hinv, hv, h => by
      rw [contLoop_succ] at h
      rcases hstep : contStep cfg s rng with e | st
      · rw [hstep] at h
        simp at h
      · rw [hstep] at h
        cases st with
        | done s1 rng1 =>
            simp only [Except.ok.injEq, Prod.mk.injEq] at h
            obtain ⟨hs, -⟩ := h
            rw [← hs]
            exact (contStep_inv hgsa hcf hinv hv).2 s1 rng1 hstep
        | next s1 rng1 =>
            obtain ⟨hinv1, hexps⟩ :=
              (contStep_inv hgsa hcf hinv hv).1 s1 rng1 hstep
            have hv1 : Rng.ValidExp rng1 := by
              intro i
              rw [hexps]
              exact hv i
            exact contLoop_inv hgsa hcf fuel s1 rng1 sE rngE hinv1 hv1 h

theorem contInit_inv (cfg : ContCfg) (target : ℕ) :
    ContInv target (contInit cfg) := by
  refine ⟨⟨?_, rfl, ?_, List.nodup_nil, ?_, ?_⟩, ?_, ?_⟩
  · simp [contInit]
  · intro q hq
    simp only [contInit, lensT_mk, lensF_nil, List.mem_singleton] at hq
    subst hq
    exact le_rfl
  · intro x hx
    simp [contInit] at hx
  · intro sl hsl
    simp [contInit] at hsl
  · intro i hi
    simp only [contInit, idsT_mk, idsF_nil, List.mem_singleton] at hi
    subst hi
    exact Nat.zero_lt_one
  · simp [contInit]

theorem resolveContCfg_ok_fields {kw : ContKwargs} {cfg : ContCfg}
    (h : resolveContCfg kw = .ok cfg) :
    cfg.target_num_taxa = contTarget kw ∧
    (contTarget kw ≠ none → cfg.gsa_ntax.isSome) := by
  rcases kw with ⟨b, d, sb, sd, ntax, ns, mt, gsa, rep⟩
  cases ntax <;> cases ns <;> cases gsa <;> cases mt <;>
    simp only [resolveContCfg, contTarget] at h ⊢ <;>
    first
    | (simp at h
       done)
    | (split_ifs at h <;>
        first
        | (simp at h
           done)
        | ((try simp only [Except.ok.injEq] at h)
           subst h
           simp))
    | ((try simp only [Except.ok.injEq] at h)
       subst h
       simp)

/-- Main correctness of the continuous engine: with a target configured and
non-negative exponential draws, a successful run returns a rooted tree with
exactly the target number of leaves and non-negative edge lengths. -/
theorem birth_death_tree_exact {kw : ContKwargs} {target : ℕ} {rng : Rng}
    {fuel : ℕ} {tr : PTree} {rooted : Bool}
    (ht : contTarget kw = some target) (htpos : 1 ≤ target)
    (hv : Rng.ValidExp rng)
    (hrun : birth_death_tree kw rng fuel = .ok (.ok (tr, rooted))) :
    numLeaves tr = target ∧ LensNonneg tr ∧ rooted = true := by
  unfold birth_death_tree at hrun
  rcases hres : resolveContCfg kw with e | cfg
  · rw [hres] at hrun
    simp at hrun
  · simp only [hres] at hrun
    obtain ⟨hcf0, hgsa0⟩ := resolveContCfg_ok_fields hres
    have hcf : cfg.target_num_taxa = some target := by rw [hcf0, ht]
    have hgsa : cfg.gsa_ntax.isSome := hgsa0 (by rw [ht]; simp)
    rcases hloop : contLoop cfg fuel (contInit cfg) rng with e | p
    · rw [hloop] at hrun
      simp at hrun
    · obtain ⟨sE, rngE⟩ := p
      simp only [hloop] at hrun
      rcases hfin : contFinalize cfg sE rngE with e | q
      · rw [hfin] at hrun
        simp at hrun
      · obtain ⟨s2, rng2⟩ := q
        simp only [hfin] at hrun
        simp only [Except.ok.injEq, Prod.mk.injEq] at hrun
        obtain ⟨htr, hrt⟩ := hrun
        have hFinal := contLoop_inv hgsa hcf fuel (contInit cfg) rng sE rngE
          (contInit_inv cfg target) hv hloop
        obtain ⟨hcount, hlens, hroot⟩ := contFinalize_spec hgsa htpos hFinal hfin
        rw [← htr, ← hrt]
        exact ⟨hcount, hlens, hroot⟩

/-! ### The discrete engine: exit condition and structural preservation -/

theorem discProcessLeaf_pres {cfg : DiscCfg} {s s1 : DiscState} {i : ℕ}
    {rng rng1 : Rng} (h : discProcessLeaf cfg s i rng = .ok (s1, rng1)) :
    (LensNonneg s.tree → LensNonneg s1.tree) ∧ s1.isRooted = s.isRooted := by
  unfold discProcessLeaf at h
  dsimp only [Rng.drawUnif, Rng.drawGauss] at h
  have hupd : LensNonneg s.tree →
      LensNonneg (updLenT (fun j l => if j = i then l + 1 else l) s.tree) := by
    intro hl
    refine lensT_updLenT_nonneg _ ?_ s.tree hl
    intro j q hq
    split_ifs
    · linarith
    · exact hq
  split_ifs at h
  all_goals
    first
    | (simp at h
       done)
    | ((try simp only [Except.ok.injEq, Prod.mk.injEq] at h)
       obtain ⟨hs, -⟩ := h
       rw [← hs]
       refine ⟨fun hl => ?_, rfl⟩
       first
       | exact lensT_addChT_nonneg i _ _ le_rfl le_rfl _ (hupd hl)
       | exact lensT_suppressT_nonneg _
           (fun q hq => hupd hl q ((lens_sublist_removeSubT i _).subset hq))
       | exact hupd hl)

theorem discGeneration_pres {cfg : DiscCfg} :
    ∀ (ls : List ℕ) (s s1 : DiscState) (rng rng1 : Rng),
      discGeneration cfg ls s rng = .ok (s1, rng1) →
      (LensNonneg s.tree → LensNonneg s1.tree) ∧ s1.isRooted = s.isRooted
  | [], s, s1, rng, rng1, h => by
      simp only [discGeneration, Except.ok.injEq, Prod.mk.injEq] at h
      obtain ⟨hs, -⟩ := h
      rw [← hs]
      exact ⟨fun hl => hl, rfl⟩
  | i :: rest, s, s1, rng, rng1, h => by
      rcases hp : discProcessLeaf cfg s i rng with e | p
      · rw [discGeneration_cons_err i rest hp] at h
        simp at h
      · obtain ⟨s2, rng2⟩ := p
        rw [discGeneration_cons i rest hp] at h
        obtain ⟨hl2, hr2⟩ := discProcessLeaf_pres hp
        obtain ⟨hl3, hr3⟩ := discGeneration_pres rest s2 s1 rng2 rng1 h
        exact ⟨fun hl => hl3 (hl2 hl), hr3.trans hr2⟩

theorem discLoop_pres {cfg : DiscCfg} :
    ∀ (fuel : ℕ) (s s1 : DiscState) (rng rng1 : Rng),
      discLoop cfg fuel s rng = .ok (s1, rng1) →
      (LensNonneg s.tree → LensNonneg s1.tree) ∧ s1.isRooted = s.isRooted
  | 0, s, s1, rng, rng1, h => by simp [discLoop] at h
  | fuel + 1, s, s1, rng, rng1, h => by
      by_cases hc : discCond cfg s
      · rcases hg : discGeneration cfg (leafIdsT s.tree) s rng with e | p
        · rw [discLoop_gen_err fuel hc hg] at h
          simp at h
        · obtain ⟨s2, rng2⟩ := p
          rw [discLoop_gen fuel hc hg] at h
          obtain ⟨hl2, hr2⟩ := discGeneration_pres (leafIdsT s.tree) s s2 rng rng2 hg
          obtain ⟨hl3, hr3⟩ := discLoop_pres fuel _ s1 rng2 rng1 h
          exact ⟨fun hl => hl3 (hl2 hl), hr3.trans hr2⟩
      · rw [discLoop_stop fuel hc] at h
        simp only [Except.ok.injEq, Prod.mk.injEq] at h
        obtain ⟨hs, -⟩ := h
        rw [← hs]
        exact ⟨fun hl => hl, rfl⟩

theorem discLoop_exit_cond {cfg : DiscCfg} :
    ∀ (fuel : ℕ) (s : DiscState) (rng : Rng) (s1 : DiscState) (rng1 : Rng),
      discLoop cfg fuel s rng = .ok (s1, rng1) → ¬ discCond cfg s1
  | 0, s, rng, s1, rng1, h => by simp [discLoop] at h
  | fuel + 1, s, rng, s1, rng1, h => by
      by_cases hc : discCond cfg s
      · rcases hg : discGeneration cfg (leafIdsT s.tree) s rng with e | p
        · rw [discLoop_gen_err fuel hc hg] at h
          simp at h
        · obtain ⟨s2, rng2⟩ := p
          rw [discLoop_gen fuel hc hg] at h
          exact discLoop_exit_cond fuel _ rng2 s1 rng1 h
      · rw [discLoop_stop fuel hc] at h
        simp only [Except.ok.injEq, Prod.mk.injEq] at h
        obtain ⟨hs, -⟩ := h
        rw [← hs]
        exact hc

theorem resolveDiscCfg_ok_fields {kw : DiscKwargs} {cfg : DiscCfg}
    (h : resolveDiscCfg kw = .ok cfg) :
    cfg.target_num_taxa = discTarget kw ∧ cfg.target_num_gens = kw.max_time := by
  unfold resolveDiscCfg at h
  split_ifs at h with hcond
  simp only [Except.ok.injEq] at h
  subst h
  exact ⟨rfl, rfl⟩

/-- Master theorem for the discrete engine: with a taxon target and no
generation bound, a successful run returns a rooted tree with nonnegative
edge lengths and at least the target number of leaves (the loop only stops
once the leaf count reaches the target, and a whole generation of births can
overshoot it). -/
theorem discrete_birth_death_tree_ge {kw : DiscKwargs} {T : ℕ} {rng : Rng}
    {fuel : ℕ} {tr : PTree} {rooted : Bool}
    (hT : discTarget kw = some T) (hG : kw.max_time = none)
    (hrun : discrete_birth_death_tree kw rng fuel = .ok (.ok (tr, rooted))) :
    T ≤ numLeaves tr ∧ LensNonneg tr ∧ rooted = true := by
  unfold discrete_birth_death_tree at hrun
  rcases hsim : discrete_birth_death_sim kw rng fuel with e | r
  · rw [hsim] at hrun
    simp at hrun
  · rw [hsim] at hrun
    cases r with
    | error e => simp at hrun
    | ok r =>
        simp only [Except.ok.injEq, Prod.mk.injEq] at hrun
        obtain ⟨htr, hrt⟩ := hrun
        unfold discrete_birth_death_sim at hsim
        rcases hres : resolveDiscCfg kw with e | cfg
        · simp only [hres] at hsim
          simp at hsim
        · simp only [hres, Except.ok.injEq] at hsim
          obtain ⟨hcf, hgens⟩ := resolveDiscCfg_ok_fields hres
          rcases hloop : discLoop cfg fuel (discInit cfg) rng with e | p
          · simp only [hloop] at hsim
            simp at hsim
          · obtain ⟨sE, rngE⟩ := p
            simp only [hloop] at hsim
            rcases hext : discExtension cfg sE.numGens fuel 0 rngE with e | q
            · simp only [hext] at hsim
              simp at hsim
            · obtain ⟨gta, rng2⟩ := q
              simp only [hext, Except.ok.injEq] at hsim
              have hexit := discLoop_exit_cond fuel (discInit cfg) rng sE rngE hloop
              obtain ⟨hlens, hroot⟩ :=
                discLoop_pres fuel (discInit cfg) sE rng rngE hloop
              have hle : T ≤ (leafIdsT sE.tree).length := by
                by_contra hlt
                push_neg at hlt
                exact hexit ⟨Or.inr ⟨T, by rw [hcf, hT], hlt⟩,
                  Or.inl (by rw [hgens, hG])⟩
              have htree : r.tree = addLenTo (leafIdsT sE.tree) (gta : ℚ) sE.tree := by
                rw [← hsim]
              have hroot2 : r.isRooted = sE.isRooted := by
                rw [← hsim]
              refine ⟨?_, ?_, ?_⟩
              · rw [← htr, htree]
                unfold numLeaves addLenTo
                rw [leafIdsT_updLenT]
                exact hle
              · rw [← htr, htree]
                unfold addLenTo
                refine lensT_updLenT_nonneg _ ?_ sE.tree ?_
                · intro i q hq
                  split_ifs
                  · have : (0 : ℚ) ≤ (gta : ℚ) := Nat.cast_nonneg gta
                    linarith
                  · exact hq
                · refine hlens ?_
                  intro q hq
                  have hq0 : q = 0 := by
                    simpa [discInit, lensT, lensF] using hq
                  simp [hq0]
              · rw [← hrt, hroot2, hroot]
                rfl

/-! ### Further helper theorems used by the claim theorems below -/

theorem birth_death_tree_error_iff_resolve (kw : ContKwargs) (rng : Rng)
    (fuel : ℕ) :
    (∃ e, birth_death_tree kw rng fuel = .error e) ↔
      (∃ e, resolveContCfg kw = .error e) := by
  constructor
  · rintro ⟨e, he⟩
    unfold birth_death_tree at he
    rcases h : resolveContCfg kw with e2 | cfg
    · exact ⟨e2, rfl⟩
    · simp only [h] at he
      exact Except.noConfusion he
  · rintro ⟨e, he⟩
    refine ⟨e, ?_⟩
    unfold birth_death_tree
    simp only [he]

theorem treeRunD3 :
    discrete_birth_death_tree kwD3 (rngD3 0 0 0) 6 = .ok (.ok (tD3, true)) := by
  simp only [discrete_birth_death_tree, runD3]
  rfl

/-! ### The claims, settled -/

section ClaimTheorems

attribute [local semireducible] Rat.add Rat.mul Rat.inv Rat.sub Rat.ofScientific

/-- C1: the slice-selection loop of `birth_death_tree` (source lines 240-251)
does NOT return the first slice whose cumulative duration meets the scaled
uniform draw, as the spec states: its loop body has no `break`, so the
selection is overwritten by every later slice once the remaining draw is
negative, and whenever the scaled draw is below the total duration the LAST
slice is returned.  On two slices of duration one with draw `1/5`, the code
selects the second slice while the spec's rule selects the first. -/
theorem slice_selection_last_slice :
    (∀ (l : List (ℚ × ℕ)) (sl : ℚ × ℕ) (u : ℚ),
      u < 1 → 0 < ((l ++ [sl]).map Prod.fst).sum →
      gsaSelectSlice (l ++ [sl]) u = some sl) ∧
    gsaSelectSlice [((1 : ℚ), 0), ((1 : ℚ), 1)] (1 / 5) = some (1, 1) ∧
    gsaSelectSliceAsSpecified [((1 : ℚ), 0), ((1 : ℚ), 1)] (1 / 5) = some (1, 0) ∧
    gsaSelectSlice [((1 : ℚ), 0), ((1 : ℚ), 1)] (1 / 5) ≠
      gsaSelectSliceAsSpecified [((1 : ℚ), 0), ((1 : ℚ), 1)] (1 / 5) :=
  ⟨fun l sl u hu hpos => gsaSelectSlice_last l sl u hu hpos,
   by decide, by decide, by decide⟩

theorem slice_selection_last_slice_witness :
    (1 : ℚ) / 5 < 1 ∧
    0 < (([((1 : ℚ), 0)] ++ [((1 : ℚ), 1)]).map Prod.fst).sum ∧
    gsaSelectSlice ([((1 : ℚ), 0)] ++ [((1 : ℚ), 1)]) (1 / 5) = some (1, 1) :=
  ⟨by decide, by decide,
   slice_selection_last_slice.1 [((1 : ℚ), 0)] ((1 : ℚ), 1) (1 / 5)
     (by decide) (by decide)⟩

/-- C2: the tolerance flag of `fit_pure_birth_model` is INVERTED relative to
the spec: on a degenerate likelihood range (here a single internal node age,
which drives the slope bound to zero), the call made with
`ignore_likelihood_calculation_failure = true` fails with the likelihood
error, while the call with the flag unset succeeds and reports negative
infinity. -/
theorem yule_ignore_flag_inverted :
    fit_pure_birth_model [(5 : ℚ)] true = .error .likelihoodFailure ∧
    fit_pure_birth_model [(5 : ℚ)] false = .ok ⟨0, .negInf⟩ := by
  constructor
  · decide
  · decide

/-- C3 (amended): a successful continuous run with target `ntax ≥ 1` and
nonnegative exponential draws returns a rooted tree with exactly `ntax`
leaves and nonnegative edge lengths; a successful discrete run with a taxon
target and no generation bound returns a rooted tree with nonnegative edge
lengths and AT LEAST the target number of leaves — the discrete engine can
overshoot the target, because a whole generation of simultaneous births is
applied before the leaf count is re-checked. -/
theorem target_tip_count_tree_shape :
    (∀ (kw : ContKwargs) (target : ℕ) (rng : Rng) (fuel : ℕ) (tr : PTree)
      (rooted : Bool),
      contTarget kw = some target → 1 ≤ target → Rng.ValidExp rng →
      birth_death_tree kw rng fuel = .ok (.ok (tr, rooted)) →
      numLeaves tr = target ∧ LensNonneg tr ∧ rooted = true) ∧
    (∀ (kw : DiscKwargs) (T : ℕ) (rng : Rng) (fuel : ℕ) (tr : PTree)
      (rooted : Bool),
      discTarget kw = some T → kw.max_time = none →
      discrete_birth_death_tree kw rng fuel = .ok (.ok (tr, rooted)) →
      T ≤ numLeaves tr ∧ LensNonneg tr ∧ rooted = true) :=
  ⟨fun _ _ _ _ _ _ h1 h2 h3 h4 => birth_death_tree_exact h1 h2 h3 h4,
   fun _ _ _ _ _ _ h1 h2 h3 => discrete_birth_death_tree_ge h1 h2 h3⟩

theorem target_tip_count_tree_shape_witness :
    (numLeaves treeA = 2 ∧ LensNonneg treeA ∧ true = true) ∧
    (3 ≤ numLeaves tD3 ∧ LensNonneg tD3 ∧ true = true) :=
  ⟨target_tip_count_tree_shape.1 kwA 2 (rngC 0 0 0) 6 treeA true (by decide)
      (by decide) (fun _ => zero_le_one) treeRunA,
   target_tip_count_tree_shape.2 kwD3 3 (rngD3 0 0 0) 6 tD3 true (by decide)
      rfl treeRunD3⟩

/-- C3 counterexample to the claim as stated: a discrete run with target
`ntax = 3` whose second generation fires two simultaneous births, returning
a tree with FOUR leaves. -/
theorem target_tip_count_overshoot :
    discTarget kwD3 = some 3 ∧
    discrete_birth_death_tree kwD3 (rngD3 0 0 0) 6 = .ok (.ok (tD3, true)) ∧
    numLeaves tD3 = 4 :=
  ⟨rfl, treeRunD3, by decide⟩

/-- C4: the post-stop extension of `discrete_birth_death_tree` is NOT
bounded by the configured `max_time`: its loop condition re-reads the
unchanged generation counter, so on a run that stopped at the target taxon
count (2 taxa after one generation, `max_time = 3`) it adds five extra
generations, representing `1 + 5 = 6 > 3` generations in the returned
tree. -/
theorem discrete_extension_exceeds_max_time :
    kwD4.max_time = some 3 ∧ kwD4.ntax = some 2 ∧
    discrete_birth_death_sim kwD4 (rngD4 0 0 0) 7 = .ok (.ok rD4) ∧
    numLeaves rD4.tree = 2 ∧
    rD4.numGens + rD4.gensToAdd = 6 ∧ ¬ (rD4.numGens + rD4.gensToAdd ≤ 3) :=
  ⟨rfl, rfl, runD4, by decide, rfl, by decide⟩

/-- C5 (amended): under the same random source, a run with
`gsa_ntax = target + 1` and a run with `gsa_ntax` omitted both return trees
with exactly `target` leaves, but NOT necessarily the same tree: the GSA run
keeps growing past the target, can record several slices, and rebuilds its
tree from a duration-weighted slice, as the counterexample
run (`gsa_plus_one_differs`) shows concretely. -/
theorem gsa_plus_one_same_size {kw : ContKwargs} {target : ℕ} {rng : Rng}
    {fuel : ℕ} {tr1 tr2 : PTree} {rooted1 rooted2 : Bool}
    (ht : contTarget kw = some target) (hgsa : kw.gsa_ntax = some (target + 1))
    (htpos : 1 ≤ target) (hv : Rng.ValidExp rng)
    (h1 : birth_death_tree kw rng fuel = .ok (.ok (tr1, rooted1)))
    (h2 : birth_death_tree { kw with gsa_ntax := none } rng fuel =
      .ok (.ok (tr2, rooted2))) :
    numLeaves tr1 = target ∧ numLeaves tr2 = target ∧
    numLeaves tr1 = numLeaves tr2 := by
  have e1 := birth_death_tree_exact ht htpos hv h1
  have ht2 : contTarget { kw with gsa_ntax := none } = some target := ht
  have e2 := birth_death_tree_exact ht2 htpos hv h2
  exact ⟨e1.1, e2.1, e1.1.trans e2.1.symm⟩

theorem gsa_plus_one_same_size_witness :
    numLeaves treeB = 2 ∧ numLeaves treeA = 2 ∧
    numLeaves treeB = numLeaves treeA :=
  gsa_plus_one_same_size (by decide) (by decide) (by decide)
    (fun _ => zero_le_one) treeRunB treeRunA

/-- C5 counterexample to the claim as stated: with the same random source,
`ntax = 2, gsa_ntax = 3` returns a different tree than `ntax = 2` alone, and
the GSA run records TWO slices, so the duration-weighted choice is not
irrelevant. -/
theorem gsa_plus_one_differs :
    kwB.ntax = some 2 ∧ kwB.gsa_ntax = some 3 ∧
    kwA = { kwB with gsa_ntax := none } ∧
    birth_death_tree kwB (rngC 0 0 0) 6 = .ok (.ok (treeB, true)) ∧
    birth_death_tree kwA (rngC 0 0 0) 6 = .ok (.ok (treeA, true)) ∧
    birth_death_sim kwB (rngC 0 0 0) 6 = .ok (.ok (sB4, rngC 4 4 12)) ∧
    sB4.slices.length = 2 ∧
    treeB ≠ treeA :=
  ⟨rfl, rfl, rfl, treeRunB, treeRunA, simRunB, rfl, by decide⟩

/-- C6: `birth_death_tree` fails with a configuration error (before any
simulation step: the outer `Except` layer is the validation layer) exactly
when no target count, namespace or max time is given while GSA is requested
or no max time is given either, or when `gsa_ntax` is strictly below the
target count. -/
theorem cont_config_error_characterization (kw : ContKwargs) (rng : Rng)
    (fuel : ℕ) :
    (∃ e, birth_death_tree kw rng fuel = .error e) ↔
      (contTarget kw = none ∧ (kw.gsa_ntax.isSome ∨ kw.max_time = none)) ∨
      (∃ t g, contTarget kw = some t ∧ kw.gsa_ntax = some g ∧ g < t) :=
  (birth_death_tree_error_iff_resolve kw rng fuel).trans
    (resolveContCfg_error_iff kw)

/-- C7: the two extinction-retry paths are asymmetric.  In the discrete
engine, a death event at the last (root) leaf with retry enabled only resets
the generation counter to zero; the tree keeps its node set (only the normal
per-generation edge extension of that leaf has been applied) and processing
continues.  In the continuous engine, a restart discards all non-root
structure — the restarted tree's node set is just the root — and resets
elapsed time to zero, clearing leaf and extinct-tip records. -/
theorem extinction_retry_asymmetry :
    (∀ (cfg : DiscCfg) (s : DiscState) (rng : Rng),
      cfg.repeat_until_success = true →
      ((ratesOf s.tree s.tree.rootId).getD (cfg.birth_rate, cfg.death_rate)).1 <
        rng.unifs rng.ui →
      rng.unifs rng.ui <
        ((ratesOf s.tree s.tree.rootId).getD (cfg.birth_rate, cfg.death_rate)).1 +
        ((ratesOf s.tree s.tree.rootId).getD (cfg.birth_rate, cfg.death_rate)).2 →
      discProcessLeaf cfg s s.tree.rootId rng =
        .ok ({ s with
          tree := updLenT (fun j l => if j = s.tree.rootId then l + 1 else l)
            s.tree
          numGens := 0 }, (rng.drawUnif).2) ∧
      idsT (updLenT (fun j l => if j = s.tree.rootId then l + 1 else l) s.tree) =
        idsT s.tree) ∧
    (∀ s : ContState,
      (contRestart s).leafNodes = [s.tree.rootId] ∧
      (contRestart s).totalTime = 0 ∧
      (contRestart s).extinctTips = [] ∧
      (contRestart s).isRooted = s.isRooted ∧
      idsT (contRestart s).tree = [s.tree.rootId]) :=
  ⟨fun cfg s rng h1 h2 h3 =>
    ⟨discProcessLeaf_retry_frame cfg s rng h1 h2 h3, idsT_updLenT _ s.tree⟩,
   contRestart_spec⟩

theorem extinction_retry_asymmetry_witness :
    (discProcessLeaf cfgW sW sW.tree.rootId (rngD3 0 0 0) =
        .ok ({ sW with
          tree := updLenT (fun j l => if j = sW.tree.rootId then l + 1 else l)
            sW.tree
          numGens := 0 }, ((rngD3 0 0 0).drawUnif).2) ∧
      idsT (updLenT (fun j l => if j = sW.tree.rootId then l + 1 else l)
        sW.tree) = idsT sW.tree) ∧
    ((contRestart sB1).leafNodes = [sB1.tree.rootId] ∧
      (contRestart sB1).totalTime = 0 ∧
      (contRestart sB1).extinctTips = [] ∧
      (contRestart sB1).isRooted = sB1.isRooted ∧
      idsT (contRestart sB1).tree = [sB1.tree.rootId]) :=
  ⟨extinction_retry_asymmetry.1 cfgW sW (rngD3 0 0 0) rfl (by decide)
      (by decide),
   extinction_retry_asymmetry.2 sB1⟩

/-- C8: `gsa_ntax` equal to the target count passes validation (the check
rejects only `gsa_ntax` strictly below the target, and resolves with GSA
active and the full-tree termination off), and a concrete such run from a
single-node tree with target two exits its growth loop without ever
recording a slice, so finalization fails with the assertion failure rather
than a configuration error. -/
theorem gsa_equal_target_passes_validation :
    (∀ (kw : ContKwargs) (t : ℕ),
      contTarget kw = some t → kw.gsa_ntax = some t →
      ∃ cfg : ContCfg, resolveContCfg kw = .ok cfg ∧ cfg.gsa_ntax = some t ∧
        cfg.target_num_taxa = some t ∧ cfg.terminate_at_full_tree = false) ∧
    birth_death_tree kwC8 (rngC 0 0 0) 3 = .ok (.error .assertionFailed) :=
  ⟨fun _ _ h1 h2 => resolveContCfg_gsa_eq_target h1 h2, runC8⟩

theorem gsa_equal_target_passes_validation_witness :
    (∃ cfg : ContCfg, resolveContCfg kwC8 = .ok cfg ∧ cfg.gsa_ntax = some 2 ∧
      cfg.target_num_taxa = some 2 ∧ cfg.terminate_at_full_tree = false) ∧
    birth_death_tree kwC8 (rngC 0 0 0) 3 = .ok (.error .assertionFailed) :=
  ⟨gsa_equal_target_passes_validation.1 kwC8 2 (by decide) (by decide),
   gsa_equal_target_passes_validation.2⟩

/-- C9: omitting the extinction-retry flag defaults it to TRUE in the
continuous engine and to FALSE in the discrete engine: each full call with
the flag omitted equals the same call with the engine's default spelled
out. -/
theorem repeat_default_asymmetry (kw : ContKwargs) (kw2 : DiscKwargs)
    (rng rng2 : Rng) (fuel fuel2 : ℕ) :
    (birth_death_tree { kw with repeat_until_success := none } rng fuel =
      birth_death_tree { kw with repeat_until_success := some true } rng fuel) ∧
    (discrete_birth_death_tree { kw2 with repeat_until_success := none } rng2
        fuel2 =
      discrete_birth_death_tree { kw2 with repeat_until_success := some false }
        rng2 fuel2) :=
  ⟨birth_death_tree_default_repeat kw rng fuel,
   discrete_birth_death_tree_default_repeat kw2 rng2 fuel2⟩

/-- C10: `fit_pure_birth_model` is invariant under permutation of the list
of internal node ages (it sorts the ages in descending order before any
other computation), so the caller need not supply a sorted list.  As a pure
function of the embedding, the call leaves the input list unchanged. -/
theorem yule_fit_perm_invariant (l1 l2 : List ℚ) (flag : Bool)
    (h : l1.Perm l2) :
    fit_pure_birth_model l1 flag = fit_pure_birth_model l2 flag :=
  fit_pure_birth_model_perm h flag

theorem yule_fit_perm_invariant_witness :
    fit_pure_birth_model [(5 : ℚ), 3] false = fit_pure_birth_model [3, 5] false :=
  yule_fit_perm_invariant [5, 3] [3, 5] false (List.Perm.swap 3 5 [])

end ClaimTheorems
